import Mathlib

/-!
The AST lifter of gnparser, `grammar/ast.go`.

A shallow embedding of the hand-written part of the `grammar` package.

* A Go `string` is a sequence of bytes (`GoString`); `[]rune(s)` and
  `string(runes)` are UTF-8 decoding and encoding.
* A Go pointer that may be nil is an `Option`, except `*node32`, whose nil
  is the constructor `node32.nil`.
* A Go panic (nil dereference, index or slice out of range) is `none`.
* The receiver `p *Engine` is passed and returned explicitly.
* Struct values replace the heap: the lifter allocates every node freshly, the
  one place where a pointer is shared (`he` in `newHybridFormulaNode`) is
  modelled explicitly.
-/

set_option autoImplicit false

namespace Gnparser

/-! ## Go strings -/

/-- One byte of a Go string. -/
abbrev byte := Fin 256

/-- A Go `string`: an immutable sequence of bytes. -/
abbrev GoString := List byte

/-- Go `len(s)` as an `int`. -/
def len (s : GoString) : Int := (s.length : Int)

/-- Go `s[i]` on a string: the byte at index `i`, a panic outside `0 <= i < len(s)`. -/
def index (s : GoString) (i : Int) : Option byte :=
  if 0 ≤ i ∧ i < len s then s[i.toNat]? else none

/-- Go `s[lo:hi]` on a string: a panic unless `0 <= lo <= hi <= len(s)`. -/
def slice (s : GoString) (lo hi : Int) : Option GoString :=
  if 0 ≤ lo ∧ lo ≤ hi ∧ hi ≤ len s then some ((s.drop lo.toNat).take (hi.toNat - lo.toNat)) else none

/-- The byte with the given value (reduced modulo 256). -/
def mkByte (n : Nat) : byte := Fin.ofNat n

/-- UTF-8 encoding of one rune (Go `utf8.EncodeRune` on a valid rune). -/
def encodeRune (c : Char) : GoString :=
  let n := c.toNat
  if n < 0x80 then [mkByte n]
  else if n < 0x800 then [mkByte (0xC0 + n / 64), mkByte (0x80 + n % 64)]
  else if n < 0x10000 then
    [mkByte (0xE0 + n / 4096), mkByte (0x80 + n / 64 % 64), mkByte (0x80 + n % 64)]
  else
    [mkByte (0xF0 + n / 262144), mkByte (0x80 + n / 4096 % 64), mkByte (0x80 + n / 64 % 64),
     mkByte (0x80 + n % 64)]

/-- Go `string(rs)` for a rune slice `rs`. -/
def encodeRunes : List Char → GoString
  | [] => []
  | c :: cs => encodeRune c ++ encodeRunes cs

/-- A Lean string literal as the Go string of its UTF-8 bytes. -/
def goStr (s : String) : GoString := encodeRunes s.data

/-- The Unicode replacement character `utf8.RuneError`. -/
def runeError : Char := Char.ofNat 0xFFFD

/-- Whether `b` is a UTF-8 continuation byte. -/
def isCont (b : byte) : Bool := 0x80 ≤ b.val && b.val ≤ 0xBF

/-- Go `utf8.DecodeRuneInString` on a non-empty string with first byte `b0`
and rest `bs`: the rune and its width in bytes. An invalid or short
encoding gives `(RuneError, 1)`. -/
def decodeRune (b0 : byte) (bs : GoString) : Char × Nat :=
  let x := b0.val
  if x < 0x80 then (Char.ofNat x, 1)
  else if 0xC2 ≤ x ∧ x ≤ 0xDF then
    match bs with
    | b1 :: _ =>
      if isCont b1 then (Char.ofNat ((x - 0xC0) * 64 + (b1.val - 0x80)), 2) else (runeError, 1)
    | _ => (runeError, 1)
  else if 0xE0 ≤ x ∧ x ≤ 0xEF then
    match bs with
    | b1 :: b2 :: _ =>
      let lo := if x = 0xE0 then 0xA0 else 0x80
      let hi := if x = 0xED then 0x9F else 0xBF
      if lo ≤ b1.val ∧ b1.val ≤ hi ∧ isCont b2 then
        (Char.ofNat ((x - 0xE0) * 4096 + (b1.val - 0x80) * 64 + (b2.val - 0x80)), 3)
      else (runeError, 1)
    | _ => (runeError, 1)
  else if 0xF0 ≤ x ∧ x ≤ 0xF4 then
    match bs with
    | b1 :: b2 :: b3 :: _ =>
      let lo := if x = 0xF0 then 0x90 else 0x80
      let hi := if x = 0xF4 then 0x8F else 0xBF
      if lo ≤ b1.val ∧ b1.val ≤ hi ∧ isCont b2 ∧ isCont b3 then
        (Char.ofNat ((x - 0xF0) * 262144 + (b1.val - 0x80) * 4096 + (b2.val - 0x80) * 64
          + (b3.val - 0x80)), 4)
      else (runeError, 1)
    | _ => (runeError, 1)
  else (runeError, 1)

/-- Rune-by-rune decoding with a step budget; `s.length` steps always suffice. -/
def decodeRunesAux : Nat → GoString → List Char
  | 0, _ => []
  | _ + 1, [] => []
  | k + 1, b0 :: bs =>
    let r := decodeRune b0 bs
    r.1 :: decodeRunesAux k (bs.drop (r.2 - 1))

/-- Go `[]rune(s)` (also the runes visited by `for _, v := range s`). -/
def decodeRunes (s : GoString) : List Char := decodeRunesAux s.length s

/-! ## Tokens, rules, warnings -/

/-- The rule identifiers of the generated PEG parser that `ast.go` names, and
`ruleOther k` for every other rule of the generated table. -/
inductive pegRule where
  | ruleSciName | ruleName | ruleTail | ruleHybridFormula | ruleNamedSpeciesHybrid
  | ruleNamedGenusHybrid | ruleSingleName | ruleNameApprox | ruleNameComp | ruleNameSpecies
  | ruleGenusWord | ruleInfraspGroup | ruleInfraspEpithet | ruleSpeciesEpithet | ruleComparison
  | ruleRank | ruleRankOtherUncommon | ruleRankVar | ruleRankForma | ruleRankSsp
  | ruleSubGenusOrSuperspecies | ruleSubGenus | ruleUninomialCombo | ruleRankUninomial
  | ruleUninomial | ruleUninomialWord | ruleAbbrGenus | ruleWord | ruleWord2StartDigit
  | ruleHybridChar | ruleApproxName | ruleApproxNameIgnored | ruleApproximation | ruleAuthorship
  | ruleOriginalAuthorship | ruleCombinationAuthorship | ruleBasionymAuthorshipYearMisformed
  | ruleBasionymAuthorship | ruleAuthorsGroup | ruleAuthorsTeam | ruleAuthorSep | ruleAuthorEx
  | ruleAuthorEmend | ruleAuthor | ruleUnknownAuthor | ruleAuthorWord | ruleAllCapsAuthorWord
  | ruleFilius | ruleAuthorPrefix | ruleYear | ruleYearRange | ruleYearWithDot | ruleYearApprox
  | ruleYearWithPage | ruleYearWithParens | ruleYearWithChar | ruleYearNum
  | ruleUpperCharExtended | ruleMiscodedChar | ruleLowerCharExtended
  | ruleMultipleSpace
  | ruleOther (k : Nat)

open pegRule

/-- An injective numbering of the rules, used to decide equality of rules. -/
def pegRule.code : pegRule → Nat
  | ruleSciName => 0
  | ruleName => 1
  | ruleTail => 2
  | ruleHybridFormula => 3
  | ruleNamedSpeciesHybrid => 4
  | ruleNamedGenusHybrid => 5
  | ruleSingleName => 6
  | ruleNameApprox => 7
  | ruleNameComp => 8
  | ruleNameSpecies => 9
  | ruleGenusWord => 10
  | ruleInfraspGroup => 11
  | ruleInfraspEpithet => 12
  | ruleSpeciesEpithet => 13
  | ruleComparison => 14
  | ruleRank => 15
  | ruleRankOtherUncommon => 16
  | ruleRankVar => 17
  | ruleRankForma => 18
  | ruleRankSsp => 19
  | ruleSubGenusOrSuperspecies => 20
  | ruleSubGenus => 21
  | ruleUninomialCombo => 22
  | ruleRankUninomial => 23
  | ruleUninomial => 24
  | ruleUninomialWord => 25
  | ruleAbbrGenus => 26
  | ruleWord => 27
  | ruleWord2StartDigit => 28
  | ruleHybridChar => 29
  | ruleApproxName => 30
  | ruleApproxNameIgnored => 31
  | ruleApproximation => 32
  | ruleAuthorship => 33
  | ruleOriginalAuthorship => 34
  | ruleCombinationAuthorship => 35
  | ruleBasionymAuthorshipYearMisformed => 36
  | ruleBasionymAuthorship => 37
  | ruleAuthorsGroup => 38
  | ruleAuthorsTeam => 39
  | ruleAuthorSep => 40
  | ruleAuthorEx => 41
  | ruleAuthorEmend => 42
  | ruleAuthor => 43
  | ruleUnknownAuthor => 44
  | ruleAuthorWord => 45
  | ruleAllCapsAuthorWord => 46
  | ruleFilius => 47
  | ruleAuthorPrefix => 48
  | ruleYear => 49
  | ruleYearRange => 50
  | ruleYearWithDot => 51
  | ruleYearApprox => 52
  | ruleYearWithPage => 53
  | ruleYearWithParens => 54
  | ruleYearWithChar => 55
  | ruleYearNum => 56
  | ruleUpperCharExtended => 57
  | ruleMiscodedChar => 58
  | ruleLowerCharExtended => 59
  | ruleMultipleSpace => 60
  | ruleOther k => 61 + k

/-- The rule with a given number. -/
def pegRule.ofCode (n : Nat) : pegRule :=
  match n with
  | 0 => ruleSciName
  | 1 => ruleName
  | 2 => ruleTail
  | 3 => ruleHybridFormula
  | 4 => ruleNamedSpeciesHybrid
  | 5 => ruleNamedGenusHybrid
  | 6 => ruleSingleName
  | 7 => ruleNameApprox
  | 8 => ruleNameComp
  | 9 => ruleNameSpecies
  | 10 => ruleGenusWord
  | 11 => ruleInfraspGroup
  | 12 => ruleInfraspEpithet
  | 13 => ruleSpeciesEpithet
  | 14 => ruleComparison
  | 15 => ruleRank
  | 16 => ruleRankOtherUncommon
  | 17 => ruleRankVar
  | 18 => ruleRankForma
  | 19 => ruleRankSsp
  | 20 => ruleSubGenusOrSuperspecies
  | 21 => ruleSubGenus
  | 22 => ruleUninomialCombo
  | 23 => ruleRankUninomial
  | 24 => ruleUninomial
  | 25 => ruleUninomialWord
  | 26 => ruleAbbrGenus
  | 27 => ruleWord
  | 28 => ruleWord2StartDigit
  | 29 => ruleHybridChar
  | 30 => ruleApproxName
  | 31 => ruleApproxNameIgnored
  | 32 => ruleApproximation
  | 33 => ruleAuthorship
  | 34 => ruleOriginalAuthorship
  | 35 => ruleCombinationAuthorship
  | 36 => ruleBasionymAuthorshipYearMisformed
  | 37 => ruleBasionymAuthorship
  | 38 => ruleAuthorsGroup
  | 39 => ruleAuthorsTeam
  | 40 => ruleAuthorSep
  | 41 => ruleAuthorEx
  | 42 => ruleAuthorEmend
  | 43 => ruleAuthor
  | 44 => ruleUnknownAuthor
  | 45 => ruleAuthorWord
  | 46 => ruleAllCapsAuthorWord
  | 47 => ruleFilius
  | 48 => ruleAuthorPrefix
  | 49 => ruleYear
  | 50 => ruleYearRange
  | 51 => ruleYearWithDot
  | 52 => ruleYearApprox
  | 53 => ruleYearWithPage
  | 54 => ruleYearWithParens
  | 55 => ruleYearWithChar
  | 56 => ruleYearNum
  | 57 => ruleUpperCharExtended
  | 58 => ruleMiscodedChar
  | 59 => ruleLowerCharExtended
  | 60 => ruleMultipleSpace
  | k + 61 => ruleOther k

instance : DecidableEq pegRule := fun a b =>
  have inj : a.code = b.code → a = b := fun h => by
    have back : ∀ r : pegRule, pegRule.ofCode r.code = r := fun r => by
      cases r <;> first | rfl | simp [pegRule.code, pegRule.ofCode, Nat.add_comm]
    have e := congrArg pegRule.ofCode h
    rwa [back, back] at e
  if h : a.code = b.code then isTrue (inj h)
  else isFalse (fun e => h (congrArg pegRule.code e))

/-- The warnings that `ast.go` raises. -/
inductive Warning where
  | SpaceMultipleWarn | TailWarn | HybridFormulaWarn | HybridFormulaIncompleteWarn
  | HybridFormulaProbIncompleteWarn | HybridNamedWarn | HybridCharNoSpaceWarn
  | UninomialComboWarn | GenusAbbrWarn | RankUncommonWarn | AuthMisformedYearWarn
  | AuthExWarn | AuthShortWarn | AuthUpperCaseWarn | YearParensWarn | YearCharWarn
  | YearQuestionWarn | CharBadWarn
  deriving DecidableEq

open Warning

/-- The word types that `ast.go` assigns; `ZeroType` is the zero value of the
Go type `WordType`, which a `Pos` literal without `Type` carries. -/
inductive WordType where
  | ZeroType | GenusType | SubGenusType | SpEpithetType | InfraSpEpithetType | UninomialType
  | RankType | RankUniType | HybridCharType | AuthorWordType | AuthorWordFiliusType
  | YearType | YearApproximateType
  deriving DecidableEq

open WordType

/-- A token of the recogniser: a rule and a rune span of the buffer. -/
structure token32 where
  pegRule : pegRule
  begin : Nat
  end_ : Nat
  deriving DecidableEq

/-- A `*node32`: nil, or a node with its token, first child `up` and next
sibling `next`. -/
inductive node32 where
  | nil : node32
  | mk (token32 : token32) (up next : node32) : node32
  deriving DecidableEq

/-- The set `nodeRules`: the rules that become nodes of the output tree. -/
def nodeRules (r : pegRule) : Bool :=
  match r with
  | ruleSciName | ruleName | ruleTail | ruleHybridFormula | ruleNamedSpeciesHybrid
  | ruleNamedGenusHybrid | ruleSingleName | ruleNameApprox | ruleNameComp | ruleNameSpecies
  | ruleGenusWord | ruleInfraspGroup | ruleInfraspEpithet | ruleSpeciesEpithet | ruleComparison
  | ruleRank | ruleRankOtherUncommon | ruleRankVar | ruleRankForma | ruleRankSsp
  | ruleSubGenusOrSuperspecies | ruleSubGenus | ruleUninomialCombo | ruleRankUninomial
  | ruleUninomial | ruleUninomialWord | ruleAbbrGenus | ruleWord | ruleWord2StartDigit
  | ruleHybridChar | ruleApproxName | ruleApproxNameIgnored | ruleApproximation | ruleAuthorship
  | ruleOriginalAuthorship | ruleCombinationAuthorship | ruleBasionymAuthorshipYearMisformed
  | ruleBasionymAuthorship | ruleAuthorsGroup | ruleAuthorsTeam | ruleAuthorSep | ruleAuthorEx
  | ruleAuthorEmend | ruleAuthor | ruleUnknownAuthor | ruleAuthorWord | ruleAllCapsAuthorWord
  | ruleFilius | ruleAuthorPrefix | ruleYear | ruleYearRange | ruleYearWithDot | ruleYearApprox
  | ruleYearWithPage | ruleYearWithParens | ruleYearWithChar | ruleYearNum
  | ruleUpperCharExtended | ruleMiscodedChar | ruleLowerCharExtended => true
  | _ => false


/-- The byte of an ASCII character constant such as `'.'`. -/
def ch (c : Char) : byte := mkByte c.toNat

/-- Go `n.token32` : a nil dereference panics. -/
def node32.token32? : node32 → Option token32
  | .nil => none
  | .mk t _ _ => some t

/-- Go `n.up` : a nil dereference panics. -/
def node32.up? : node32 → Option node32
  | .nil => none
  | .mk _ up _ => some up

/-- Go `n.next` : a nil dereference panics. -/
def node32.next? : node32 → Option node32
  | .nil => none
  | .mk _ _ next => some next

/-! ## The typed name tree -/

structure Pos where
  Type_ : WordType
  Start : Int
  End : Int
  deriving DecidableEq

structure wordNode where
  Value : GoString
  NormValue : GoString
  Pos : Pos
  deriving DecidableEq

structure yearNode where
  Word : Option wordNode
  Approximate : Bool
  deriving DecidableEq

structure authorNode where
  Value : GoString
  Words : List wordNode
  deriving DecidableEq

structure authorsTeamNode where
  Authors : List authorNode
  Years : List yearNode
  deriving DecidableEq

structure authorsGroupNode where
  Team1 : Option authorsTeamNode
  Team2Type : Option wordNode
  Team2 : Option authorsTeamNode
  Parens : Bool
  deriving DecidableEq

structure authorshipNode where
  OriginalAuthors : Option authorsGroupNode
  CombinationAuthors : Option authorsGroupNode
  deriving DecidableEq

structure rankNode where
  Word : Option wordNode
  deriving DecidableEq

structure rankUninomialNode where
  Word : Option wordNode
  deriving DecidableEq

structure spEpithetNode where
  Word : Option wordNode
  Authorship : Option authorshipNode
  deriving DecidableEq

structure infraspEpithetNode where
  Word : Option wordNode
  Rank : Option rankNode
  Authorship : Option authorshipNode
  deriving DecidableEq

structure speciesNode where
  Genus : Option wordNode
  SubGenus : Option wordNode
  SpEpithet : Option spEpithetNode
  InfraSpecies : List infraspEpithetNode
  deriving DecidableEq

structure uninomialNode where
  Word : Option wordNode
  Authorship : Option authorshipNode
  deriving DecidableEq

structure uninomialComboNode where
  Uninomial1 : Option uninomialNode
  Uninomial2 : Option uninomialNode
  Rank : Option rankUninomialNode
  deriving DecidableEq

structure namedSpeciesHybridNode where
  Genus : Option wordNode
  Hybrid : Option wordNode
  SpEpithet : Option spEpithetNode
  deriving DecidableEq

/-- A `hybridElement` struct; `N` is the interface type `Name`. -/
structure hybridElement (N : Type) where
  HybridChar : Option wordNode
  Species : N

/-- A `hybridFormulaNode`. The slice `HybridElements []*hybridElement` holds
pointers: `heap` lists the `hybridElement` structs they point to, and an entry
`i` of `HybridElements` is the address of `heap[i]`, so that two entries may be
the same pointer. An address outside `heap` stands for a nil pointer. -/
structure hybridFormulaNode (N : Type) where
  FirstSpecies : N
  heap : List (hybridElement N)
  HybridElements : List Nat

/-- A `namedGenusHybridNode` with its embedded `Name`. -/
structure namedGenusHybridNode (N : Type) where
  Hybrid : Option wordNode
  Name : N

/-- The interface `Name` with the dynamic types the lifter stores in it.
`nil` is the nil interface; `namedGenusHybrid none` is the interface holding
the nil `*namedGenusHybridNode` that `newNamedGenusHybridNode` may return; every
other constructor holds a non-nil pointer. -/
inductive Name where
  | nil
  | species (sp : speciesNode)
  | uninomial (u : uninomialNode)
  | uninomialCombo (uc : uninomialComboNode)
  | hybridFormula (hf : hybridFormulaNode Name)
  | namedGenusHybrid (nhn : Option (namedGenusHybridNode Name))
  | namedSpeciesHybrid (nhl : namedSpeciesHybridNode)

/-- Go `name == nil` for an interface value. -/
def Name.isNil : Name → Bool
  | .nil => true
  | _ => false

structure ScientificNameNode where
  Verbatim : GoString
  VerbatimID : GoString
  Name : Name
  Tail : GoString
  Warnings : List Warning

/-- Functions of other packages that the translated code calls. -/
structure Ext where
  /-- `str.ToASCII`; `none` is a returned error. -/
  ToASCII : GoString → Option GoString
  /-- `unicode.IsUpper`. -/
  IsUpper : Char → Bool
  /-- `strings.ToLower`. -/
  ToLower : GoString → GoString
  /-- `uuid5.UUID5(s).String()`. -/
  UUID5 : GoString → GoString
  /-- The order in which `for k := range p.Warnings` visits the keys of the
  map, which Go leaves unspecified: some rearrangement of the keys. -/
  rangeWarnings : List Warning → List Warning
  /-- A `range` over a map visits every key exactly once. -/
  rangeWarnings_perm : ∀ ws, (rangeWarnings ws).Perm ws

/-- Modelled from the spec: `str.JoinStrings`, whose source is not among the
translated files: "returns `a` if `b` is empty, `b` if `a` is empty, otherwise
`a+sep+b`". -/
def JoinStrings (a b sep : GoString) : GoString :=
  if b = [] then a else if a = [] then b else a ++ sep ++ b

/-- The engine: the buffer and token list of the generated parser and the
fields of `BaseEngine`. The map `Warnings` is the list of its keys, without
repetition, in the order they were added; nil and the empty map are `[]`. -/
structure Engine where
  Buffer : GoString
  Tokens : List token32
  SN : Option ScientificNameNode
  root : node32
  Warnings : List Warning

def Engine.addWarn (p : Engine) (w : Warning) : Engine :=
  if w ∈ p.Warnings then p else { p with Warnings := p.Warnings ++ [w] }

def stackNodeIsWithin (n : node32) (t : token32) : Option Bool :=
  match n with
  | .nil => none
  | .mk nt _ _ => some (decide (nt.begin ≥ t.begin) && decide (nt.end_ ≤ t.end_))

def Engine.newNode (p : Engine) (t : token32) : (node32 × Bool) × Engine :=
  if nodeRules t.pegRule then ((node32.mk t .nil .nil, false), p)
  else
    let p1 := if t.pegRule = ruleMultipleSpace then p.addWarn SpaceMultipleWarn else p
    ((node32.nil, true), p1)

/-- The inner loop of `OutputAST`: pops the stack (top first) into the child
list of `node` while the top lies within `token`. -/
def OutputAST.pop (token : token32) : node32 → List node32 → Option (node32 × List node32)
  | node, [] => some (node, [])
  | node, s :: down =>
    match stackNodeIsWithin s token with
    | none => none
    | some false => some (node, s :: down)
    | some true =>
      match s, node with
      | .mk st sup _, .mk nt nup nnext =>
        OutputAST.pop token (node32.mk nt (node32.mk st sup nup) nnext) down
      | _, _ => none

/-- The outer loop of `OutputAST` over the tokens, with the stack top first. -/
def OutputAST.loop : List token32 → List node32 × Engine → Option (List node32 × Engine)
  | [], st => some st
  | token :: rest, (stack, p) =>
    match p.newNode token with
    | ((_, true), p1) => OutputAST.loop rest (stack, p1)
    | ((node, false), p1) =>
      match OutputAST.pop token node stack with
      | none => none
      | some (node1, stack1) => OutputAST.loop rest (node1 :: stack1, p1)

def Engine.OutputAST (p : Engine) : Option Engine :=
  match OutputAST.loop p.Tokens ([], p) with
  | none => none
  | some ([], p1) => some p1
  | some (top :: _, p1) => some { p1 with root := top }

/-- Post-order of a node and its following siblings. -/
def node32.forest : node32 → List token32
  | .nil => []
  | .mk t up next => up.forest ++ [t] ++ next.forest

/-- Post-order of the tree under one node: its children in list order, then
the node. -/
def node32.postorder : node32 → List token32
  | .nil => []
  | .mk t up _ => up.forest ++ [t]

/-- The trees of a stack (top first), flattened from the bottom to the top. -/
def stackPostorder : List node32 → List token32
  | [] => []
  | s :: down => stackPostorder down ++ s.postorder

/-- Go `string([]rune(p.Buffer)[t.begin:t.end])`; the capacity of the rune
slice is taken to be its length. -/
def Engine.nodeValue (p : Engine) (n : node32) : Option GoString :=
  match n with
  | .nil => none
  | .mk t _ _ =>
    let rs := decodeRunes p.Buffer
    if t.begin ≤ t.end_ ∧ t.end_ ≤ rs.length then
      some (encodeRunes ((rs.drop t.begin).take (t.end_ - t.begin)))
    else none

/-- A node and its following siblings. -/
def node32.siblings : node32 → List node32
  | .nil => []
  | .mk t up next => node32.mk t up next :: next.siblings

/-- The loop of `flatChildren` from a node: the node, its following siblings,
then the same from its first child. -/
def node32.spine : node32 → List node32
  | .nil => []
  | .mk t up next => (node32.mk t up next :: next.siblings) ++ up.spine

def node32.flatChildren : node32 → Option (List node32)
  | .nil => none
  | .mk _ up _ => some up.spine

/-- The method `normalize`: the word afterwards, and whether an error was
returned. -/
def wordNode.normalize (x : Ext) (w : wordNode) : wordNode × Bool :=
  match x.ToASCII w.Value with
  | none => (w, true)
  | some nv => ({ w with NormValue := nv }, false)

def newWordNode.loop (x : Ext) : List node32 → wordNode × Engine → Option (wordNode × Engine)
  | [], st => some st
  | v :: vs, (wrd, p) =>
    match v.token32? with
    | none => none
    | some t =>
      if t.pegRule = ruleUpperCharExtended ∨ t.pegRule = ruleLowerCharExtended then
        newWordNode.loop x vs ((wrd.normalize x).1, p.addWarn CharBadWarn)
      else newWordNode.loop x vs (wrd, p)

def Engine.newWordNode (x : Ext) (p : Engine) (n : node32) (wt : WordType) :
    Option (wordNode × Engine) :=
  match n.token32?, p.nodeValue n, n.flatChildren with
  | some t, some val, some children =>
    newWordNode.loop x children
      ({ Value := val, NormValue := val, Pos := { Type_ := wt, Start := t.begin, End := t.end_ } }, p)
  | _, _, _ => none

/-! ## Authors and years -/

/-- The number of runes `v` of `s` with `unicode.IsUpper(v)`. -/
def countUpper (x : Ext) (s : GoString) : Nat := ((decodeRunes s).filter x.IsUpper).length

def Engine.authorWord (x : Ext) (p : Engine) (n : node32) : Option (wordNode × Engine) :=
  match p.newWordNode x n AuthorWordType with
  | none => none
  | some (w, p1) =>
    match n.up? with
    | some (.mk ut _ _) =>
      if ut.pegRule = ruleAllCapsAuthorWord then
        if countUpper x w.Value > 2 then
          let nv := w.NormValue
          match index nv 0, slice nv 1 (len nv) with
          | some b0, some rest =>
            some ({ w with NormValue := encodeRune (Char.ofNat b0.val) ++ x.ToLower rest },
              p1.addWarn AuthUpperCaseWarn)
          | _, _ => none
        else some (w, p1)
      else some (w, p1)
    | _ => some (w, p1)

/-- The loop of `newAuthorNode` over the children of an Author node. -/
def newAuthorNode.loop (x : Ext) :
    node32 → List wordNode × GoString × Engine → Option (List wordNode × GoString × Engine)
  | .nil, st => some st
  | .mk t up next, (ws, val, p) =>
    let n := node32.mk t up next
    let r :=
      if t.pegRule = ruleFilius then
        match p.newWordNode x n AuthorWordFiliusType with
        | none => none
        | some (w, p1) => some ({ w with NormValue := goStr "fil." }, p1)
      else p.authorWord x n
    match r with
    | none => none
    | some (w, p1) =>
      newAuthorNode.loop x next (ws ++ [w], JoinStrings val w.NormValue (goStr " "), p1)

def Engine.newAuthorNode (x : Ext) (p : Engine) (n : node32) : Option (authorNode × Engine) :=
  match n.up? with
  | none => none
  | some c =>
    match newAuthorNode.loop x c ([], [], p) with
    | none => none
    | some (ws, val, p1) =>
      let p2 := if len val < 2 then p1.addWarn AuthShortWarn else p1
      some ({ Value := val, Words := ws }, p2)

/-- The loop of `newYearNode` over `nd.flatChildren()`. -/
def newYearNode.loop (x : Ext) :
    List node32 → Option wordNode × Bool × Engine → Option (Option wordNode × Bool × Engine)
  | [], st => some st
  | v :: vs, (w, appr, p) =>
    match v.token32? with
    | none => none
    | some t =>
      if t.pegRule = ruleYearWithParens then
        newYearNode.loop x vs (w, true, p.addWarn YearParensWarn)
      else if t.pegRule = ruleYearWithChar then
        match (p.addWarn YearCharWarn).newWordNode x v YearType with
        | none => none
        | some (w1, p1) =>
          match slice w1.Value 0 (len w1.Value - 1) with
          | none => none
          | some val => newYearNode.loop x vs (some { w1 with Value := val }, appr, p1)
      else if t.pegRule = ruleYearNum then
        let r := match w with
          | none => p.newWordNode x v YearType
          | some w0 => some (w0, p)
        match r with
        | none => none
        | some (w1, p1) =>
          match index w1.Value (len w1.Value - 1) with
          | none => none
          | some c =>
            if c = ch '?' then newYearNode.loop x vs (some w1, true, p1.addWarn YearQuestionWarn)
            else newYearNode.loop x vs (some w1, appr, p1)
      else newYearNode.loop x vs (w, appr, p)

def Engine.newYearNode (x : Ext) (p : Engine) (nd : node32) : Option (yearNode × Engine) :=
  match nd.flatChildren with
  | none => none
  | some nodes =>
    match newYearNode.loop x nodes (none, false, p) with
    | none => none
    | some (w, appr, p1) =>
      let r := match w with
        | none => p1.newWordNode x nd YearType
        | some w0 => some (w0, p1)
      match r with
      | none => none
      | some (w1, p2) =>
        let w2 := if appr then { w1 with Pos := { w1.Pos with Type_ := YearApproximateType } } else w1
        some ({ Word := some w2, Approximate := appr }, p2)

/-- The first loop of `newAuthorTeam`: the Author and the Year nodes among a
node and its following siblings. -/
def newAuthorTeam.collect : node32 → List node32 × List node32 → List node32 × List node32
  | .nil, acc => acc
  | .mk t up next, (anodes, ynodes) =>
    if t.pegRule = ruleAuthor then
      newAuthorTeam.collect next (anodes ++ [node32.mk t up next], ynodes)
    else if t.pegRule = ruleYear then
      newAuthorTeam.collect next (anodes, ynodes ++ [node32.mk t up next])
    else newAuthorTeam.collect next (anodes, ynodes)

/-- A loop `for i, v := range nodes { out[i] = f(v) }` with the engine threaded. -/
def liftNodes {α : Type} (f : Engine → node32 → Option (α × Engine)) :
    List node32 → Engine → Option (List α × Engine)
  | [], p => some ([], p)
  | v :: vs, p =>
    match f p v with
    | none => none
    | some (a, p1) =>
      match liftNodes f vs p1 with
      | none => none
      | some (as, p2) => some (a :: as, p2)

def Engine.newAuthorTeam (x : Ext) (p : Engine) (n : node32) : Option (authorsTeamNode × Engine) :=
  match n.up? with
  | none => none
  | some c =>
    let nodes := newAuthorTeam.collect c ([], [])
    match liftNodes (fun q v => q.newAuthorNode x v) nodes.1 p with
    | none => none
    | some (aus, p1) =>
      match liftNodes (fun q v => q.newYearNode x v) nodes.2 p1 with
      | none => none
      | some (yrs, p2) => some ({ Authors := aus, Years := yrs }, p2)

def Engine.newAuthorsGroupNode (x : Ext) (p : Engine) (n : node32) :
    Option (authorsGroupNode × Engine) :=
  match n.up? with
  | none => none
  | some c =>
    match p.newAuthorTeam x c, c.next? with
    | some (t1, p1), some n1 =>
      let ag : authorsGroupNode := { Team1 := some t1, Team2Type := none, Team2 := none, Parens := false }
      match n1 with
      | .nil => some (ag, p1)
      | .mk tk _ n2 =>
        if tk.pegRule ≠ ruleAuthorEx then some (ag, p1)
        else
          match (p1.addWarn AuthExWarn).newWordNode x n1 AuthorWordType with
          | none => none
          | some (t2t, p2) =>
            let t2t1 : wordNode := { t2t with NormValue := goStr "ex" }
            match n2 with
            | .nil => some (ag, p2)
            | .mk tk2 _ _ =>
              if tk2.pegRule ≠ ruleAuthorsTeam then some (ag, p2)
              else
                match p2.newAuthorTeam x n2 with
                | none => none
                | some (t2, p3) => some ({ ag with Team2Type := some t2t1, Team2 := some t2 }, p3)
    | _, _ => none

/-- The loop of `newAuthorshipNode`; the state is `oa`, `ca`, `parens` and the
engine. -/
def newAuthorshipNode.loop (x : Ext) :
    node32 → Option authorsGroupNode × Option authorsGroupNode × Bool × Engine →
      Option (Option authorsGroupNode × Option authorsGroupNode × Bool × Engine)
  | .nil, st => some st
  | .mk t up next, (oa, ca, parens, p) =>
    if t.pegRule = ruleOriginalAuthorship then
      match up with
      | .nil => none
      | .mk ot oup onext =>
        let r : Option (node32 × Bool × Engine) :=
          if ot.pegRule = ruleBasionymAuthorshipYearMisformed then
            some (oup, true, p.addWarn AuthMisformedYearWarn)
          else if ot.pegRule = ruleBasionymAuthorship then some (oup, true, p)
          else some (node32.mk ot oup onext, parens, p)
        match r with
        | none => none
        | some (on1, parens1, p1) =>
          match p1.newAuthorsGroupNode x on1 with
          | none => none
          | some (g, p2) =>
            newAuthorshipNode.loop x next (some { g with Parens := parens1 }, ca, parens1, p2)
    else if t.pegRule = ruleCombinationAuthorship then
      match p.newAuthorsGroupNode x up with
      | none => none
      | some (g, p1) => newAuthorshipNode.loop x next (oa, some g, parens, p1)
    else newAuthorshipNode.loop x next (oa, ca, parens, p)

def Engine.newAuthorshipNode (x : Ext) (p : Engine) (n : node32) :
    Option (authorshipNode × Engine) :=
  match n.up? with
  | none => none
  | some c =>
    match newAuthorshipNode.loop x c (none, none, false, p) with
    | none => none
    | some (oa, ca, _, p1) => some ({ OriginalAuthors := oa, CombinationAuthors := ca }, p1)

/-! ## Ranks, uninomials, species -/

def Engine.newRankNode (x : Ext) (p : Engine) (n : node32) : Option (rankNode × Engine) :=
  match n with
  | .nil => none
  | .mk _ .nil _ =>
    match p.newWordNode x n RankType with
    | none => none
    | some (w, p1) => some ({ Word := some w }, p1)
  | .mk _ (.mk ct cup cnext) _ =>
    match p.newWordNode x (node32.mk ct cup cnext) RankType with
    | none => none
    | some (w, p1) =>
      if ct.pegRule = ruleRankForma then some ({ Word := some { w with NormValue := goStr "fm." } }, p1)
      else if ct.pegRule = ruleRankVar then
        match index w.Value 0 with
        | none => none
        | some b =>
          if b = ch 'n' then some ({ Word := some { w with NormValue := goStr "nvar." } }, p1)
          else some ({ Word := some { w with NormValue := goStr "var." } }, p1)
      else if ct.pegRule = ruleRankSsp then
        some ({ Word := some { w with NormValue := goStr "ssp." } }, p1)
      else if ct.pegRule = ruleRankOtherUncommon then
        some ({ Word := some w }, p1.addWarn RankUncommonWarn)
      else some ({ Word := some w }, p1)

def Engine.newUninomialNode (x : Ext) (p : Engine) (n : node32) : Option (uninomialNode × Engine) :=
  match n.up? with
  | none => none
  | some wn =>
    match p.newWordNode x wn UninomialType, wn.next? with
    | some (w, p1), some an =>
      match an with
      | .nil => some ({ Word := some w, Authorship := none }, p1)
      | _ =>
        match p1.newAuthorshipNode x an with
        | none => none
        | some (au, p2) => some ({ Word := some w, Authorship := some au }, p2)
    | _, _ => none

def Engine.newRankUninomialNode (x : Ext) (p : Engine) (n : node32) :
    Option (rankUninomialNode × Engine) :=
  match p.newWordNode x n RankUniType with
  | none => none
  | some (r, p1) => some ({ Word := some r }, p1)

def Engine.newUninomialComboNode (x : Ext) (p : Engine) (n : node32) :
    Option (uninomialComboNode × Engine) :=
  match n.up? with
  | some (.mk t up next) =>
    let c := node32.mk t up next
    if t.pegRule = ruleUninomial then
      match p.newUninomialNode x c with
      | none => none
      | some (u1, p1) =>
        match p1.newRankUninomialNode x next, next.next? with
        | some (r, p2), some u2n =>
          match p2.newUninomialNode x u2n with
          | none => none
          | some (u2, p3) =>
            some ({ Uninomial1 := some u1, Uninomial2 := some u2, Rank := some r }, p3)
        | _, _ => none
    else if t.pegRule = ruleUninomialWord then
      match p.newWordNode x c UninomialType, next.up?, next.next? with
      | some (uw, p1), some n1up, some n2 =>
        match p1.newWordNode x n1up UninomialType with
        | none => none
        | some (u2w, p2) =>
          match p2.newAuthorshipNode x n2 with
          | none => none
          | some (au2, p3) =>
            let rw : wordNode :=
              { Value := goStr "subgen.", NormValue := [], Pos := { Type_ := RankUniType, Start := 0, End := 0 } }
            some ({ Uninomial1 := some { Word := some uw, Authorship := none },
                    Uninomial2 := some { Word := some u2w, Authorship := some au2 },
                    Rank := some { Word := some rw } }, p3)
      | _, _, _ => none
    else some ({ Uninomial1 := none, Uninomial2 := none, Rank := none }, p)
  | _ => none

/-- The loop of `newInfraspEpithetNode`; the state is `w`, `r`, `au` and the
engine. -/
def newInfraspEpithetNode.loop (x : Ext) :
    node32 → Option wordNode × Option rankNode × Option authorshipNode × Engine →
      Option (Option wordNode × Option rankNode × Option authorshipNode × Engine)
  | .nil, st => some st
  | .mk t up next, (w, r, au, p) =>
    let n := node32.mk t up next
    if t.pegRule = ruleWord then
      match p.newWordNode x n InfraSpEpithetType with
      | none => none
      | some (w1, p1) => newInfraspEpithetNode.loop x next (some w1, r, au, p1)
    else if t.pegRule = ruleRank then
      match p.newRankNode x n with
      | none => none
      | some (r1, p1) => newInfraspEpithetNode.loop x next (w, some r1, au, p1)
    else if t.pegRule = ruleAuthorship then
      match p.newAuthorshipNode x n with
      | none => none
      | some (au1, p1) => newInfraspEpithetNode.loop x next (w, r, some au1, p1)
    else newInfraspEpithetNode.loop x next (w, r, au, p)

def Engine.newInfraspEpithetNode (x : Ext) (p : Engine) (n : node32) :
    Option (infraspEpithetNode × Engine) :=
  match n.up? with
  | none => none
  | some c =>
    match newInfraspEpithetNode.loop x c (none, none, none, p) with
    | none => none
    | some (w, r, au, p1) => some ({ Word := w, Rank := r, Authorship := au }, p1)

def newInfraspeciesGroup.loop (x : Ext) :
    node32 → List infraspEpithetNode × Engine → Option (List infraspEpithetNode × Engine)
  | .nil, st => some st
  | .mk t up next, (infs, p) =>
    match p.newInfraspEpithetNode x (node32.mk t up next) with
    | none => none
    | some (inf, p1) => newInfraspeciesGroup.loop x next (infs ++ [inf], p1)

def Engine.newInfraspeciesGroup (x : Ext) (p : Engine) (n : node32) :
    Option (List infraspEpithetNode × Engine) :=
  match n.up? with
  | none => none
  | some .nil => some ([], p)
  | some (.mk t up next) =>
    if t.pegRule ≠ ruleInfraspEpithet then some ([], p)
    else newInfraspeciesGroup.loop x (node32.mk t up next) ([], p)

def Engine.newSpeciesEpithetNode (x : Ext) (p : Engine) (n : node32) :
    Option (spEpithetNode × Engine) :=
  match n.up? with
  | none => none
  | some c =>
    match p.newWordNode x c SpEpithetType, c.next? with
    | some (se, p1), some a =>
      match a with
      | .nil => some ({ Word := some se, Authorship := none }, p1)
      | _ =>
        match p1.newAuthorshipNode x a with
        | none => none
        | some (au, p2) => some ({ Word := some se, Authorship := some au }, p2)
    | _, _ => none

/-- The loop of `newSpeciesNode`; the state is `sg`, `sp`, `infs` and the
engine. -/
def newSpeciesNode.loop (x : Ext) :
    node32 → Option wordNode × Option spEpithetNode × List infraspEpithetNode × Engine →
      Option (Option wordNode × Option spEpithetNode × List infraspEpithetNode × Engine)
  | .nil, st => some st
  | .mk t up next, (sg, sp, infs, p) =>
    if t.pegRule = ruleSubGenus then
      match p.newWordNode x up SubGenusType with
      | none => none
      | some (sg1, p1) => newSpeciesNode.loop x next (some sg1, sp, infs, p1)
    else if t.pegRule = ruleSpeciesEpithet then
      match p.newSpeciesEpithetNode x (node32.mk t up next) with
      | none => none
      | some (sp1, p1) => newSpeciesNode.loop x next (sg, some sp1, infs, p1)
    else if t.pegRule = ruleInfraspGroup then
      match p.newInfraspeciesGroup x (node32.mk t up next) with
      | none => none
      | some (infs1, p1) => newSpeciesNode.loop x next (sg, sp, infs1, p1)
    else newSpeciesNode.loop x next (sg, sp, infs, p)

def Engine.newSpeciesNode (x : Ext) (p : Engine) (n : node32) : Option (speciesNode × Engine) :=
  match n.up? with
  | none => none
  | some c =>
    match p.newWordNode x c GenusType, c with
    | some (gen, p1), .mk _ (.mk gt _ _) next =>
      let p2 := if gt.pegRule = ruleAbbrGenus then p1.addWarn GenusAbbrWarn else p1
      match newSpeciesNode.loop x next (none, none, [], p2) with
      | none => none
      | some (sg, sp, infs, p3) =>
        some ({ Genus := some gen, SubGenus := sg, SpEpithet := sp, InfraSpecies := infs }, p3)
    | _, _ => none

def Engine.newSingleName (x : Ext) (p : Engine) (n : node32) : Option (Name × Engine) :=
  match n.up? with
  | some (.mk t up next) =>
    let c := node32.mk t up next
    if t.pegRule = ruleNameSpecies then
      match p.newSpeciesNode x c with
      | none => none
      | some (sp, p1) => some (Name.species sp, p1)
    else if t.pegRule = ruleUninomial then
      match p.newUninomialNode x c with
      | none => none
      | some (u, p1) => some (Name.uninomial u, p1)
    else if t.pegRule = ruleUninomialCombo then
      match (p.addWarn UninomialComboWarn).newUninomialComboNode x c with
      | none => none
      | some (uc, p1) => some (Name.uninomialCombo uc, p1)
    else some (Name.nil, p)
  | _ => none

/-! ## Hybrids and the name -/

def Engine.newNamedSpeciesHybridNode (x : Ext) (p : Engine) (n : node32) :
    Option (namedSpeciesHybridNode × Engine) :=
  match n.up? with
  | some (.mk gt gup (.mk ht hup spNode)) =>
    let genNode := node32.mk gt gup (.mk ht hup spNode)
    let hybridCharNode := node32.mk ht hup spNode
    match p.newWordNode x genNode GenusType with
    | none => none
    | some (gen, p1) =>
      match p1.newWordNode x hybridCharNode HybridCharType with
      | none => none
      | some (hybrid, p2) =>
        match p2.newSpeciesEpithetNode x spNode with
        | none => none
        | some (sp, p3) =>
          match sp.Word with
          | none => none
          | some spw =>
            let p4 := p3.addWarn HybridNamedWarn
            let p5 := if hybrid.Pos.End = spw.Pos.Start then p4.addWarn HybridCharNoSpaceWarn else p4
            some ({ Genus := some gen, Hybrid := some hybrid, SpEpithet := some sp }, p5)
  | _ => none

def Engine.newNamedGenusHybridNode (x : Ext) (p : Engine) (n : node32) :
    Option (Option (namedGenusHybridNode Name) × Engine) :=
  match n.up? with
  | some (.mk t up next) =>
    if t.pegRule ≠ ruleHybridChar then some (none, p)
    else
      match p.newWordNode x (node32.mk t up next) HybridCharType, next.up? with
      | some (hybr, p1), some (.mk t2 up2 next2) =>
        let n2 := node32.mk t2 up2 next2
        let p2 := p1.addWarn HybridNamedWarn
        let p3 := if t2.begin = 1 then p2.addWarn HybridCharNoSpaceWarn else p2
        if t2.pegRule = ruleUninomial then
          match p3.newUninomialNode x n2 with
          | none => none
          | some (u, p4) => some (some { Hybrid := some hybr, Name := Name.uninomial u }, p4)
        else if t2.pegRule = ruleNameSpecies then
          match p3.newSpeciesNode x n2 with
          | none => none
          | some (sp, p4) => some (some { Hybrid := some hybr, Name := Name.species sp }, p4)
        else some (some { Hybrid := some hybr, Name := Name.nil }, p3)
      | _, _ => none
  | _ => none

/-- The body of the loop of `normalizeAbbreviated` on one `hybridElement`. -/
def normalizeAbbreviated.elem (fsv : GoString) (v : hybridElement Name) :
    Option (hybridElement Name) :=
  match v.Species with
  | .species sp =>
    match sp.Genus with
    | none => none
    | some g =>
      let val := g.NormValue
      match index val (len val - 1) with
      | none => none
      | some c =>
        if c = ch '.' then
          match slice fsv 0 (len val - 1), slice val 0 (len val - 1) with
          | some a, some b =>
            if a = b then
              some { v with Species := Name.species { sp with Genus := some { g with NormValue := fsv } } }
            else some v
          | _, _ => none
        else some v
  | _ => some v

/-- The loop of `normalizeAbbreviated` over the pointers of `HybridElements`,
updating the structs they point to. -/
def normalizeAbbreviated.loop (fsv : GoString) :
    List Nat → List (hybridElement Name) → Option (List (hybridElement Name))
  | [], heap => some heap
  | i :: is, heap =>
    match heap[i]? with
    | none => none
    | some v =>
      match normalizeAbbreviated.elem fsv v with
      | none => none
      | some v1 => normalizeAbbreviated.loop fsv is (heap.set i v1)

def hybridFormulaNode.normalizeAbbreviated (hf : hybridFormulaNode Name) :
    Option (hybridFormulaNode Name) :=
  match hf.FirstSpecies with
  | .species fsp =>
    match fsp.Genus with
    | none => none
    | some g =>
      match normalizeAbbreviated.loop g.NormValue hf.HybridElements hf.heap with
      | none => none
      | some heap1 => some { hf with heap := heap1 }
  | _ => some hf

/-- The local state of the loop of `newHybridFormulaNode`: the `hybridElement`
structs allocated so far, the pointer `he` (nil, or an address in `heap`), the
slice `hes`, and the engine. -/
structure hfState where
  heap : List (hybridElement Name)
  he : Option Nat
  hes : List Nat
  p : Engine

/-- Go `he.Species = s; hes = append(hes, he)`. -/
def hfState.assign (st : hfState) (s : Name) (p1 : Engine) : Option hfState :=
  match st.he with
  | none => none
  | some i =>
    match st.heap[i]? with
    | none => none
    | some e =>
      some { heap := st.heap.set i { e with Species := s }, he := some i, hes := st.hes ++ [i], p := p1 }

def newHybridFormulaNode.loop (x : Ext) (firstName : Name) : node32 → hfState → Option hfState
  | .nil, st => some st
  | .mk t up next, st =>
    let n := node32.mk t up next
    if t.pegRule = ruleHybridChar then
      match st.p.newWordNode x n HybridCharType with
      | none => none
      | some (w, p1) =>
        newHybridFormulaNode.loop x firstName next
          { heap := st.heap ++ [{ HybridChar := some w, Species := Name.nil }],
            he := some st.heap.length, hes := st.hes, p := p1 }
    else if t.pegRule = ruleSingleName then
      match st.p.newSingleName x n with
      | none => none
      | some (nm, p1) =>
        match st.assign nm p1 with
        | none => none
        | some st1 => newHybridFormulaNode.loop x firstName next st1
    else if t.pegRule = ruleSpeciesEpithet then
      let g : Option wordNode :=
        match firstName with
        | .species sp => sp.Genus
        | .uninomial u => u.Word
        | _ => none
      match (st.p.addWarn HybridFormulaIncompleteWarn).newSpeciesEpithetNode x n, g with
      | some (spe, p1), some g0 =>
        let g1 : wordNode :=
          { Value := g0.Value, NormValue := g0.NormValue, Pos := { Type_ := ZeroType, Start := 0, End := 0 } }
        match st.assign
            (Name.species { Genus := some g1, SubGenus := none, SpEpithet := some spe, InfraSpecies := [] })
            p1 with
        | none => none
        | some st1 => newHybridFormulaNode.loop x firstName next st1
      | _, _ => none
    else newHybridFormulaNode.loop x firstName next st

def Engine.newHybridFormulaNode (x : Ext) (p : Engine) (n : node32) :
    Option (hybridFormulaNode Name × Engine) :=
  match n.up? with
  | none => none
  | some c =>
    match (p.addWarn HybridFormulaWarn).newSingleName x c, c.next? with
    | some (firstName, p1), some n1 =>
      match newHybridFormulaNode.loop x firstName n1 { heap := [], he := none, hes := [], p := p1 } with
      | none => none
      | some st =>
        match st.he with
        | none => none
        | some i =>
          match st.heap[i]? with
          | none => none
          | some e =>
            let hes1 := if e.Species.isNil then st.hes ++ [i] else st.hes
            let p2 := if e.Species.isNil then st.p.addWarn HybridFormulaProbIncompleteWarn else st.p
            let hf : hybridFormulaNode Name :=
              { FirstSpecies := firstName, heap := st.heap, HybridElements := hes1 }
            match hf.normalizeAbbreviated with
            | none => none
            | some hf1 => some (hf1, p2)
    | _, _ => none

def Engine.newName (x : Ext) (p : Engine) (n : node32) : Option (Name × Engine) :=
  match n.up? with
  | some (.mk t up next) =>
    let c := node32.mk t up next
    if t.pegRule = ruleHybridFormula then
      match p.newHybridFormulaNode x c with
      | none => none
      | some (hf, p1) => some (Name.hybridFormula hf, p1)
    else if t.pegRule = ruleNamedGenusHybrid then
      match p.newNamedGenusHybridNode x c with
      | none => none
      | some (nhn, p1) => some (Name.namedGenusHybrid nhn, p1)
    else if t.pegRule = ruleNamedSpeciesHybrid then
      match p.newNamedSpeciesHybridNode x c with
      | none => none
      | some (nhl, p1) => some (Name.namedSpeciesHybrid nhl, p1)
    else if t.pegRule = ruleSingleName then p.newSingleName x c
    else some (Name.nil, p)
  | _ => none

def Engine.tailValue (p : Engine) (n : node32) : Option (GoString × Engine) :=
  match n with
  | .nil => none
  | .mk t _ _ =>
    if t.begin = t.end_ then some ([], p)
    else
      match (p.addWarn TailWarn).nodeValue n with
      | none => none
      | some v => some (v, p.addWarn TailWarn)

/-- The loop of `NewScientificNameNode` over the children of the root. -/
def NewScientificNameNode.loop (x : Ext) :
    node32 → Name × GoString × Engine → Option (Name × GoString × Engine)
  | .nil, st => some st
  | .mk t up next, (name, tail, p) =>
    if t.pegRule = ruleName then
      match p.newName x (node32.mk t up next) with
      | none => none
      | some (name1, p1) => NewScientificNameNode.loop x next (name1, tail, p1)
    else if t.pegRule = ruleTail then
      match p.tailValue (node32.mk t up next) with
      | none => none
      | some (tail1, p1) => NewScientificNameNode.loop x next (name, tail1, p1)
    else NewScientificNameNode.loop x next (name, tail, p)

/-- The result is the engine with `SN` set; the slice `warns` holds the keys of
the map `Warnings` in the order `x.rangeWarnings` of the `range` loop. -/
def Engine.NewScientificNameNode (x : Ext) (p : Engine) : Option Engine :=
  match p.root.up? with
  | none => none
  | some c =>
    match NewScientificNameNode.loop x c (Name.nil, [], p) with
    | none => none
    | some (name, tail, p1) =>
      some { p1 with
        Warnings := []
        SN := some { Verbatim := [], VerbatimID := [], Name := name, Tail := tail,
                     Warnings := x.rangeWarnings p1.Warnings } }

/-! ## The word nodes of a name -/

/-- The words under an optional (possibly nil) part. -/
def optWords {α : Type} (f : α → List wordNode) : Option α → List wordNode
  | none => []
  | some a => f a

/-- The words under a list of parts. -/
def listWords {α : Type} (f : α → List wordNode) : List α → List wordNode
  | [] => []
  | a :: as => f a ++ listWords f as

def yearNode.words (y : yearNode) : List wordNode := y.Word.toList

def authorNode.words (a : authorNode) : List wordNode := a.Words

def authorsTeamNode.words (t : authorsTeamNode) : List wordNode :=
  listWords authorNode.words t.Authors ++ listWords yearNode.words t.Years

def authorsGroupNode.words (g : authorsGroupNode) : List wordNode :=
  optWords authorsTeamNode.words g.Team1 ++ g.Team2Type.toList
    ++ optWords authorsTeamNode.words g.Team2

def authorshipNode.words (a : authorshipNode) : List wordNode :=
  optWords authorsGroupNode.words a.OriginalAuthors
    ++ optWords authorsGroupNode.words a.CombinationAuthors

def rankNode.words (r : rankNode) : List wordNode := r.Word.toList

def rankUninomialNode.words (r : rankUninomialNode) : List wordNode := r.Word.toList

def spEpithetNode.words (e : spEpithetNode) : List wordNode :=
  e.Word.toList ++ optWords authorshipNode.words e.Authorship

def infraspEpithetNode.words (e : infraspEpithetNode) : List wordNode :=
  e.Word.toList ++ optWords rankNode.words e.Rank ++ optWords authorshipNode.words e.Authorship

def speciesNode.words (sp : speciesNode) : List wordNode :=
  sp.Genus.toList ++ sp.SubGenus.toList ++ optWords spEpithetNode.words sp.SpEpithet
    ++ listWords infraspEpithetNode.words sp.InfraSpecies

def uninomialNode.words (u : uninomialNode) : List wordNode :=
  u.Word.toList ++ optWords authorshipNode.words u.Authorship

def uninomialComboNode.words (uc : uninomialComboNode) : List wordNode :=
  optWords uninomialNode.words uc.Uninomial1 ++ optWords rankUninomialNode.words uc.Rank
    ++ optWords uninomialNode.words uc.Uninomial2

def namedSpeciesHybridNode.words (n : namedSpeciesHybridNode) : List wordNode :=
  n.Genus.toList ++ n.Hybrid.toList ++ optWords spEpithetNode.words n.SpEpithet

mutual
/-- Every word node reachable from a name. -/
def Name.words : Name → List wordNode
  | .nil => []
  | .species sp => sp.words
  | .uninomial u => u.words
  | .uninomialCombo uc => uc.words
  | .hybridFormula ⟨fs, heap, hes⟩ =>
    fs.words ++ (hes.map (fun i => (Name.heapWords heap).getD i [])).flatten
  | .namedGenusHybrid none => []
  | .namedGenusHybrid (some ⟨h, nm⟩) => h.toList ++ nm.words
  | .namedSpeciesHybrid nhl => nhl.words
/-- The words of each `hybridElement` of a heap. -/
def Name.heapWords : List (hybridElement Name) → List (List wordNode)
  | [] => []
  | ⟨hc, sp⟩ :: rest => (hc.toList ++ sp.words) :: Name.heapWords rest
end

/-- The elements of a hybrid formula in the order of `HybridElements`, each
pointer dereferenced (`none` for a pointer outside the heap). -/
def hybridFormulaNode.elements (hf : hybridFormulaNode Name) : List (Option (hybridElement Name)) :=
  hf.HybridElements.map (fun i => hf.heap[i]?)

/-! ## Example inputs -/

/-- A leaf node. -/
def leaf (r : pegRule) (b e : Nat) (next : node32) : node32 := node32.mk ⟨r, b, e⟩ .nil next

/-- A node with children. -/
def nd (r : pegRule) (b e : Nat) (up next : node32) : node32 := node32.mk ⟨r, b, e⟩ up next

/-- An engine over a buffer, with nothing else set. -/
def engineOf (buf : String) : Engine :=
  { Buffer := goStr buf, Tokens := [], SN := none, root := .nil, Warnings := [] }

/-- External functions for the examples: `ToASCII` drops every byte that is
not ASCII, the upper-case runes are `A`-`Z` and two capitals with a diaeresis,
`ToLower` lowers the bytes `A`-`Z` only, `UUID5` is the identity and a `range`
over the warnings follows their insertion order. -/
def extExample : Ext :=
  { ToASCII := fun s => some (s.filter (fun b => b.val < 128))
    IsUpper := fun c => ('A' ≤ c ∧ c ≤ 'Z') ∨ c = 'Ö' ∨ c = 'Ü'
    ToLower := fun s => s.map (fun b => if 65 ≤ b.val ∧ b.val ≤ 90 then mkByte (b.val + 32) else b)
    UUID5 := fun s => s
    rangeWarnings := fun ws => ws
    rangeWarnings_perm := fun ws => List.Perm.refl ws }

/-- The tokens of a token list whose rule is in `nodeRules`. -/
def nodeTokens (ts : List token32) : List token32 := ts.filter (fun t => nodeRules t.pegRule)

/-- Whether a token is one of the two extended-character rules. -/
def isExtended (t : token32) : Bool :=
  decide (t.pegRule = ruleUpperCharExtended ∨ t.pegRule = ruleLowerCharExtended)

/-- Whether a list of nodes holds a node of an extended-character rule. -/
def hasExtended (vs : List node32) : Bool :=
  vs.any (fun v => match v with | .nil => false | .mk t _ _ => isExtended t)

/-- The rune slice `buffer[b:e]` as a Go string. -/
def runeSlice (buf : GoString) (b e : Nat) : GoString :=
  encodeRunes (((decodeRunes buf).drop b).take (e - b))

/-- External functions for the examples with a `ToASCII` that returns an error
on every input. -/
def extFailing : Ext := { extExample with ToASCII := fun _ => none }

/-- The word `Aëtus` with its extended character as a child. -/
def exWordAetus : node32 := nd ruleWord 0 5 (leaf ruleLowerCharExtended 1 2 .nil) .nil

/-- An author word over `dÖZ` whose second child holds an extended character:
the children are an AuthorPrefix and an AllCapsAuthorWord, and the
UpperCharExtended node is a child of the latter. -/
def exNestedWord : node32 :=
  nd ruleAuthorWord 0 3
    (leaf ruleAuthorPrefix 0 1 (nd ruleAllCapsAuthorWord 1 3 (leaf ruleUpperCharExtended 1 2 .nil) .nil))
    .nil

/-- The year `[1888]` of `Aus bus Smith [1888]` as the recogniser gives it: a
Year node over a YearApprox node over the YearNum `1888`. -/
def exYearApprox : node32 :=
  nd ruleYear 14 20 (nd ruleYearApprox 14 20 (leaf ruleYearNum 15 19 .nil) .nil) .nil

/-- The author word `ÖZTÜRK` of `Aus bus ÖZTÜRK`, matched via AllCapsAuthorWord. -/
def exAllCaps : node32 := nd ruleAuthorWord 8 14 (leaf ruleAllCapsAuthorWord 8 14 .nil) .nil

/-- The loop body of `normalizeAbbreviated` has nothing to panic on in `v`: when
the species of `v` is a `speciesNode`, its genus is not nil, the NormValue of
the genus is not empty and, if it ends in `.`, is at most one byte longer
than `fsv`. -/
def normalizeAbbreviated.safe (fsv : GoString) (v : hybridElement Name) : Prop :=
  ∀ sp, v.Species = Name.species sp →
    ∃ g, sp.Genus = some g ∧ g.NormValue ≠ [] ∧
      (g.NormValue.getLast? = some (ch '.') → g.NormValue.length ≤ fsv.length + 1)

/-- The change `normalizeAbbreviated` may make to one `hybridElement`: nothing,
or the NormValue of the genus of its species replaced by `fsv`. -/
def normalizeAbbreviated.frame (fsv : GoString) (v v1 : hybridElement Name) : Prop :=
  v1.HybridChar = v.HybridChar ∧
    (v1.Species = v.Species ∨
      ∃ sp g, v.Species = Name.species sp ∧ sp.Genus = some g ∧
        v1.Species = Name.species { sp with Genus := some { g with NormValue := fsv } })

/-- The NormValue of the genus of the species of a hybrid element, when the
species is a `speciesNode` with a genus. -/
def hybridElement.genusNorm (v : hybridElement Name) : Option GoString :=
  match v.Species with
  | .species sp => sp.Genus.map (fun g => g.NormValue)
  | _ => none

/-- The genus of the species of `v` is an abbreviation of `fsv`: its NormValue
is a (byte) prefix of `fsv` followed by `.`. -/
def normalizeAbbreviated.abbreviates (fsv : GoString) (v : hybridElement Name) : Prop :=
  ∃ sp g P, v.Species = Name.species sp ∧ sp.Genus = some g ∧
    g.NormValue = P ++ [ch '.'] ∧ P <+: fsv

/-- `normalizeAbbreviated` has nothing to panic on in `hf`: when the first
species is a `speciesNode`, its genus is not nil and has a non-empty
NormValue `fsv`, and every pointer of `HybridElements` points to an element
that is safe for `fsv`. -/
def hybridFormulaNode.safe (hf : hybridFormulaNode Name) : Prop :=
  ∀ fsp, hf.FirstSpecies = Name.species fsp →
    ∃ g0, fsp.Genus = some g0 ∧ g0.NormValue ≠ [] ∧
      ∀ i ∈ hf.HybridElements, ∃ v, hf.heap[i]? = some v ∧
        normalizeAbbreviated.safe g0.NormValue v

/-- An ASCII capital letter `A`-`Z` (the grammar's UpperChar). -/
def isCapital (b : byte) : Bool := decide (65 ≤ b.val) && decide (b.val ≤ 90)

/-- A genus word: at least 2 bytes long, without a `.`. -/
def isGenusWord (s : GoString) : Prop := 2 ≤ s.length ∧ ch '.' ∉ s

/-- An abbreviated genus: one or two capitals followed by `.`. -/
def isAbbrGenus (s : GoString) : Prop :=
  ∃ caps : GoString, (caps.length = 1 ∨ caps.length = 2) ∧ (∀ c ∈ caps, isCapital c = true) ∧
    s = caps ++ [ch '.']

/-- A word node outside any buffer, for examples of `normalizeAbbreviated`. -/
def exWord (s : String) (wt : WordType) (b e : Int) : wordNode :=
  { Value := goStr s, NormValue := goStr s, Pos := { Type_ := wt, Start := b, End := e } }

/-- The species `g e` with genus at `[b, b1)` and epithet at `[b2, b3)`. -/
def exSpecies (g e : String) (b b1 b2 b3 : Int) : speciesNode :=
  { Genus := some (exWord g GenusType b b1), SubGenus := none,
    SpEpithet := some { Word := some (exWord e SpEpithetType b2 b3), Authorship := none },
    InfraSpecies := [] }

/-- The hybrid formula of `Aus bus × A. cus` before `normalizeAbbreviated`. -/
def exFormula : hybridFormulaNode Name :=
  { FirstSpecies := Name.species (exSpecies "Aus" "bus" 0 3 4 7)
    heap := [{ HybridChar := some (exWord "×" HybridCharType 8 9),
               Species := Name.species (exSpecies "A." "cus" 10 12 13 16) }]
    HybridElements := [0] }

/-- The species `g e` as the recogniser gives it: a NameSpecies node over a
GenusWord (with its UninomialWord) at `[b, b1)` and a SpeciesEpithet (with its
Word) at `[b2, b3)`. -/
def exNameSpecies (b b1 b2 b3 : Nat) : node32 :=
  nd ruleNameSpecies b b3
    (nd ruleGenusWord b b1 (leaf ruleUninomialWord b b1 .nil)
      (nd ruleSpeciesEpithet b2 b3 (leaf ruleWord b2 b3 .nil) .nil))
    .nil

/-- The hybrid formula node of `Aus bus × Aus cf. cus × Aus dus`; the second
name is a comparison (NameComp), which `newSingleName` does not lift. -/
def exFormulaComp : node32 :=
  nd ruleHybridFormula 0 31
    (nd ruleSingleName 0 7 (exNameSpecies 0 3 4 7)
      (leaf ruleHybridChar 8 9
        (nd ruleSingleName 10 21
          (nd ruleNameComp 10 21
            (nd ruleGenusWord 10 13 (leaf ruleUninomialWord 10 13 .nil)
              (leaf ruleComparison 14 17
                (nd ruleSpeciesEpithet 18 21 (leaf ruleWord 18 21 .nil) .nil)))
            .nil)
          (leaf ruleHybridChar 22 23
            (nd ruleSingleName 24 31 (exNameSpecies 24 27 28 31) .nil)))))
    .nil

/-- The hybrid formula node of `Aus bus × A. cus`. -/
def exFormulaNode : node32 :=
  nd ruleHybridFormula 0 16
    (nd ruleSingleName 0 7 (exNameSpecies 0 3 4 7)
      (leaf ruleHybridChar 8 9
        (nd ruleSingleName 10 16
          (nd ruleNameSpecies 10 16
            (nd ruleGenusWord 10 12 (leaf ruleAbbrGenus 10 12 .nil)
              (nd ruleSpeciesEpithet 13 16 (leaf ruleWord 13 16 .nil) .nil))
            .nil)
          .nil)))
    .nil

/-- Whether the first child of a node is one of the three rules that
`newSingleName` lifts to a name. -/
def liftsToName (v : node32) : Bool :=
  match v with
  | .mk _ (.mk ct _ _) _ =>
    decide (ct.pegRule = ruleNameSpecies ∨ ct.pegRule = ruleUninomial
      ∨ ct.pegRule = ruleUninomialCombo)
  | _ => false

/-- Every SingleName node among a node and its following siblings has a first
child that `newSingleName` lifts. -/
def singleNamesLift : node32 → Prop
  | .nil => True
  | .mk t up next =>
    (t.pegRule = ruleSingleName → liftsToName (node32.mk t up next) = true) ∧ singleNamesLift next

/-- The SingleName children of a HybridFormula node after its first child all
have a first child that `newSingleName` lifts. -/
def formulaSinglesLift (n : node32) : Prop :=
  match n with
  | .mk _ (.mk _ _ n1) _ => singleNamesLift n1
  | _ => True

/-- Invariant of the loop of `newHybridFormulaNode`: the pointer `he`, when not
nil, points into the heap, and once its Species is not nil it is the last
entry of `hes`. -/
def hfState.inv (st : hfState) : Prop :=
  ∀ i, st.he = some i →
    ∃ e, st.heap[i]? = some e ∧ (e.Species.isNil = false → st.hes.getLast? = some i)

/-- Every entry of `hes` points to an element whose Species is not nil. -/
def hfState.allSpecies (st : hfState) : Prop :=
  ∀ i ∈ st.hes, ∃ e, st.heap[i]? = some e ∧ e.Species.isNil = false

/-- The hybrid formula that `newHybridFormulaNode` returns for `Aus bus × A.
cus`. -/
def exFormulaLifted : hybridFormulaNode Name :=
  { FirstSpecies := Name.species (exSpecies "Aus" "bus" 0 3 4 7)
    heap := [{ HybridChar := some (exWord "×" HybridCharType 8 9),
               Species := Name.species
                 { Genus := some { Value := goStr "A.", NormValue := goStr "Aus",
                                   Pos := { Type_ := GenusType, Start := 10, End := 12 } },
                   SubGenus := none,
                   SpEpithet := some { Word := some (exWord "cus" SpEpithetType 13 16),
                                       Authorship := none },
                   InfraSpecies := [] } }]
    HybridElements := [0] }

/-- An engine over a buffer with the given warnings. -/
def engineWith (buf : String) (ws : List Warning) : Engine :=
  { Buffer := goStr buf, Tokens := [], SN := none, root := .nil, Warnings := ws }

/-- The word `w` carries the span of the token `t` and the rune slice of the
buffer over that span as Value; or it is a year word built from a
YearWithChar token, whose Value is that slice without its last byte. -/
def wordNode.ofToken (buf : GoString) (t : token32) (w : wordNode) : Prop :=
  w.Pos.Start = t.begin ∧ w.Pos.End = t.end_ ∧ t.begin ≤ t.end_ ∧
    t.end_ ≤ (decodeRunes buf).length ∧
    (w.Value = runeSlice buf t.begin t.end_ ∨
      ((w.Pos.Type_ = YearType ∨ w.Pos.Type_ = YearApproximateType) ∧
        t.pegRule = ruleYearWithChar ∧ w.Value = (runeSlice buf t.begin t.end_).dropLast))

/-- The word `w` was made without a token, with the zero span: the rank word
`subgen.` of a UninomialCombo without a rank, or the copy of the first genus
in an incomplete hybrid formula element (zero word type). -/
def wordNode.synthesized (w : wordNode) : Prop :=
  w.Pos.Start = 0 ∧ w.Pos.End = 0 ∧
    ((w.Pos.Type_ = RankUniType ∧ w.Value = goStr "subgen.") ∨ w.Pos.Type_ = ZeroType)

/-- The word `w` is synthesized or built from one of the tokens `F`. -/
def wordNode.lifted (buf : GoString) (F : List token32) (w : wordNode) : Prop :=
  (∃ t ∈ F, w.ofToken buf t) ∨ w.synthesized

/-- Every word of a list is synthesized or built from one of the tokens `F`. -/
def Lifted (buf : GoString) (F : List token32) (ws : List wordNode) : Prop :=
  ∀ w ∈ ws, w.lifted buf F

/-- The words of one `hybridElement`. -/
def hybridElement.words (e : hybridElement Name) : List wordNode :=
  e.HybridChar.toList ++ e.Species.words

/-- The authorship of a single author word at `[b, e)`: Authorship over
OriginalAuthorship, AuthorsGroup, AuthorsTeam, Author and AuthorWord. -/
def exAuthorship (b e : Nat) : node32 :=
  nd ruleAuthorship b e
    (nd ruleOriginalAuthorship b e
      (nd ruleAuthorsGroup b e
        (nd ruleAuthorsTeam b e (nd ruleAuthor b e (leaf ruleAuthorWord b e .nil) .nil) .nil)
        .nil)
      .nil)
    .nil

/-- The tree of `Aus (Bus) Linn`: a UninomialCombo without a rank token. -/
def exComboRoot : node32 :=
  nd ruleSciName 0 14
    (nd ruleName 0 14
      (nd ruleSingleName 0 14
        (nd ruleUninomialCombo 0 14
          (leaf ruleUninomialWord 0 3
            (nd ruleSubGenus 4 9 (leaf ruleUninomialWord 5 8 .nil) (exAuthorship 10 14)))
          .nil)
        .nil)
      (leaf ruleTail 14 14 .nil))
    .nil

/-- The engine after `OutputAST` on `Aus (Bus) Linn`. -/
def exComboEngine : Engine :=
  { Buffer := goStr "Aus (Bus) Linn", Tokens := [], SN := none, root := exComboRoot,
    Warnings := [] }

/-- The rank word that `newUninomialComboNode` makes when there is no rank
token. -/
def exSubgenWord : wordNode :=
  { Value := goStr "subgen.", NormValue := [],
    Pos := { Type_ := RankUniType, Start := 0, End := 0 } }

/-- The engine `q` results from the engine `p` by raising warnings of the list
`S`, one `addWarn` after the other. -/
inductive Raises (S : List Warning) : Engine → Engine → Prop where
  | refl (p : Engine) : Raises S p p
  | step (p q : Engine) (w : Warning) : w ∈ S → Raises S p q → Raises S p (q.addWarn w)

/-- The warnings `newWordNode` may raise. -/
def wordWarns : List Warning := [CharBadWarn]

/-- The warnings `authorWord` may raise. -/
def authorWordWarns : List Warning := [CharBadWarn, AuthUpperCaseWarn]

/-- The warnings `newAuthorNode` may raise. -/
def authorWarns : List Warning := [CharBadWarn, AuthUpperCaseWarn, AuthShortWarn]

/-- The warnings `newYearNode` may raise. -/
def yearWarns : List Warning := [CharBadWarn, YearParensWarn, YearCharWarn, YearQuestionWarn]

/-- The warnings `newAuthorTeam` may raise. -/
def teamWarns : List Warning :=
  [CharBadWarn, AuthUpperCaseWarn, AuthShortWarn, YearParensWarn, YearCharWarn, YearQuestionWarn]

/-- The warnings `newAuthorsGroupNode` may raise. -/
def groupWarns : List Warning :=
  [CharBadWarn, AuthUpperCaseWarn, AuthShortWarn, YearParensWarn, YearCharWarn, YearQuestionWarn,
   AuthExWarn]

/-- The warnings `newAuthorshipNode` may raise. -/
def authorshipWarns : List Warning :=
  [CharBadWarn, AuthUpperCaseWarn, AuthShortWarn, YearParensWarn, YearCharWarn, YearQuestionWarn,
   AuthExWarn, AuthMisformedYearWarn]

/-- The warnings `newRankNode` may raise. -/
def rankWarns : List Warning := [CharBadWarn, RankUncommonWarn]

/-- The warnings `newSingleName` and the lifters below it may raise. -/
def singleNameWarns : List Warning :=
  [CharBadWarn, AuthUpperCaseWarn, AuthShortWarn, YearParensWarn, YearCharWarn, YearQuestionWarn,
   AuthExWarn, AuthMisformedYearWarn, RankUncommonWarn, GenusAbbrWarn, UninomialComboWarn]

/-- The warnings `newName` may raise. -/
def nameWarns : List Warning :=
  [CharBadWarn, AuthUpperCaseWarn, AuthShortWarn, YearParensWarn, YearCharWarn, YearQuestionWarn,
   AuthExWarn, AuthMisformedYearWarn, RankUncommonWarn, GenusAbbrWarn, UninomialComboWarn,
   HybridNamedWarn, HybridCharNoSpaceWarn, HybridFormulaWarn, HybridFormulaIncompleteWarn,
   HybridFormulaProbIncompleteWarn]

/-- The team of a single author word at `[b, e)`, followed by `next`. -/
def exTeam (b e : Nat) (next : node32) : node32 :=
  nd ruleAuthorsTeam b e (nd ruleAuthor b e (leaf ruleAuthorWord b e .nil) .nil) next

/-- The AuthorsGroup node of `Smith emend. Jones`: a team, an AuthorEmend
marker and a second team. -/
def exGroupEmend : node32 :=
  nd ruleAuthorsGroup 0 18 (exTeam 0 5 (leaf ruleAuthorEmend 6 12 (exTeam 13 18 .nil))) .nil

/-- The AuthorsGroup node of `Smith ex Jones`: a team, an AuthorEx marker and
a second team. -/
def exGroupEx : node32 :=
  nd ruleAuthorsGroup 0 14 (exTeam 0 5 (leaf ruleAuthorEx 6 8 (exTeam 9 14 .nil))) .nil

/-- The lifted team of the single author word `s` at `[b, e)`. -/
def exAuthorTeam (s : String) (b e : Int) : authorsTeamNode :=
  { Authors := [{ Value := goStr s, Words := [exWord s AuthorWordType b e] }], Years := [] }

/-- The number of nodes with rule `r` among a node and its following siblings. -/
def node32.countRule (r : pegRule) : node32 → Nat
  | .nil => 0
  | .mk t _ next => (if t.pegRule = r then 1 else 0) + next.countRule r

/-- The first child of the first node with rule `r` among a node and its
following siblings (nil when there is none). -/
def node32.firstOf (r : pegRule) : node32 → node32
  | .nil => .nil
  | .mk t up next => if t.pegRule = r then up else next.firstOf r

/-- The Authorship node of `(Linn, 1758)` with the year inside the
parentheses: OriginalAuthorship over BasionymAuthorshipYearMisformed over an
AuthorsGroup with a team of one author and one year. -/
def exAuthorshipMisformed : node32 :=
  nd ruleAuthorship 0 12
    (nd ruleOriginalAuthorship 0 12
      (nd ruleBasionymAuthorshipYearMisformed 0 12
        (nd ruleAuthorsGroup 1 11
          (nd ruleAuthorsTeam 1 11
            (nd ruleAuthor 1 5 (leaf ruleAuthorWord 1 5 .nil)
              (nd ruleYear 7 11 (leaf ruleYearNum 7 11 .nil) .nil))
            .nil)
          .nil)
        .nil)
      .nil)
    .nil

/-- The authorship that `newAuthorshipNode` returns for `(Linn, 1758)`. -/
def exAuthorshipLifted : authorshipNode :=
  { OriginalAuthors := some
      { Team1 := some
          { Authors := [{ Value := goStr "Linn", Words := [exWord "Linn" AuthorWordType 1 5] }],
            Years := [{ Word := some (exWord "1758" YearType 7 11), Approximate := false }] },
        Team2Type := none, Team2 := none, Parens := true },
    CombinationAuthors := none }

/-- The Rank node of `var.` at `[b, e)` with a child of rule `r`. -/
def exRank (r : pegRule) (b e : Nat) : node32 := nd ruleRank b e (leaf r b e .nil) .nil

/-- The UninomialCombo node of `Aus (Bus) Linn`, the form without a rank
token: a UninomialWord, a SubGenus and an Authorship. -/
def exComboNode : node32 :=
  nd ruleUninomialCombo 0 14
    (leaf ruleUninomialWord 0 3
      (nd ruleSubGenus 4 9 (leaf ruleUninomialWord 5 8 .nil) (exAuthorship 10 14)))
    .nil

/-- The warnings `NewScientificNameNode` may raise while lifting. -/
def liftWarns : List Warning :=
  [CharBadWarn, AuthUpperCaseWarn, AuthShortWarn, YearParensWarn, YearCharWarn, YearQuestionWarn,
   AuthExWarn, AuthMisformedYearWarn, RankUncommonWarn, GenusAbbrWarn, UninomialComboWarn,
   HybridNamedWarn, HybridCharNoSpaceWarn, HybridFormulaWarn, HybridFormulaIncompleteWarn,
   HybridFormulaProbIncompleteWarn, TailWarn]

/-- The NamedGenusHybrid node of ` × Aus`: the HybridChar at offset 1, a blank,
and the SingleName at 3. -/
def exGenusHybridSpaced : node32 :=
  nd ruleNamedGenusHybrid 1 6
    (leaf ruleHybridChar 1 2
      (nd ruleSingleName 3 6 (nd ruleUninomial 3 6 (leaf ruleUninomialWord 3 6 .nil) .nil) .nil))
    .nil

/-- The NamedGenusHybrid node of `×Aus`: the HybridChar at offset 0 and the
SingleName right after it, at offset 1. -/
def exGenusHybridTight : node32 :=
  nd ruleNamedGenusHybrid 0 4
    (leaf ruleHybridChar 0 1
      (nd ruleSingleName 1 4 (nd ruleUninomial 1 4 (leaf ruleUninomialWord 1 4 .nil) .nil) .nil))
    .nil

/-! ## gnparser.go -/

/-- The generated parser and the preprocessing that `GNparser.Parse` calls,
whose source is not among the translated files. -/
structure Peg where
  /-- `preprocess.NormalizeHybridChar`. -/
  NormalizeHybridChar : GoString → GoString
  /-- `Engine.Reset` of the generated parser. -/
  Reset : Engine → Engine
  /-- `Engine.Parse` of the generated parser: the engine afterwards, and
  whether the error it returns is not nil. -/
  Parse : Engine → Engine × Bool

def Engine.NewNotParsedScientificNameNode (p : Engine) : Engine :=
  { p with SN := some { Verbatim := [], VerbatimID := [], Name := Name.nil, Tail := [],
                        Warnings := [] } }

def ScientificNameNode.AddVerbatim (x : Ext) (sn : ScientificNameNode) (s : GoString) :
    ScientificNameNode :=
  { sn with Verbatim := s, VerbatimID := x.UUID5 s }

structure GNparser where
  workersNum : Int
  format : Int
  nameString : GoString
  parser : Engine

/-- The engine after the statements of `GNparser.Parse` up to `parser.Parse()`,
and whether the grammar returned an error. -/
def GNparser.grammarParse (g : Peg) (gnp : GNparser) (s : GoString) : Engine × Bool :=
  let sNorm := g.NormalizeHybridChar s
  g.Parse (g.Reset { gnp.parser with Buffer := sNorm })

/-- The two branches of `GNparser.Parse` on the result of the grammar. -/
def GNparser.buildSN (x : Ext) (r : Engine × Bool) : Option Engine :=
  if r.2 then some r.1.NewNotParsedScientificNameNode
  else
    match r.1.OutputAST with
    | none => none
    | some p2 => p2.NewScientificNameNode x

def GNparser.Parse (x : Ext) (g : Peg) (gnp : GNparser) (s : GoString) : Option GNparser :=
  match GNparser.buildSN x (gnp.grammarParse g s) with
  | none => none
  | some p3 =>
    match p3.SN with
    | none => none
    | some sn =>
      some { gnp with nameString := s, parser := { p3 with SN := some (sn.AddVerbatim x s) } }

/-- A grammar that rejects every input. -/
def pegRejecting : Peg :=
  { NormalizeHybridChar := fun s => s, Reset := fun p => p, Parse := fun p => (p, true) }

/-- A grammar that accepts every input with the tokens of `Aus (Bus) Linn`. -/
def pegCombo : Peg :=
  { NormalizeHybridChar := fun s => s
    Reset := fun p => { p with Tokens := [] }
    Parse := fun p => ({ p with Tokens := exComboRoot.postorder }, false) }

/-- A `GNparser` whose engine holds the buffer and a warning of an earlier
name. -/
def exGNparser : GNparser :=
  { workersNum := 1, format := 0, nameString := goStr "Aus bus xyz",
    parser := { Buffer := goStr "Aus bus xyz", Tokens := [], SN := none, root := .nil,
                Warnings := [TailWarn] } }

/-! ## entity/output/annotation.go -/

/-- Go `type Annotation int`. -/
structure Annotation where
  val : Int
  deriving DecidableEq

def NoAnnot : Annotation := ⟨0⟩

def ComparisonAnnot : Annotation := ⟨1⟩

def ApproxSurrogateAnnot : Annotation := ⟨2⟩

def SurrogateAnnot : Annotation := ⟨3⟩

def NamedHybridAnnot : Annotation := ⟨4⟩

def HybridFormulaAnnot : Annotation := ⟨5⟩

/-- The map `annotMap` as the list of its entries. -/
def annotMap : List ( Annotation × GoString) :=
  [(NoAnnot, goStr ""),
   (ComparisonAnnot, goStr "Comparison"),
   (ApproxSurrogateAnnot, goStr "Approx. surrogate"),
   (SurrogateAnnot, goStr "Surrogate"),
   (NamedHybridAnnot, goStr "Named hybrid"),
   (HybridFormulaAnnot, goStr "Hybrid formula")]

/-- The map `annotStrMap`, filled by `res[v] = k` for every entry of
`annotMap`; the values of `annotMap` are distinct, so the order of the `range`
makes no difference. -/
def annotStrMap : List (GoString × Annotation) :=
  annotMap.map (fun kv => (kv.2, kv.1))

/-- Go `annotMap[a]`: the zero value `""` for a key that is not in the map. -/
def Annotation.String (a : Annotation) : GoString :=
  (annotMap.lookup a).getD []

/-- The byte of the double quote, 0x22. -/
def quote : byte := mkByte 34

/-- The returned error is always nil and is left out. -/
def Annotation.MarshalJSON (a : Annotation) : GoString :=
  [quote] ++ a.String ++ [quote]

/-- Go `strings.Trim(s, cutset)` for a cutset of one ASCII byte `c`: the
leading and the trailing bytes `c` are removed. -/
def Trim (s : GoString) (c : byte) : GoString :=
  ((s.dropWhile (fun b => b = c)).reverse.dropWhile (fun b => b = c)).reverse

/-- The result is the new value of `*a` and the returned error (`none` is a
nil error). -/
def Annotation.UnmarshalJSON (bs : GoString) : Annotation × Option GoString :=
  let s := Trim bs quote
  match annotStrMap.lookup s with
  | some a => (a, none)
  | none => (⟨0⟩, some (goStr "cannot decode Annotation"))

/-- The NamedSpeciesHybrid node of `Aus ×bus`: the genus, the HybridChar at
4..5 and the epithet word right after it, at 5..8. -/
def exSpeciesHybridTight : node32 :=
  nd ruleNamedSpeciesHybrid 0 8
    (leaf ruleGenusWord 0 3
      (leaf ruleHybridChar 4 5
        (nd ruleSpeciesEpithet 5 8 (leaf ruleWord 5 8 .nil) .nil)))
    .nil

/-- The strings of `parts` that are not empty, with `sep` between every two of
them: the joined value as the specification words it. -/
def joinNonEmpty (sep : GoString) (parts : List GoString) : GoString :=
  sep.intercalate (parts.filter (fun s => s ≠ []))

/-- What `newAuthorNode` makes of the child `v` of an Author node, over the
buffer `buf`: the word `w` has the span and the rune slice of the token of `v`
as Pos and Value; for a Filius child its type is AuthorWordFilius and its
NormValue is `fil.`, for any other child it is the result of `authorWord` on
`v`. -/
def authorWordOf (x : Ext) (buf : GoString) (v : node32) (w : wordNode) : Prop :=
  ∃ t up next, v = node32.mk t up next ∧
    w.Value = runeSlice buf t.begin t.end_ ∧ w.Pos.Start = t.begin ∧ w.Pos.End = t.end_ ∧
    (t.pegRule = ruleFilius →
      w.NormValue = goStr "fil." ∧ w.Pos.Type_ = AuthorWordFiliusType) ∧
    (t.pegRule ≠ ruleFilius →
      ∃ q q1 : Engine, q.Buffer = buf ∧ q.authorWord x v = some (w, q1))

/-- The Author node of `Linn f.` in `Aus bus Linn f.`: an author word and a
Filius. -/
def exAuthorFilius : node32 :=
  nd ruleAuthor 8 15 (leaf ruleAuthorWord 8 12 (leaf ruleFilius 13 15 .nil)) .nil

/-- The Author node of `L` in `Aus bus L`: one author word of one byte. -/
def exAuthorShort : node32 :=
  nd ruleAuthor 8 9 (leaf ruleAuthorWord 8 9 .nil) .nil

/-- The tokens of `Aus  bus` (two blanks) in the order the parser emits them,
children before their parent, with a MultipleSpace token and a closing token
that are not in `nodeRules`. -/
def exSpacedTokens : List token32 :=
  [⟨ruleGenusWord, 0, 3⟩, ⟨ruleMultipleSpace, 3, 5⟩, ⟨ruleWord, 5, 8⟩,
   ⟨ruleSpeciesEpithet, 5, 8⟩, ⟨ruleNameSpecies, 0, 8⟩, ⟨ruleSingleName, 0, 8⟩,
   ⟨ruleName, 0, 8⟩, ⟨ruleTail, 8, 8⟩, ⟨ruleSciName, 0, 8⟩, ⟨ruleOther 0, 8, 8⟩]

/-- The engine after the grammar has accepted `Aus  bus`. -/
def exSpacedEngine : Engine :=
  { Buffer := goStr "Aus  bus", Tokens := exSpacedTokens, SN := none, root := .nil,
    Warnings := [] }

/-- The span of the node `c` lies within the span of the token `t`. -/
def node32.within (c : node32) (t : token32) : Prop :=
  match c with
  | .nil => True
  | .mk ct _ _ => t.begin ≤ ct.begin ∧ ct.end_ ≤ t.end_

/-- In the forest of `n` (the node, its following siblings and everything
below them) the span of every child lies within the span of its parent. -/
def node32.nested : node32 → Prop
  | .nil => True
  | .mk t up next => (∀ c ∈ up.siblings, c.within t) ∧ up.nested ∧ next.nested

/-- In the forest of `n` the tokens of the children of every node, in the
order of the child list, are a subsequence of `F`. -/
def node32.ordered (F : List token32) : node32 → Prop
  | .nil => True
  | .mk _ up next =>
    (up.siblings.filterMap node32.token32?).Sublist F ∧ up.ordered F ∧ next.ordered F

/-! # Lemmas and theorems -/

theorem OutputAST.pop_spec (token : token32) :
    ∀ (stack : List node32) (nt : token32) (nup nnext : node32),
      (∀ s ∈ stack, s ≠ node32.nil) →
      ∃ nup1 stack1, OutputAST.pop token (node32.mk nt nup nnext) stack
          = some (node32.mk nt nup1 nnext, stack1) ∧
        (∀ s ∈ stack1, s ≠ node32.nil) ∧
        stackPostorder stack1 ++ nup1.forest = stackPostorder stack ++ nup.forest := by
  intro stack
  induction stack with
  | nil => intro nt nup nnext _; exact ⟨nup, [], rfl, by simp, rfl⟩
  | cons s down ih =>
    intro nt nup nnext hs
    cases s with
    | nil => exact absurd rfl (hs _ (List.mem_cons_self _ _))
    | mk st sup snext =>
      have hdown : ∀ s ∈ down, s ≠ node32.nil := fun s h => hs s (List.mem_cons_of_mem _ h)
      by_cases hw : (decide (st.begin ≥ token.begin) && decide (st.end_ ≤ token.end_)) = true
      · obtain ⟨nup1, stack1, h1, h2, h3⟩ := ih nt (node32.mk st sup nup) nnext hdown
        refine ⟨nup1, stack1, ?_, h2, ?_⟩
        · simp only [OutputAST.pop, stackNodeIsWithin, hw]; exact h1
        · rw [h3]; simp [stackPostorder, node32.postorder, node32.forest]
      · refine ⟨nup, _ :: down, ?_, hs, rfl⟩
        simp only [Bool.not_eq_true] at hw
        simp only [OutputAST.pop, stackNodeIsWithin, hw]

theorem OutputAST.loop_spec :
    ∀ (tokens : List token32) (stack : List node32) (p : Engine),
      (∀ s ∈ stack, s ≠ node32.nil) →
      ∃ stack1 p1, OutputAST.loop tokens (stack, p) = some (stack1, p1) ∧
        (∀ s ∈ stack1, s ≠ node32.nil) ∧
        stackPostorder stack1 = stackPostorder stack ++ nodeTokens tokens := by
  intro tokens
  induction tokens with
  | nil => intro stack p hs; exact ⟨stack, p, rfl, hs, by simp [nodeTokens]⟩
  | cons t rest ih =>
    intro stack p hs
    by_cases hr : nodeRules t.pegRule = true
    · obtain ⟨nup1, stack1, h1, h2, h3⟩ := OutputAST.pop_spec t stack t node32.nil node32.nil hs
      have hs1 : ∀ s ∈ node32.mk t nup1 node32.nil :: stack1, s ≠ node32.nil := by
        intro s h
        rcases List.mem_cons.1 h with h | h
        · rw [h]; exact fun e => node32.noConfusion e
        · exact h2 s h
      obtain ⟨stack2, p2, h4, h5, h6⟩ := ih (node32.mk t nup1 node32.nil :: stack1) p hs1
      refine ⟨stack2, p2, ?_, h5, ?_⟩
      · simp only [OutputAST.loop, Engine.newNode, hr, if_true, h1]; exact h4
      · rw [h6]
        simp only [stackPostorder, node32.postorder, nodeTokens, List.filter_cons, hr, if_true]
        rw [← List.append_assoc, h3]; simp [node32.forest]
    · simp only [Bool.not_eq_true] at hr
      obtain ⟨stack2, p2, h4, h5, h6⟩ := ih stack
        (if t.pegRule = ruleMultipleSpace then p.addWarn SpaceMultipleWarn else p) hs
      refine ⟨stack2, p2, ?_, h5, ?_⟩
      · simp only [OutputAST.loop, Engine.newNode, hr]; exact h4
      · rw [h6]; simp [nodeTokens, List.filter_cons, hr]

/-- C2: `OutputAST` always completes; the trees on its stack, read from the
bottom to the top and each flattened in post-order, are exactly the tokens
whose rule is in `nodeRules`, in their order; and when one tree remains it is
`p.root`, whose post-order is that subsequence. -/
theorem OutputAST_postorder (p : Engine) :
    ∃ stack p1, OutputAST.loop p.Tokens ([], p) = some (stack, p1) ∧
      stackPostorder stack = p.Tokens.filter (fun t => nodeRules t.pegRule) ∧
      ∀ top, stack = [top] →
        ∃ p2, p.OutputAST = some p2 ∧ p2.root = top ∧
          p2.root.postorder = p.Tokens.filter (fun t => nodeRules t.pegRule) := by
  obtain ⟨stack, p1, h1, _, h3⟩ := OutputAST.loop_spec p.Tokens [] p (by simp)
  refine ⟨stack, p1, h1, by simpa [stackPostorder, nodeTokens] using h3, ?_⟩
  intro top htop
  subst htop
  refine ⟨{ p1 with root := top }, ?_, rfl, ?_⟩
  · simp only [Engine.OutputAST, h1]
  · simpa [stackPostorder, nodeTokens] using h3

theorem addWarn_Buffer (p : Engine) (w : Warning) : (p.addWarn w).Buffer = p.Buffer := by
  unfold Engine.addWarn; split <;> rfl

theorem addWarn_mem (p : Engine) (w : Warning) : w ∈ (p.addWarn w).Warnings := by
  unfold Engine.addWarn; split <;> simp_all

theorem addWarn_idem (p : Engine) (w : Warning) : (p.addWarn w).addWarn w = p.addWarn w := by
  have h := addWarn_mem p w
  generalize p.addWarn w = q at h
  unfold Engine.addWarn
  rw [if_pos h]

theorem mem_addWarn_of_mem (p : Engine) (w v : Warning) (h : v ∈ p.Warnings) :
    v ∈ (p.addWarn w).Warnings := by
  unfold Engine.addWarn; split <;> simp_all

theorem mem_addWarn_iff (p : Engine) (w v : Warning) :
    v ∈ (p.addWarn w).Warnings ↔ v = w ∨ v ∈ p.Warnings := by
  unfold Engine.addWarn
  split
  · constructor
    · exact fun h => Or.inr h
    · rintro (h | h)
      · subst h; assumption
      · exact h
  · simp [or_comm]

theorem normalize_idem (x : Ext) (w : wordNode) :
    ((w.normalize x).1.normalize x).1 = (w.normalize x).1 := by
  unfold wordNode.normalize
  cases h : x.ToASCII w.Value <;> simp [h]

theorem siblings_ne_nil : ∀ (n : node32), ∀ v ∈ n.siblings, v ≠ node32.nil := by
  intro n
  induction n with
  | nil => intro v h; simp [node32.siblings] at h
  | mk t up next _ ihn =>
    intro v h
    simp only [node32.siblings, List.mem_cons] at h
    rcases h with h | h
    · rw [h]; exact fun e => node32.noConfusion e
    · exact ihn v h

theorem spine_ne_nil : ∀ (n : node32), ∀ v ∈ n.spine, v ≠ node32.nil := by
  intro n
  induction n with
  | nil => intro v h; simp [node32.spine] at h
  | mk t up next ihu _ =>
    intro v h
    simp only [node32.spine, List.cons_append, List.mem_cons, List.mem_append] at h
    rcases h with h | h | h
    · rw [h]; exact fun e => node32.noConfusion e
    · exact siblings_ne_nil next v h
    · exact ihu v h

theorem newWordNode.loop_eq (x : Ext) :
    ∀ (vs : List node32) (wrd : wordNode) (p : Engine), (∀ v ∈ vs, v ≠ node32.nil) →
      newWordNode.loop x vs (wrd, p) =
        some (if hasExtended vs then ((wrd.normalize x).1, p.addWarn CharBadWarn) else (wrd, p)) ∧
      newWordNode.loop x vs ((wrd.normalize x).1, p.addWarn CharBadWarn) =
        some ((wrd.normalize x).1, p.addWarn CharBadWarn) := by
  intro vs
  induction vs with
  | nil => intro wrd p _; simp [newWordNode.loop, hasExtended]
  | cons v vs ih =>
    intro wrd p hv
    have hvs : ∀ v ∈ vs, v ≠ node32.nil := fun u hu => hv u (List.mem_cons_of_mem _ hu)
    cases v with
    | nil => exact absurd rfl (hv _ (List.mem_cons_self _ _))
    | mk t up next =>
      by_cases he : t.pegRule = ruleUpperCharExtended ∨ t.pegRule = ruleLowerCharExtended
      · have h2 := (ih wrd p hvs).2
        simp only [newWordNode.loop, node32.token32?, he, if_true, hasExtended, List.any_cons,
          isExtended, decide_True, Bool.true_or, normalize_idem, addWarn_idem]
        exact ⟨h2, h2⟩
      · have h1 := (ih wrd p hvs).1
        have h2 := (ih wrd p hvs).2
        simp only [newWordNode.loop, node32.token32?, he, if_false, hasExtended, List.any_cons,
          isExtended, decide_False, Bool.false_or]
        exact ⟨h1, h2⟩

/-- The value of `newWordNode` on a node whose token lies within the buffer. -/
theorem newWordNode_eq (x : Ext) (p : Engine) (t : token32) (up next : node32) (wt : WordType)
    (h : t.begin ≤ t.end_ ∧ t.end_ ≤ (decodeRunes p.Buffer).length) :
    p.newWordNode x (node32.mk t up next) wt =
      some (if hasExtended up.spine then
          ({ Value := runeSlice p.Buffer t.begin t.end_,
             NormValue := (x.ToASCII (runeSlice p.Buffer t.begin t.end_)).getD
               (runeSlice p.Buffer t.begin t.end_),
             Pos := { Type_ := wt, Start := t.begin, End := t.end_ } }, p.addWarn CharBadWarn)
        else
          ({ Value := runeSlice p.Buffer t.begin t.end_,
             NormValue := runeSlice p.Buffer t.begin t.end_,
             Pos := { Type_ := wt, Start := t.begin, End := t.end_ } }, p)) := by
  simp only [Engine.newWordNode, node32.token32?, Engine.nodeValue, h, and_self, if_true,
    node32.flatChildren]
  rw [(newWordNode.loop_eq x up.spine _ p (spine_ne_nil up)).1]
  congr 1
  split
  · simp only [wordNode.normalize, runeSlice]
    cases hx : x.ToASCII _ <;> simp
  · rfl

/-- What a successful `newWordNode` returns. -/
theorem newWordNode_some (x : Ext) (p p1 : Engine) (n : node32) (wt : WordType) (w : wordNode)
    (h : p.newWordNode x n wt = some (w, p1)) :
    ∃ t up next, n = node32.mk t up next ∧ t.begin ≤ t.end_ ∧
      t.end_ ≤ (decodeRunes p.Buffer).length ∧
      w.Value = runeSlice p.Buffer t.begin t.end_ ∧
      w.Pos = { Type_ := wt, Start := t.begin, End := t.end_ } ∧
      (p1 = p ∨ p1 = p.addWarn CharBadWarn) := by
  cases n with
  | nil => simp [Engine.newWordNode, node32.token32?] at h
  | mk t up next =>
    by_cases hr : t.begin ≤ t.end_ ∧ t.end_ ≤ (decodeRunes p.Buffer).length
    · rw [newWordNode_eq x p t up next wt hr] at h
      refine ⟨t, up, next, rfl, hr.1, hr.2, ?_⟩
      split at h <;> simp only [Option.some.injEq, Prod.mk.injEq] at h <;>
        obtain ⟨h1, h2⟩ := h <;> subst h1 <;> subst h2 <;> simp
    · simp [Engine.newWordNode, node32.token32?, Engine.nodeValue, hr] at h

/-- C8 as stated fails: in `exNestedWord` the subtree of the word node contains
an UpperCharExtended node (below the second child), yet `newWordNode` raises
no CharBadWarn and leaves NormValue equal to Value, not its ToASCII image. -/
theorem newWordNode_extended_below_sibling :
    (∃ t ∈ exNestedWord.postorder, t.pegRule = ruleUpperCharExtended) ∧
    ∃ w p1, (engineOf "dÖZ").newWordNode extExample exNestedWord AuthorWordType = some (w, p1) ∧
      CharBadWarn ∉ p1.Warnings ∧ w.NormValue = w.Value ∧
      extExample.ToASCII w.Value ≠ some w.NormValue := by
  refine ⟨by decide, _, _, rfl, by decide, by decide, by decide⟩

/-- C8 (amended): when the list `n.flatChildren()` holds an UpperCharExtended or
LowerCharExtended node, `newWordNode` completes, raises CharBadWarn, keeps
Value, and sets NormValue to the ToASCII image of Value when ToASCII succeeds
(NormValue stays Value when ToASCII returns an error). -/
theorem newWordNode_extended (x : Ext) (p : Engine) (n : node32) (wt : WordType)
    (children : List node32) (val : GoString)
    (hn : n.flatChildren = some children) (hext : hasExtended children = true)
    (hval : p.nodeValue n = some val) :
    ∃ w p1, p.newWordNode x n wt = some (w, p1) ∧ CharBadWarn ∈ p1.Warnings ∧
      w.Value = val ∧ (∀ nv, x.ToASCII val = some nv → w.NormValue = nv) ∧
      (x.ToASCII val = none → w.NormValue = val) := by
  cases n with
  | nil => simp [node32.flatChildren] at hn
  | mk t up next =>
    simp only [node32.flatChildren, Option.some.injEq] at hn
    subst hn
    have hr : t.begin ≤ t.end_ ∧ t.end_ ≤ (decodeRunes p.Buffer).length := by
      by_contra hc
      simp [Engine.nodeValue, hc] at hval
    have hv : val = runeSlice p.Buffer t.begin t.end_ := by
      simp only [Engine.nodeValue, hr, and_self, if_true, Option.some.injEq] at hval
      exact hval.symm
    rw [newWordNode_eq x p t up next wt hr, hext, if_pos rfl]
    refine ⟨_, _, rfl, addWarn_mem _ _, hv.symm, ?_, ?_⟩
    · intro nv h; rw [← hv, h]; rfl
    · intro h; rw [← hv, h]; rfl

/-- The amended C8 at the word `Aëtus`, whose extended character is a child. -/
theorem newWordNode_extended_witness :
    ∃ w p1, (engineOf "Aëtus").newWordNode extExample exWordAetus SpEpithetType = some (w, p1) ∧
      CharBadWarn ∈ p1.Warnings ∧ w.Value = goStr "Aëtus" ∧
      (∀ nv, extExample.ToASCII (goStr "Aëtus") = some nv → w.NormValue = nv) ∧
      (extExample.ToASCII (goStr "Aëtus") = none → w.NormValue = goStr "Aëtus") :=
  newWordNode_extended extExample (engineOf "Aëtus") exWordAetus SpEpithetType
    [leaf ruleLowerCharExtended 1 2 .nil] (goStr "Aëtus") (by decide) (by decide) (by decide)

/-- C9: when the extended-character normalisation is attempted (the list
`n.flatChildren()` holds an UpperCharExtended or LowerCharExtended node) and
`ToASCII` returns an error on the word, `newWordNode` still completes, raises
CharBadWarn, and returns the word with NormValue equal to Value. -/
theorem newWordNode_ToASCII_error (x : Ext) (p : Engine) (n : node32) (wt : WordType)
    (children : List node32) (val : GoString)
    (hn : n.flatChildren = some children) (hext : hasExtended children = true)
    (hval : p.nodeValue n = some val) (herr : x.ToASCII val = none) :
    ∃ w p1, p.newWordNode x n wt = some (w, p1) ∧ CharBadWarn ∈ p1.Warnings ∧
      w.Value = val ∧ w.NormValue = w.Value := by
  cases n with
  | nil => simp [node32.flatChildren] at hn
  | mk t up next =>
    simp only [node32.flatChildren, Option.some.injEq] at hn
    subst hn
    have hr : t.begin ≤ t.end_ ∧ t.end_ ≤ (decodeRunes p.Buffer).length := by
      by_contra hc
      simp [Engine.nodeValue, hc] at hval
    have hv : val = runeSlice p.Buffer t.begin t.end_ := by
      simp only [Engine.nodeValue, hr, and_self, if_true, Option.some.injEq] at hval
      exact hval.symm
    rw [newWordNode_eq x p t up next wt hr, hext, if_pos rfl]
    refine ⟨_, _, rfl, addWarn_mem _ _, hv.symm, ?_⟩
    show (x.ToASCII (runeSlice p.Buffer t.begin t.end_)).getD _ = _
    rw [← hv, herr]; rfl

/-- C9 at the word `Aëtus` with a `ToASCII` that returns an error. -/
theorem newWordNode_ToASCII_error_witness :
    ∃ w p1, (engineOf "Aëtus").newWordNode extFailing exWordAetus SpEpithetType = some (w, p1) ∧
      CharBadWarn ∈ p1.Warnings ∧ w.Value = goStr "Aëtus" ∧ w.NormValue = w.Value :=
  newWordNode_ToASCII_error extFailing (engineOf "Aëtus") exWordAetus SpEpithetType
    [leaf ruleLowerCharExtended 1 2 .nil] (goStr "Aëtus") (by decide) (by decide) (by decide)
    (by decide)

/-- C7 fails on the code: the Year node of `[1888]` contains a YearApprox
node, and `newYearNode` returns the year `1888` with Approximate false (type
Year, no warning), whatever the external functions are. -/
theorem newYearNode_ignores_YearApprox :
    (∃ t ∈ exYearApprox.postorder, t.pegRule = ruleYearApprox) ∧
    ∀ x : Ext, ∃ p1, (engineOf "Aus bus Smith [1888]").newYearNode x exYearApprox =
      some ({ Word := some { Value := goStr "1888", NormValue := goStr "1888",
                             Pos := { Type_ := YearType, Start := 15, End := 19 } },
              Approximate := false }, p1) ∧ p1.Warnings = [] := by
  exact ⟨by decide, fun x => ⟨engineOf "Aus bus Smith [1888]", rfl, rfl⟩⟩

/-- C10 fails on the code: for the all-capitals author word `ÖZTÜRK` (more than
2 upper-case runes) `authorWord` completes and raises AuthUpperCaseWarn, but
NormValue starts with the first byte of the word converted to a string (the
two bytes of `Ã`), followed by the lower-cased rest after that byte; it is not
the first rune `Ö` followed by the lower-cased rest `ZTÜRK`, whatever
`strings.ToLower` returns. -/
theorem authorWord_first_byte_not_rune (x : Ext)
    (hup : 2 < countUpper x (goStr "ÖZTÜRK")) :
    ∃ w p1, (engineOf "Aus bus ÖZTÜRK").authorWord x exAllCaps = some (w, p1) ∧
      w.Value = goStr "ÖZTÜRK" ∧ AuthUpperCaseWarn ∈ p1.Warnings ∧
      w.NormValue = goStr "Ã" ++ x.ToLower ((goStr "ÖZTÜRK").drop 1) ∧
      w.NormValue ≠ goStr "Ö" ++ x.ToLower (goStr "ZTÜRK") := by
  have h1 : (engineOf "Aus bus ÖZTÜRK").newWordNode x exAllCaps AuthorWordType =
      some ({ Value := goStr "ÖZTÜRK", NormValue := goStr "ÖZTÜRK",
              Pos := { Type_ := AuthorWordType, Start := 8, End := 14 } },
            engineOf "Aus bus ÖZTÜRK") := rfl
  have h2 : exAllCaps.up? = some (leaf ruleAllCapsAuthorWord 8 14 .nil) := rfl
  have h3 : index (goStr "ÖZTÜRK") 0 = some (mkByte 0xC3) := by decide
  have h4 : slice (goStr "ÖZTÜRK") 1 (len (goStr "ÖZTÜRK")) = some ((goStr "ÖZTÜRK").drop 1) := by
    decide
  have hres : (engineOf "Aus bus ÖZTÜRK").authorWord x exAllCaps =
      some ({ Value := goStr "ÖZTÜRK",
              NormValue := encodeRune (Char.ofNat (mkByte 0xC3).val)
                ++ x.ToLower ((goStr "ÖZTÜRK").drop 1),
              Pos := { Type_ := AuthorWordType, Start := 8, End := 14 } },
            (engineOf "Aus bus ÖZTÜRK").addWarn AuthUpperCaseWarn) := by
    simp only [Engine.authorWord, h1, h2, leaf, if_true, hup, h3, h4, gt_iff_lt]
  have e1 : encodeRune (Char.ofNat (mkByte 0xC3).val) = [mkByte 0xC3, mkByte 0x83] := by decide
  have e2 : goStr "Ö" = [mkByte 0xC3, mkByte 0x96] := by decide
  have e3 : goStr "Ã" = [mkByte 0xC3, mkByte 0x83] := by decide
  refine ⟨_, _, hres, rfl, addWarn_mem _ _, ?_, ?_⟩
  · show encodeRune (Char.ofNat (mkByte 0xC3).val) ++ _ = _
    rw [e1, e3]
  · show encodeRune (Char.ofNat (mkByte 0xC3).val) ++ _ ≠ _
    rw [e1, e2]
    intro h
    simp only [List.cons_append, List.nil_append, List.cons.injEq] at h
    exact absurd h.2.1 (by decide)

/-- The failing input of C10 with the example external functions. -/
theorem authorWord_first_byte_not_rune_witness :
    ∃ w p1, (engineOf "Aus bus ÖZTÜRK").authorWord extExample exAllCaps = some (w, p1) ∧
      w.Value = goStr "ÖZTÜRK" ∧ AuthUpperCaseWarn ∈ p1.Warnings ∧
      w.NormValue = goStr "Ã" ++ extExample.ToLower ((goStr "ÖZTÜRK").drop 1) ∧
      w.NormValue ≠ goStr "Ö" ++ extExample.ToLower (goStr "ZTÜRK") :=
  authorWord_first_byte_not_rune extExample (by decide)

theorem index_last (s : GoString) (h : s ≠ []) : index s (len s - 1) = s.getLast? := by
  have hl : 0 < s.length := List.length_pos.2 h
  have h1 : (0 : Int) ≤ len s - 1 ∧ len s - 1 < len s := by
    unfold len; omega
  have h2 : (len s - 1).toNat = s.length - 1 := by
    unfold len; omega
  simp only [index, h1, and_self, if_true, h2]
  rw [List.getLast?_eq_getElem?]

theorem index_nil (i : Int) : index [] i = none := by
  unfold index len
  split
  · rename_i h; simp at h; omega
  · rfl

theorem slice_zero (s : GoString) (k : Int) (h0 : 0 ≤ k) (h : k ≤ len s) :
    slice s 0 k = some (s.take k.toNat) := by
  simp [slice, h0, h]

theorem slice_zero_none (s : GoString) (k : Int) (h : len s < k) : slice s 0 k = none := by
  have : ¬ ((0 : Int) ≤ 0 ∧ 0 ≤ k ∧ k ≤ len s) := by omega
  simp only [slice, this, if_false]

theorem normalizeAbbreviated.frame_refl (fsv : GoString) (v : hybridElement Name) :
    normalizeAbbreviated.frame fsv v v := ⟨rfl, Or.inl rfl⟩

theorem normalizeAbbreviated.frame_trans (fsv : GoString) (v v1 v2 : hybridElement Name)
    (h1 : normalizeAbbreviated.frame fsv v v1) (h2 : normalizeAbbreviated.frame fsv v1 v2) :
    normalizeAbbreviated.frame fsv v v2 := by
  obtain ⟨a1, b1⟩ := h1
  obtain ⟨a2, b2⟩ := h2
  refine ⟨a2.trans a1, ?_⟩
  rcases b2 with b2 | ⟨sp2, g2, e1, e2, e3⟩
  · rw [b2]; exact b1
  · rcases b1 with b1 | ⟨sp1, g1, f1, f2, f3⟩
    · exact Or.inr ⟨sp2, g2, b1 ▸ e1, e2, e3⟩
    · refine Or.inr ⟨sp1, g1, f1, f2, ?_⟩
      rw [f3] at e1
      injection e1 with e1
      subst e1
      simp only [Option.some.injEq] at e2
      subst e2
      exact e3

/-- What the loop body returns when it does not panic. -/
theorem normalizeAbbreviated.elem_frame (fsv : GoString) (v v1 : hybridElement Name)
    (h : normalizeAbbreviated.elem fsv v = some v1) : normalizeAbbreviated.frame fsv v v1 := by
  unfold normalizeAbbreviated.elem at h
  split at h
  · rename_i sp hsp
    split at h
    · exact absurd h (by simp)
    · rename_i g hg
      simp only at h
      split at h
      · exact absurd h (by simp)
      · split at h
        · split at h
          · split at h
            · injection h with h
              subst h
              exact ⟨rfl, Or.inr ⟨sp, g, hsp, hg, rfl⟩⟩
            · injection h with h; subst h; exact normalizeAbbreviated.frame_refl _ _
          · exact absurd h (by simp)
        · injection h with h; subst h; exact normalizeAbbreviated.frame_refl _ _
  · injection h with h; subst h; exact normalizeAbbreviated.frame_refl _ _

/-- The loop body completes on a safe element. -/
theorem normalizeAbbreviated.elem_safe (fsv : GoString) (v : hybridElement Name)
    (h : normalizeAbbreviated.safe fsv v) : ∃ v1, normalizeAbbreviated.elem fsv v = some v1 := by
  unfold normalizeAbbreviated.elem
  split
  · rename_i sp hsp
    obtain ⟨g, hg, hne, hlast⟩ := h sp hsp
    have hl : 0 < g.NormValue.length := List.length_pos.2 hne
    simp only [hg, index_last _ hne]
    obtain ⟨c, hc⟩ : ∃ c, g.NormValue.getLast? = some c := by
      cases hq : g.NormValue.getLast? with
      | none => exact absurd (List.getLast?_eq_none_iff.1 hq) hne
      | some c => exact ⟨c, rfl⟩
    simp only [hc]
    by_cases hdot : c = ch '.'
    · subst hdot
      have hle := hlast hc
      have k0 : (0 : Int) ≤ len g.NormValue - 1 := by unfold len; omega
      have k1 : len g.NormValue - 1 ≤ len fsv := by unfold len; omega
      have k2 : len g.NormValue - 1 ≤ len g.NormValue := by omega
      simp only [if_true, slice_zero _ _ k0 k1, slice_zero _ _ k0 k2]
      split <;> exact ⟨_, rfl⟩
    · simp only [hdot, if_false]; exact ⟨_, rfl⟩
  · exact ⟨_, rfl⟩

/-- A safe element stays safe under the loop body, when `fsv` is not empty. -/
theorem normalizeAbbreviated.safe_of_frame (fsv : GoString) (v v1 : hybridElement Name)
    (hf : fsv ≠ []) (hs : normalizeAbbreviated.safe fsv v)
    (h : normalizeAbbreviated.frame fsv v v1) : normalizeAbbreviated.safe fsv v1 := by
  rcases h.2 with h | ⟨sp, g, _, _, e3⟩
  · intro sp hsp; exact hs sp (h ▸ hsp)
  · intro sp1 hsp1
    rw [e3] at hsp1
    injection hsp1 with hsp1
    subst hsp1
    exact ⟨_, rfl, hf, fun _ => Nat.le_succ _⟩

theorem getElem?_set_of_some {α : Type} (l : List α) (i j : Nat) (a v : α) (h : l[i]? = some v) :
    (l.set i a)[j]? = if i = j then some a else l[j]? := by
  have hi : i < l.length := (List.getElem?_eq_some_iff.1 h).1
  rw [List.getElem?_set, if_pos hi]

/-- The loop of `normalizeAbbreviated` keeps the heap but for the frame change. -/
theorem normalizeAbbreviated.loop_frame (fsv : GoString) :
    ∀ (is : List Nat) (heap heap1 : List (hybridElement Name)),
      normalizeAbbreviated.loop fsv is heap = some heap1 →
      heap1.length = heap.length ∧
        ∀ (j : Nat) (v : hybridElement Name), heap[j]? = some v →
          ∃ v1, heap1[j]? = some v1 ∧ normalizeAbbreviated.frame fsv v v1 := by
  intro is
  induction is with
  | nil =>
    intro heap heap1 h
    simp only [normalizeAbbreviated.loop, Option.some.injEq] at h
    subst h
    exact ⟨rfl, fun j v hv => ⟨v, hv, normalizeAbbreviated.frame_refl _ _⟩⟩
  | cons i is ih =>
    intro heap heap1 h
    unfold normalizeAbbreviated.loop at h
    split at h
    · exact absurd h (by simp)
    · rename_i v hv
      split at h
      · exact absurd h (by simp)
      · rename_i v1 hv1
        obtain ⟨hl, hfr⟩ := ih _ _ h
        refine ⟨by rw [hl, List.length_set], ?_⟩
        intro j w hw
        by_cases hij : i = j
        · subst hij
          rw [hv] at hw
          injection hw with hw
          subst hw
          obtain ⟨v2, h2, f2⟩ := hfr i v1 (by rw [getElem?_set_of_some _ _ _ _ _ hv, if_pos rfl])
          exact ⟨v2, h2, normalizeAbbreviated.frame_trans _ _ _ _
            (normalizeAbbreviated.elem_frame _ _ _ hv1) f2⟩
        · exact hfr j w (by rw [getElem?_set_of_some _ _ _ _ _ hv, if_neg hij]; exact hw)

/-- The loop of `normalizeAbbreviated` completes when every pointer points to
a safe element and `fsv` is not empty. -/
theorem normalizeAbbreviated.loop_safe (fsv : GoString) (hf : fsv ≠ []) :
    ∀ (is : List Nat) (heap : List (hybridElement Name)),
      (∀ i ∈ is, ∃ v, heap[i]? = some v ∧ normalizeAbbreviated.safe fsv v) →
      ∃ heap1, normalizeAbbreviated.loop fsv is heap = some heap1 := by
  intro is
  induction is with
  | nil => intro heap _; exact ⟨heap, rfl⟩
  | cons i is ih =>
    intro heap hs
    obtain ⟨v, hv, hsafe⟩ := hs i (List.mem_cons_self _ _)
    obtain ⟨v1, hv1⟩ := normalizeAbbreviated.elem_safe fsv v hsafe
    have hs1 : ∀ j ∈ is, ∃ w, (heap.set i v1)[j]? = some w ∧ normalizeAbbreviated.safe fsv w := by
      intro j hj
      rw [getElem?_set_of_some _ _ _ _ _ hv]
      by_cases hij : i = j
      · rw [if_pos hij]
        exact ⟨v1, rfl, normalizeAbbreviated.safe_of_frame fsv v v1 hf hsafe
          (normalizeAbbreviated.elem_frame _ _ _ hv1)⟩
      · rw [if_neg hij]
        exact hs j (List.mem_cons_of_mem _ hj)
    obtain ⟨heap1, h1⟩ := ih (heap.set i v1) hs1
    exact ⟨heap1, by simp only [normalizeAbbreviated.loop, hv, hv1, h1]⟩

theorem normalizeAbbreviated.frame_genusNorm (fsv : GoString) (v v1 : hybridElement Name)
    (h : normalizeAbbreviated.frame fsv v v1) (hg : v.genusNorm = some fsv) :
    v1.genusNorm = some fsv := by
  rcases h.2 with h | ⟨sp, g, _, _, e3⟩
  · unfold hybridElement.genusNorm at hg ⊢; rw [h]; exact hg
  · unfold hybridElement.genusNorm; rw [e3]; rfl

theorem normalizeAbbreviated.elem_abbreviates (fsv : GoString) (v v1 : hybridElement Name)
    (ha : normalizeAbbreviated.abbreviates fsv v)
    (h : normalizeAbbreviated.elem fsv v = some v1) : v1.genusNorm = some fsv := by
  obtain ⟨sp, g, P, hsp, hg, hP, hpre⟩ := ha
  have hne : g.NormValue ≠ [] := by rw [hP]; simp
  have hlast : g.NormValue.getLast? = some (ch '.') := by rw [hP]; simp
  have hlen : len g.NormValue - 1 = (P.length : Int) := by
    unfold len; rw [hP]; simp
  have hPle : P.length ≤ fsv.length := hpre.length_le
  have s1 : slice fsv 0 (len g.NormValue - 1) = some P := by
    rw [hlen, slice_zero _ _ (by omega) (by unfold len; omega)]
    simp only [Int.toNat_ofNat, Option.some.injEq]
    exact List.prefix_iff_eq_take.1 hpre |>.symm
  have s2 : slice g.NormValue 0 (len g.NormValue - 1) = some P := by
    rw [hlen, slice_zero _ _ (by omega) (by unfold len; rw [hP]; simp)]
    simp only [Int.toNat_ofNat, Option.some.injEq]
    rw [hP]; simp
  unfold normalizeAbbreviated.elem at h
  rw [hsp] at h
  simp only [hg, index_last _ hne, hlast, if_true, s1, s2, Option.some.injEq] at h
  subst h
  rfl

/-- After the loop of `normalizeAbbreviated`, an element that a pointer of the
list points to and that abbreviates `fsv` has `fsv` as genus NormValue. -/
theorem normalizeAbbreviated.loop_abbreviates (fsv : GoString) :
    ∀ (is : List Nat) (heap heap1 : List (hybridElement Name)),
      normalizeAbbreviated.loop fsv is heap = some heap1 →
      ∀ (i : Nat) (v : hybridElement Name), i ∈ is → heap[i]? = some v →
        normalizeAbbreviated.abbreviates fsv v →
        ∃ v1, heap1[i]? = some v1 ∧ v1.genusNorm = some fsv := by
  intro is
  induction is with
  | nil => intro heap heap1 _ i v hi; exact absurd hi (List.not_mem_nil _)
  | cons k is ih =>
    intro heap heap1 h i v hi hv ha
    unfold normalizeAbbreviated.loop at h
    split at h
    · exact absurd h (by simp)
    · rename_i w hw
      split at h
      · exact absurd h (by simp)
      · rename_i w1 hw1
        by_cases hki : k = i
        · subst hki
          rw [hv] at hw
          injection hw with hw
          subst hw
          have hg := normalizeAbbreviated.elem_abbreviates fsv v w1 ha hw1
          obtain ⟨v2, h2, f2⟩ := (normalizeAbbreviated.loop_frame fsv _ _ _ h).2 k w1
            (by rw [getElem?_set_of_some _ _ _ _ _ hv, if_pos rfl])
          exact ⟨v2, h2, normalizeAbbreviated.frame_genusNorm fsv _ _ f2 hg⟩
        · have hi1 : i ∈ is := by
            rcases List.mem_cons.1 hi with e | e
            · exact absurd e.symm hki
            · exact e
          exact ih _ _ h i v hi1
            (by rw [getElem?_set_of_some _ _ _ _ _ hw, if_neg hki]; exact hv) ha

/-- `normalizeAbbreviated` completes on a safe hybrid formula. -/
theorem normalizeAbbreviated_of_safe (hf : hybridFormulaNode Name) (hs : hf.safe) :
    ∃ hf1, hf.normalizeAbbreviated = some hf1 := by
  unfold hybridFormulaNode.normalizeAbbreviated
  split
  · rename_i fsp hfsp
    obtain ⟨g0, hg0, hne, hel⟩ := hs fsp hfsp
    obtain ⟨heap1, h1⟩ := normalizeAbbreviated.loop_safe g0.NormValue hne _ _ hel
    simp only [hg0, h1]
    exact ⟨_, rfl⟩
  · exact ⟨_, rfl⟩

/-- What a completed `normalizeAbbreviated` leaves unchanged. -/
theorem normalizeAbbreviated_frame_of_some (hf hf1 : hybridFormulaNode Name)
    (h : hf.normalizeAbbreviated = some hf1) :
    hf1.FirstSpecies = hf.FirstSpecies ∧ hf1.HybridElements = hf.HybridElements ∧
      hf1.heap.length = hf.heap.length ∧
      ∀ (j : Nat) (v : hybridElement Name), hf.heap[j]? = some v →
        ∃ v1 nv, hf1.heap[j]? = some v1 ∧ normalizeAbbreviated.frame nv v v1 := by
  unfold hybridFormulaNode.normalizeAbbreviated at h
  split at h
  · split at h
    · exact absurd h (by simp)
    · rename_i g0 _
      split at h
      · exact absurd h (by simp)
      · rename_i heap1 hl
        injection h with h
        subst h
        obtain ⟨h1, h2⟩ := normalizeAbbreviated.loop_frame _ _ _ _ hl
        refine ⟨rfl, rfl, h1, fun j v hv => ?_⟩
        obtain ⟨v1, a, b⟩ := h2 j v hv
        exact ⟨v1, g0.NormValue, a, b⟩
  · injection h with h
    subst h
    exact ⟨rfl, rfl, rfl, fun j v hv => ⟨v, [], hv, normalizeAbbreviated.frame_refl _ _⟩⟩

/-- The formula of `Aus bus × A. cus` is safe for `normalizeAbbreviated`. -/
theorem exFormula_safe : exFormula.safe := by
  intro fsp h
  injection h with h
  subst h
  refine ⟨_, rfl, by decide, ?_⟩
  intro i hi
  simp only [exFormula, List.mem_singleton] at hi
  subst hi
  refine ⟨_, rfl, ?_⟩
  intro sp h
  injection h with h
  subst h
  exact ⟨_, rfl, by decide, fun _ => by decide⟩

/-- In `Aus bus × A. cus` the genus `A.` abbreviates `Aus`. -/
theorem exFormula_abbreviates :
    normalizeAbbreviated.abbreviates (goStr "Aus")
      { HybridChar := some (exWord "×" HybridCharType 8 9),
        Species := Name.species (exSpecies "A." "cus" 10 12 13 16) } :=
  ⟨_, _, goStr "A", rfl, rfl, by decide, by decide⟩

/-- C4: in a hybrid formula on which `normalizeAbbreviated` has nothing to
panic on, whose first species has the full genus `G` (NormValue not ending in
`.`), every later element whose species genus NormValue is a prefix of `G`
followed by `.` has genus NormValue `G` after `normalizeAbbreviated`, which
completes. -/
theorem normalizeAbbreviated_expands (hf : hybridFormulaNode Name) (fsp : speciesNode)
    (g0 : wordNode) (i : Nat) (v : hybridElement Name)
    (hfirst : hf.FirstSpecies = Name.species fsp) (hg0 : fsp.Genus = some g0)
    (_hfull : g0.NormValue.getLast? ≠ some (ch '.'))
    (hsafe : hf.safe)
    (hi : i ∈ hf.HybridElements) (hv : hf.heap[i]? = some v)
    (ha : normalizeAbbreviated.abbreviates g0.NormValue v) :
    ∃ hf1 v1, hf.normalizeAbbreviated = some hf1 ∧ hf1.HybridElements = hf.HybridElements ∧
      hf1.heap[i]? = some v1 ∧ v1.genusNorm = some g0.NormValue := by
  obtain ⟨hf1, h0⟩ := normalizeAbbreviated_of_safe hf hsafe
  have hE := (normalizeAbbreviated_frame_of_some hf hf1 h0).2.1
  have h1 := h0
  refine ⟨hf1, ?_⟩
  unfold hybridFormulaNode.normalizeAbbreviated at h1
  rw [hfirst] at h1
  simp only [hg0] at h1
  split at h1
  · exact absurd h1 (by simp)
  · rename_i heap1 hl
    injection h1 with h1
    obtain ⟨v1, a, b⟩ := normalizeAbbreviated.loop_abbreviates _ _ _ _ hl i v hi hv ha
    refine ⟨v1, h0, hE, ?_, b⟩
    rw [← h1]; exact a

/-- C4 at `Aus bus × A. cus`: the genus `A.` becomes `Aus`. -/
theorem normalizeAbbreviated_expands_witness :
    ∃ hf1 v1, exFormula.normalizeAbbreviated = some hf1 ∧
      hf1.HybridElements = exFormula.HybridElements ∧
      hf1.heap[0]? = some v1 ∧ v1.genusNorm = some (goStr "Aus") :=
  normalizeAbbreviated_expands exFormula (exSpecies "Aus" "bus" 0 3 4 7)
    (exWord "Aus" GenusType 0 3) 0 _ rfl rfl (by decide) exFormula_safe (by decide) rfl
    exFormula_abbreviates

/-- C5: on a hybrid formula on which `normalizeAbbreviated` has nothing to
panic on, it completes and changes nothing except the genus NormValue of
elements of the heap: the first species, the list of pointers, the number of
elements, every HybridChar, and every species but for the NormValue of its
genus are the same before and after. -/
theorem normalizeAbbreviated_frame (hf : hybridFormulaNode Name) (hsafe : hf.safe) :
    ∃ hf1, hf.normalizeAbbreviated = some hf1 ∧
      hf1.FirstSpecies = hf.FirstSpecies ∧ hf1.HybridElements = hf.HybridElements ∧
      hf1.heap.length = hf.heap.length ∧
      ∀ (j : Nat) (v : hybridElement Name), hf.heap[j]? = some v →
        ∃ v1, hf1.heap[j]? = some v1 ∧ v1.HybridChar = v.HybridChar ∧
          (v1.Species = v.Species ∨
            ∃ sp g nv, v.Species = Name.species sp ∧ sp.Genus = some g ∧
              v1.Species = Name.species { sp with Genus := some { g with NormValue := nv } }) := by
  obtain ⟨hf1, h1⟩ := normalizeAbbreviated_of_safe hf hsafe
  obtain ⟨a, b, c, d⟩ := normalizeAbbreviated_frame_of_some hf hf1 h1
  refine ⟨hf1, h1, a, b, c, fun j v hv => ?_⟩
  obtain ⟨v1, nv, e, f⟩ := d j v hv
  refine ⟨v1, e, f.1, ?_⟩
  rcases f.2 with f | ⟨sp, g, f1, f2, f3⟩
  · exact Or.inl f
  · exact Or.inr ⟨sp, g, nv, f1, f2, f3⟩

/-- C5 at `Aus bus × A. cus`. -/
theorem normalizeAbbreviated_frame_witness :
    ∃ hf1, exFormula.normalizeAbbreviated = some hf1 ∧
      hf1.FirstSpecies = exFormula.FirstSpecies ∧
      hf1.HybridElements = exFormula.HybridElements ∧
      hf1.heap.length = exFormula.heap.length ∧
      ∀ (j : Nat) (v : hybridElement Name), exFormula.heap[j]? = some v →
        ∃ v1, hf1.heap[j]? = some v1 ∧ v1.HybridChar = v.HybridChar ∧
          (v1.Species = v.Species ∨
            ∃ sp g nv, v.Species = Name.species sp ∧ sp.Genus = some g ∧
              v1.Species = Name.species { sp with Genus := some { g with NormValue := nv } }) :=
  normalizeAbbreviated_frame exFormula exFormula_safe

/-- C6: `normalizeAbbreviated` completes (no index or slice out of range, no
nil dereference) on every hybrid formula in which the first species, when it
is a `speciesNode`, has a genus whose NormValue is at least 2 bytes long, and
every element that is a `speciesNode` has a genus whose NormValue is a word
of length at least 2 or one or two capitals followed by `.`. -/
theorem normalizeAbbreviated_completes (hf : hybridFormulaNode Name)
    (hfirst : ∀ fsp, hf.FirstSpecies = Name.species fsp →
      ∃ g0, fsp.Genus = some g0 ∧ 2 ≤ g0.NormValue.length)
    (hel : ∀ i ∈ hf.HybridElements, ∃ v, hf.heap[i]? = some v ∧
      ∀ sp, v.Species = Name.species sp →
        ∃ g, sp.Genus = some g ∧ (isGenusWord g.NormValue ∨ isAbbrGenus g.NormValue)) :
    ∃ hf1, hf.normalizeAbbreviated = some hf1 := by
  apply normalizeAbbreviated_of_safe
  intro fsp hfsp
  obtain ⟨g0, hg0, hlen⟩ := hfirst fsp hfsp
  refine ⟨g0, hg0, fun e => by rw [e] at hlen; simp at hlen, ?_⟩
  intro i hi
  obtain ⟨v, hv, hsp⟩ := hel i hi
  refine ⟨v, hv, fun sp h => ?_⟩
  obtain ⟨g, hg, hw⟩ := hsp sp h
  refine ⟨g, hg, ?_, ?_⟩
  · rcases hw with hw | ⟨caps, _, _, e⟩
    · intro e; rw [e] at hw; have := hw.1; simp at this
    · rw [e]; simp
  · intro hlast
    rcases hw with hw | ⟨caps, hc, _, e⟩
    · exact absurd (List.mem_of_getLast?_eq_some hlast) hw.2
    · rw [e, List.length_append, List.length_singleton]
      rcases hc with hc | hc <;> omega

/-- C6 at `Aus bus × A. cus`. -/
theorem normalizeAbbreviated_completes_witness :
    ∃ hf1, exFormula.normalizeAbbreviated = some hf1 :=
  normalizeAbbreviated_completes exFormula
    (fun fsp h => by
      injection h with h
      subst h
      exact ⟨_, rfl, by decide⟩)
    (fun i hi => by
      simp only [exFormula, List.mem_singleton] at hi
      subst hi
      refine ⟨_, rfl, fun sp h => ?_⟩
      injection h with h
      subst h
      exact ⟨_, rfl, Or.inr ⟨[ch 'A'], Or.inl rfl, fun c hc => by
        rw [List.mem_singleton.1 hc]; decide, by decide⟩⟩)

theorem hfState.assign_inv (st st1 : hfState) (s : Name) (p1 : Engine)
    (h : st.assign s p1 = some st1) :
    st1.inv ∧ (s.isNil = false → st.allSpecies → st1.allSpecies) := by
  unfold hfState.assign at h
  split at h
  · exact absurd h (by simp)
  · rename_i i hi
    split at h
    · exact absurd h (by simp)
    · rename_i e he
      injection h with h
      subst h
      constructor
      · intro j hj
        simp only [Option.some.injEq] at hj
        subst hj
        refine ⟨_, by rw [getElem?_set_of_some _ _ _ _ _ he, if_pos rfl], fun _ => ?_⟩
        simp
      · intro hs hall j hj
        simp only [List.mem_append, List.mem_singleton] at hj
        by_cases hij : i = j
        · subst hij
          exact ⟨_, by rw [getElem?_set_of_some _ _ _ _ _ he, if_pos rfl], hs⟩
        · rcases hj with hj | hj
          · obtain ⟨e1, a, b⟩ := hall j hj
            exact ⟨e1, by rw [getElem?_set_of_some _ _ _ _ _ he, if_neg hij]; exact a, b⟩
          · exact absurd hj.symm hij

theorem newSingleName_isNil (x : Ext) (p p1 : Engine) (n : node32) (nm : Name)
    (h : p.newSingleName x n = some (nm, p1)) (hl : liftsToName n = true) :
    nm.isNil = false := by
  unfold Engine.newSingleName at h
  split at h
  · rename_i t up next hup
    simp only at h
    cases n with
    | nil => simp [node32.up?] at hup
    | mk nt nup nnext =>
      simp only [node32.up?, Option.some.injEq] at hup
      subst hup
      simp only [liftsToName, decide_eq_true_eq] at hl
      split at h
      · split at h
        · exact absurd h (by simp)
        · injection h with h; injection h with h1 h2; subst h1; rfl
      · split at h
        · split at h
          · exact absurd h (by simp)
          · injection h with h; injection h with h1 h2; subst h1; rfl
        · split at h
          · split at h
            · exact absurd h (by simp)
            · injection h with h; injection h with h1 h2; subst h1; rfl
          · rename_i h1 h2 h3
            rcases hl with hl | hl | hl
            · exact absurd hl h1
            · exact absurd hl h2
            · exact absurd hl h3
  · exact absurd h (by simp)

theorem newHybridFormulaNode.loop_inv (x : Ext) (firstName : Name) :
    ∀ (n : node32) (st st1 : hfState),
      newHybridFormulaNode.loop x firstName n st = some st1 → st.inv →
      st1.inv ∧ (singleNamesLift n → st.allSpecies → st1.allSpecies) := by
  intro n
  induction n with
  | nil =>
    intro st st1 h hinv
    simp only [newHybridFormulaNode.loop, Option.some.injEq] at h
    subst h
    exact ⟨hinv, fun _ ha => ha⟩
  | mk t up next _ ih =>
    intro st st1 h hinv
    unfold newHybridFormulaNode.loop at h
    simp only at h
    split at h
    · -- HybridChar
      split at h
      · exact absurd h (by simp)
      · rename_i w p1 _
        have hinv1 : hfState.inv
            { heap := st.heap ++ [{ HybridChar := some w, Species := Name.nil }],
              he := some st.heap.length, hes := st.hes, p := p1 } := by
          intro j hj
          simp only [Option.some.injEq] at hj
          subst hj
          exact ⟨{ HybridChar := some w, Species := Name.nil }, by simp,
            fun hc => absurd hc (by simp [Name.isNil])⟩
        obtain ⟨a, b⟩ := ih _ _ h hinv1
        refine ⟨a, fun hl hall => b hl.2 ?_⟩
        intro j hj
        obtain ⟨e, e1, e2⟩ := hall j hj
        have hlt : j < st.heap.length := (List.getElem?_eq_some_iff.1 e1).1
        exact ⟨e, by simp only [List.getElem?_append_left hlt]; exact e1, e2⟩
    · split at h
      · -- SingleName
        rename_i hrule
        split at h
        · exact absurd h (by simp)
        · rename_i nm p1 hnm
          split at h
          · exact absurd h (by simp)
          · rename_i st2 hst2
            obtain ⟨c, d⟩ := hfState.assign_inv _ _ _ _ hst2
            obtain ⟨a, b⟩ := ih _ _ h c
            exact ⟨a, fun hl hall =>
              b hl.2 (d (newSingleName_isNil x _ _ _ _ hnm (hl.1 hrule)) hall)⟩
      · split at h
        · -- SpeciesEpithet
          split at h
          · split at h
            · exact absurd h (by simp)
            · rename_i st2 hst2
              obtain ⟨c, d⟩ := hfState.assign_inv _ _ _ _ hst2
              obtain ⟨a, b⟩ := ih _ _ h c
              exact ⟨a, fun hl hall => b hl.2 (d rfl hall)⟩
          · exact absurd h (by simp)
        · obtain ⟨a, b⟩ := ih _ _ h hinv
          exact ⟨a, fun hl hall => b hl.2 hall⟩

theorem normalizeAbbreviated.frame_isNil (fsv : GoString) (v v1 : hybridElement Name)
    (h : normalizeAbbreviated.frame fsv v v1) : v1.Species.isNil = v.Species.isNil := by
  rcases h.2 with h | ⟨sp, g, e1, _, e3⟩
  · rw [h]
  · rw [e3, e1]; rfl

/-- C3 as stated fails: lifting the hybrid formula `Aus bus × Aus cf. cus × Aus
dus` completes with two elements, the first one with a nil Species, and
HybridFormulaProbIncompleteWarn is not in the warning set. -/
theorem newHybridFormulaNode_nil_species_unwarned :
    ∃ hf p1, (engineOf "Aus bus × Aus cf. cus × Aus dus").newHybridFormulaNode extExample
        exFormulaComp = some (hf, p1) ∧
      HybridFormulaProbIncompleteWarn ∉ p1.Warnings ∧ hf.HybridElements = [0, 1] ∧
      ∃ v, hf.heap[0]? = some v ∧ v.Species.isNil = true := by
  refine ⟨_, _, rfl, by decide, by decide, _, rfl, by decide⟩

/-- C3 (amended): for every hybrid formula lifted by `newHybridFormulaNode`,
HybridFormulaProbIncompleteWarn is in the warning set or the last element of
HybridElements has a non-nil Species; and when every SingleName child after
the first has a first child that `newSingleName` lifts (NameSpecies, Uninomial
or UninomialCombo), the warning is in the set or every element has a non-nil
Species. -/
theorem newHybridFormulaNode_species (x : Ext) (p p1 : Engine) (n : node32)
    (hf : hybridFormulaNode Name) (h : p.newHybridFormulaNode x n = some (hf, p1)) :
    (HybridFormulaProbIncompleteWarn ∈ p1.Warnings ∨
      ∃ i v, hf.HybridElements.getLast? = some i ∧ hf.heap[i]? = some v ∧
        v.Species.isNil = false) ∧
    (formulaSinglesLift n →
      HybridFormulaProbIncompleteWarn ∈ p1.Warnings ∨
        ∀ i ∈ hf.HybridElements, ∃ v, hf.heap[i]? = some v ∧ v.Species.isNil = false) := by
  unfold Engine.newHybridFormulaNode at h
  split at h
  · exact absurd h (by simp)
  · rename_i c hc
    split at h
    · rename_i firstName p0 n1 _ hn1
      split at h
      · exact absurd h (by simp)
      · rename_i st hst
        have hinv0 : hfState.inv { heap := [], he := none, hes := [], p := p0 } := by
          intro i hi; exact absurd hi (by simp)
        obtain ⟨hinv, hall⟩ := newHybridFormulaNode.loop_inv x firstName n1 _ _ hst hinv0
        split at h
        · exact absurd h (by simp)
        · rename_i i hi
          split at h
          · exact absurd h (by simp)
          · rename_i e he
            simp only at h
            split at h
            · exact absurd h (by simp)
            · rename_i hf1 hnorm
              injection h with h
              injection h with h1 h2
              subst h1
              subst h2
              obtain ⟨_, hE, _, hfr⟩ := normalizeAbbreviated_frame_of_some _ _ hnorm
              simp only at hE hfr
              by_cases hnil : e.Species.isNil = true
              · simp only [hnil, if_true]
                exact ⟨Or.inl (addWarn_mem _ _), fun _ => Or.inl (addWarn_mem _ _)⟩
              · simp only [Bool.not_eq_true] at hnil
                simp only [hnil, Bool.false_eq_true, if_false] at hE ⊢
                constructor
                · right
                  obtain ⟨e1, a, b⟩ := hinv i hi
                  rw [he] at a
                  injection a with a
                  subst a
                  obtain ⟨v1, nv, c1, c2⟩ := hfr i e he
                  refine ⟨i, v1, by rw [hE]; exact b hnil, c1, ?_⟩
                  rw [normalizeAbbreviated.frame_isNil nv _ _ c2]; exact hnil
                · intro hl
                  right
                  have hl1 : singleNamesLift n1 := by
                    cases n with
                    | nil => simp [node32.up?] at hc
                    | mk nt nup nnext =>
                      simp only [node32.up?, Option.some.injEq] at hc
                      subst hc
                      cases nup with
                      | nil => simp [node32.next?] at hn1
                      | mk ct cup cnext =>
                        simp only [node32.next?, Option.some.injEq] at hn1
                        subst hn1
                        exact hl
                  have hall1 := hall hl1 (fun j hj => absurd hj (List.not_mem_nil _))
                  intro j hj
                  rw [hE] at hj
                  obtain ⟨e1, a, b⟩ := hall1 j hj
                  obtain ⟨v1, nv, c1, c2⟩ := hfr j e1 a
                  exact ⟨v1, c1, by rw [normalizeAbbreviated.frame_isNil nv _ _ c2]; exact b⟩
    · exact absurd h (by simp)

/-- The amended C3 at the lifted formula of `Aus bus × A. cus`. -/
theorem newHybridFormulaNode_species_witness :
    (HybridFormulaProbIncompleteWarn ∈
        (engineWith "Aus bus × A. cus" [HybridFormulaWarn, GenusAbbrWarn]).Warnings ∨
      ∃ i v, exFormulaLifted.HybridElements.getLast? = some i ∧
        exFormulaLifted.heap[i]? = some v ∧ v.Species.isNil = false) ∧
    (formulaSinglesLift exFormulaNode →
      HybridFormulaProbIncompleteWarn ∈
          (engineWith "Aus bus × A. cus" [HybridFormulaWarn, GenusAbbrWarn]).Warnings ∨
        ∀ i ∈ exFormulaLifted.HybridElements,
          ∃ v, exFormulaLifted.heap[i]? = some v ∧ v.Species.isNil = false) :=
  newHybridFormulaNode_species extExample (engineOf "Aus bus × A. cus")
    (engineWith "Aus bus × A. cus" [HybridFormulaWarn, GenusAbbrWarn]) exFormulaNode
    exFormulaLifted rfl

theorem Lifted_nil (buf : GoString) (F : List token32) : Lifted buf F [] :=
  fun _ h => absurd h (List.not_mem_nil _)

theorem Lifted_append (buf : GoString) (F : List token32) (a b : List wordNode) :
    Lifted buf F (a ++ b) ↔ Lifted buf F a ∧ Lifted buf F b := by
  unfold Lifted
  constructor
  · intro h
    exact ⟨fun w hw => h w (List.mem_append_left _ hw), fun w hw => h w (List.mem_append_right _ hw)⟩
  · rintro ⟨h1, h2⟩ w hw
    rcases List.mem_append.1 hw with hw | hw
    · exact h1 w hw
    · exact h2 w hw

theorem Lifted_cons (buf : GoString) (F : List token32) (a : wordNode) (b : List wordNode) :
    Lifted buf F (a :: b) ↔ a.lifted buf F ∧ Lifted buf F b := by
  unfold Lifted
  simp

theorem Lifted_some (buf : GoString) (F : List token32) (a : wordNode) :
    Lifted buf F (some a).toList ↔ a.lifted buf F := by
  unfold Lifted
  simp

theorem Lifted_none (buf : GoString) (F : List token32) :
    Lifted buf F (none : Option wordNode).toList := by
  unfold Lifted
  simp

theorem lifted_mono (buf : GoString) (F G : List token32) (w : wordNode) (hFG : F ⊆ G)
    (h : w.lifted buf F) : w.lifted buf G := by
  rcases h with ⟨t, ht, h⟩ | h
  · exact Or.inl ⟨t, hFG ht, h⟩
  · exact Or.inr h

theorem Lifted_mono (buf : GoString) (F G : List token32) (ws : List wordNode) (hFG : F ⊆ G)
    (h : Lifted buf F ws) : Lifted buf G ws :=
  fun w hw => lifted_mono buf F G w hFG (h w hw)

theorem lifted_normValue (buf : GoString) (F : List token32) (w : wordNode) (nv : GoString)
    (h : w.lifted buf F) : wordNode.lifted buf F { w with NormValue := nv } := h

theorem forest_subset (t : token32) (up next : node32) (F : List token32) :
    (node32.mk t up next).forest ⊆ F ↔ up.forest ⊆ F ∧ t ∈ F ∧ next.forest ⊆ F := by
  simp only [node32.forest, List.append_subset, List.cons_subset, List.nil_subset, and_true,
    and_assoc]

theorem siblings_forest : ∀ (n : node32) (F : List token32), n.forest ⊆ F →
    ∀ v ∈ n.siblings, v.forest ⊆ F := by
  intro n
  induction n with
  | nil => intro F _ v hv; simp [node32.siblings] at hv
  | mk t up next _ ih =>
    intro F hF v hv
    simp only [node32.siblings, List.mem_cons] at hv
    rcases hv with hv | hv
    · rw [hv]; exact hF
    · exact ih F ((forest_subset t up next F).1 hF).2.2 v hv

theorem spine_forest : ∀ (n : node32) (F : List token32), n.forest ⊆ F →
    ∀ v ∈ n.spine, v.forest ⊆ F := by
  intro n
  induction n with
  | nil => intro F _ v hv; simp [node32.spine] at hv
  | mk t up next ihu _ =>
    intro F hF v hv
    simp only [node32.spine, List.cons_append, List.mem_cons, List.mem_append] at hv
    rcases hv with hv | hv | hv
    · rw [hv]; exact hF
    · exact siblings_forest next F ((forest_subset t up next F).1 hF).2.2 v hv
    · exact ihu F ((forest_subset t up next F).1 hF).1 v hv

/-- A word that `newWordNode` returns is built from the token of its node. -/
theorem newWordNode_lifted (x : Ext) (p p1 : Engine) (n : node32) (wt : WordType) (w : wordNode)
    (F : List token32) (hF : n.forest ⊆ F) (h : p.newWordNode x n wt = some (w, p1)) :
    p1.Buffer = p.Buffer ∧ w.lifted p.Buffer F ∧ w.Pos.Type_ = wt ∧
      ∃ t, n.token32? = some t ∧ w.ofToken p.Buffer t ∧ w.Value = runeSlice p.Buffer t.begin t.end_ := by
  obtain ⟨t, up, next, hn, h1, h2, h3, h4, h5⟩ := newWordNode_some x p p1 n wt w h
  subst hn
  have hof : w.ofToken p.Buffer t := by
    refine ⟨by rw [h4], by rw [h4], h1, h2, Or.inl h3⟩
  refine ⟨?_, Or.inl ⟨t, ((forest_subset t up next F).1 hF).2.1, hof⟩, by rw [h4], t, rfl, hof, h3⟩
  rcases h5 with h5 | h5
  · rw [h5]
  · rw [h5, addWarn_Buffer]

theorem authorWord_lifted (x : Ext) (p p1 : Engine) (n : node32) (w : wordNode)
    (F : List token32) (hF : n.forest ⊆ F) (h : p.authorWord x n = some (w, p1)) :
    p1.Buffer = p.Buffer ∧ w.lifted p.Buffer F := by
  unfold Engine.authorWord at h
  split at h
  · exact absurd h (by simp)
  · rename_i w0 p0 h0
    obtain ⟨hb, hl, _⟩ := newWordNode_lifted x p p0 n _ w0 F hF h0
    split at h
    · split at h
      · split at h
        · simp only at h
          split at h
          · injection h with h; injection h with h1 h2
            subst h1; subst h2
            exact ⟨by rw [addWarn_Buffer, hb], hl⟩
          · exact absurd h (by simp)
        · injection h with h; injection h with h1 h2
          subst h1; subst h2; exact ⟨hb, hl⟩
      · injection h with h; injection h with h1 h2
        subst h1; subst h2; exact ⟨hb, hl⟩
    · injection h with h; injection h with h1 h2
      subst h1; subst h2; exact ⟨hb, hl⟩

theorem newAuthorNode_loop_lifted (x : Ext) (buf : GoString) (F : List token32) :
    ∀ (n : node32) (ws ws1 : List wordNode) (val val1 : GoString) (p p1 : Engine),
      n.forest ⊆ F → p.Buffer = buf → Lifted buf F ws →
      newAuthorNode.loop x n (ws, val, p) = some (ws1, val1, p1) →
      p1.Buffer = buf ∧ Lifted buf F ws1 := by
  intro n
  induction n with
  | nil =>
    intro ws ws1 val val1 p p1 _ hb hl h
    simp only [newAuthorNode.loop, Option.some.injEq, Prod.mk.injEq] at h
    obtain ⟨h1, _, h3⟩ := h
    subst h1; subst h3
    exact ⟨hb, hl⟩
  | mk t up next _ ih =>
    intro ws ws1 val val1 p p1 hF hb hl h
    have hnext := ((forest_subset t up next F).1 hF).2.2
    unfold newAuthorNode.loop at h
    simp only at h
    split at h
    · exact absurd h (by simp)
    · rename_i w p0 hr
      have hw : p0.Buffer = buf ∧ w.lifted buf F := by
        split at hr
        · split at hr
          · exact absurd hr (by simp)
          · rename_i w0 p00 h0
            obtain ⟨a, b, _⟩ := newWordNode_lifted x p p00 _ _ w0 F hF h0
            injection hr with hr; injection hr with h1 h2
            subst h1; subst h2
            exact ⟨by rw [a, hb], by rw [hb] at b; exact b⟩
        · obtain ⟨a, b⟩ := authorWord_lifted x p p0 _ w F hF hr
          exact ⟨by rw [a, hb], by rw [hb] at b; exact b⟩
      exact ih _ _ _ _ _ _ hnext hw.1
        ((Lifted_append _ _ _ _).2 ⟨hl, (Lifted_cons _ _ _ _).2 ⟨hw.2, Lifted_nil _ _⟩⟩) h

theorem newAuthorNode_lifted (x : Ext) (p p1 : Engine) (n : node32) (a : authorNode)
    (F : List token32) (hF : n.forest ⊆ F) (h : p.newAuthorNode x n = some (a, p1)) :
    p1.Buffer = p.Buffer ∧ Lifted p.Buffer F a.words := by
  unfold Engine.newAuthorNode at h
  split at h
  · exact absurd h (by simp)
  · rename_i c hc
    split at h
    · exact absurd h (by simp)
    · rename_i ws val p0 hl
      cases n with
      | nil => simp [node32.up?] at hc
      | mk t up next =>
        simp only [node32.up?, Option.some.injEq] at hc
        subst hc
        obtain ⟨a1, a2⟩ := newAuthorNode_loop_lifted x p.Buffer F up [] ws [] val p p0
          ((forest_subset t up next F).1 hF).1 rfl (Lifted_nil _ _) hl
        injection h with h; injection h with h1 h2
        subst h1; subst h2
        refine ⟨?_, a2⟩
        split
        · rw [addWarn_Buffer, a1]
        · exact a1

theorem slice_dropLast (s val : GoString) (h : slice s 0 (len s - 1) = some val) :
    val = s.dropLast := by
  by_cases h0 : (0 : Int) ≤ len s - 1
  · rw [slice_zero s _ h0 (by omega)] at h
    injection h with h
    rw [← h, List.dropLast_eq_take]
    congr 1
    unfold len; omega
  · have : ¬ ((0 : Int) ≤ 0 ∧ 0 ≤ len s - 1 ∧ len s - 1 ≤ len s) := by omega
    simp only [slice, this, if_false] at h
    exact absurd h (by simp)

theorem newYearNode.loop_cons (x : Ext) (v : node32) (vs : List node32) (w : Option wordNode)
    (appr : Bool) (p : Engine) :
    newYearNode.loop x (v :: vs) (w, appr, p) =
      match v.token32? with
      | none => none
      | some t =>
        if t.pegRule = ruleYearWithParens then
          newYearNode.loop x vs (w, true, p.addWarn YearParensWarn)
        else if t.pegRule = ruleYearWithChar then
          match (p.addWarn YearCharWarn).newWordNode x v YearType with
          | none => none
          | some (w1, p1) =>
            match slice w1.Value 0 (len w1.Value - 1) with
            | none => none
            | some val => newYearNode.loop x vs (some { w1 with Value := val }, appr, p1)
        else if t.pegRule = ruleYearNum then
          let r := match w with
            | none => p.newWordNode x v YearType
            | some w0 => some (w0, p)
          match r with
          | none => none
          | some (w1, p1) =>
            match index w1.Value (len w1.Value - 1) with
            | none => none
            | some c =>
              if c = ch '?' then newYearNode.loop x vs (some w1, true, p1.addWarn YearQuestionWarn)
              else newYearNode.loop x vs (some w1, appr, p1)
        else newYearNode.loop x vs (w, appr, p) := rfl

theorem newYearNode_loop_lifted (x : Ext) (buf : GoString) (F : List token32) :
    ∀ (vs : List node32) (w w1 : Option wordNode) (appr appr1 : Bool) (p p1 : Engine),
      (∀ v ∈ vs, v.forest ⊆ F) → p.Buffer = buf →
      (∀ w0, w = some w0 → ∃ t ∈ F, w0.ofToken buf t) →
      newYearNode.loop x vs (w, appr, p) = some (w1, appr1, p1) →
      p1.Buffer = buf ∧ (∀ w0, w1 = some w0 → ∃ t ∈ F, w0.ofToken buf t) := by
  intro vs
  induction vs with
  | nil =>
    intro w w1 appr appr1 p p1 _ hb hw h
    simp only [newYearNode.loop, Option.some.injEq, Prod.mk.injEq] at h
    obtain ⟨h1, _, h3⟩ := h
    subst h1; subst h3
    exact ⟨hb, hw⟩
  | cons v vs ih =>
    intro w w1 appr appr1 p p1 hvs hb hw h
    have hv : v.forest ⊆ F := hvs v (List.mem_cons_self _ _)
    have hvs1 : ∀ u ∈ vs, u.forest ⊆ F := fun u hu => hvs u (List.mem_cons_of_mem _ hu)
    rw [newYearNode.loop_cons] at h
    split at h
    · exact absurd h (by simp)
    · rename_i t ht
      split at h
      · exact ih _ _ _ _ _ _ hvs1 (by rw [addWarn_Buffer, hb]) hw h
      · split at h
        · rename_i hrule
          split at h
          · exact absurd h (by simp)
          · rename_i wc pc hc
            obtain ⟨a, _, ty, t1, ht1, hof, _⟩ :=
              newWordNode_lifted x _ pc v _ wc F hv hc
            rw [addWarn_Buffer, hb] at a hof
            rw [ht] at ht1
            injection ht1 with ht1
            subst ht1
            split at h
            · exact absurd h (by simp)
            · rename_i val hval
              have hval1 := slice_dropLast _ _ hval
              refine ih _ _ _ _ _ _ hvs1 a ?_ h
              intro w0 hw0
              injection hw0 with hw0
              subst hw0
              have htF : t ∈ F := by
                cases v with
                | nil => simp [node32.token32?] at ht
                | mk vt vup vnext =>
                  simp only [node32.token32?, Option.some.injEq] at ht
                  subst ht
                  exact ((forest_subset _ _ _ F).1 hv).2.1
              refine ⟨t, htF, hof.1, hof.2.1, hof.2.2.1, hof.2.2.2.1, Or.inr ⟨Or.inl ty, hrule, ?_⟩⟩
              rcases hof.2.2.2.2 with hv1 | ⟨_, _, _⟩
              · show val = _
                rw [hval1, hv1]
              · rename_i c1 c2 c3
                rcases c1 with c1 | c1
                · show val = _
                  rw [hval1]
                  have := newWordNode_lifted x _ pc v _ wc F hv hc
                  obtain ⟨_, _, _, t2, ht2, _, hv2⟩ := this
                  rw [ht] at ht2
                  injection ht2 with ht2
                  subst ht2
                  rw [addWarn_Buffer, hb] at hv2
                  rw [hv2]
                · rw [ty] at c1; exact absurd c1 (by decide)
        · split at h
          · have key : ∀ wc pc,
                (match w with
                  | none => p.newWordNode x v YearType
                  | some w0 => some (w0, p)) = some (wc, pc) →
                pc.Buffer = buf ∧ ∃ t ∈ F, wc.ofToken buf t := by
              intro wc pc hr
              cases w with
              | none =>
                obtain ⟨a, _, _, t1, ht1, hof, _⟩ := newWordNode_lifted x p pc v _ wc F hv hr
                rw [hb] at a hof
                rw [ht] at ht1
                injection ht1 with ht1
                subst ht1
                have htF : t ∈ F := by
                  cases v with
                  | nil => simp [node32.token32?] at ht
                  | mk vt vup vnext =>
                    simp only [node32.token32?, Option.some.injEq] at ht
                    subst ht
                    exact ((forest_subset _ _ _ F).1 hv).2.1
                exact ⟨a, t, htF, hof⟩
              | some w0 =>
                injection hr with hr; injection hr with h1 h2
                subst h1; subst h2
                exact ⟨hb, hw _ rfl⟩
            simp only at h
            generalize hr : (match w with
                  | none => p.newWordNode x v YearType
                  | some w0 => some (w0, p)) = r at h key
            cases r with
            | none => exact absurd h (by simp)
            | some r =>
              obtain ⟨wc, pc⟩ := r
              have hwc := key wc pc rfl
              simp only at h
              split at h
              · exact absurd h (by simp)
              · split at h
                · refine ih _ _ _ _ _ _ hvs1 (by rw [addWarn_Buffer, hwc.1]) ?_ h
                  intro w0 hw0
                  injection hw0 with hw0
                  subst hw0
                  exact hwc.2
                · refine ih _ _ _ _ _ _ hvs1 hwc.1 ?_ h
                  intro w0 hw0
                  injection hw0 with hw0
                  subst hw0
                  exact hwc.2
          · exact ih _ _ _ _ _ _ hvs1 hb hw h

theorem ofToken_type (buf : GoString) (t : token32) (w : wordNode)
    (h : w.ofToken buf t) :
    wordNode.ofToken buf t { w with Pos := { w.Pos with Type_ := YearApproximateType } } := by
  obtain ⟨a, b, c, d, e⟩ := h
  refine ⟨a, b, c, d, ?_⟩
  rcases e with e | ⟨_, e2, e3⟩
  · exact Or.inl e
  · exact Or.inr ⟨Or.inr rfl, e2, e3⟩

theorem newYearNode_lifted (x : Ext) (p p1 : Engine) (nd : node32) (y : yearNode)
    (F : List token32) (hF : nd.forest ⊆ F) (h : p.newYearNode x nd = some (y, p1)) :
    p1.Buffer = p.Buffer ∧ Lifted p.Buffer F y.words := by
  unfold Engine.newYearNode at h
  split at h
  · exact absurd h (by simp)
  · rename_i nodes hn
    cases nd with
    | nil => simp [node32.flatChildren] at hn
    | mk t up next =>
      simp only [node32.flatChildren, Option.some.injEq] at hn
      subst hn
      split at h
      · exact absurd h (by simp)
      · rename_i w appr p0 hl
        obtain ⟨a, b⟩ := newYearNode_loop_lifted x p.Buffer F up.spine none w false appr p p0
          (spine_forest up F ((forest_subset t up next F).1 hF).1) rfl
          (fun w0 hw0 => absurd hw0 (by simp)) hl
        cases w with
        | none =>
          simp only at h
          split at h
          · exact absurd h (by simp)
          · rename_i wc pc hr
            obtain ⟨a1, _, _, t1, ht1, hof, _⟩ := newWordNode_lifted x p0 pc _ _ wc F hF hr
            rw [a] at a1 hof
            simp only [node32.token32?, Option.some.injEq] at ht1
            subst ht1
            have htF := ((forest_subset _ _ _ F).1 hF).2.1
            injection h with h; injection h with h1 h2
            subst h1; subst h2
            refine ⟨a1, ?_⟩
            simp only [yearNode.words, Lifted_some]
            split
            · exact Or.inl ⟨t, htF, ofToken_type _ _ _ hof⟩
            · exact Or.inl ⟨t, htF, hof⟩
        | some w0 =>
          obtain ⟨tk, k2, k3⟩ := b w0 rfl
          simp only at h
          injection h with h; injection h with h1 h2
          subst h1; subst h2
          refine ⟨a, ?_⟩
          simp only [yearNode.words, Lifted_some]
          split
          · exact Or.inl ⟨tk, k2, ofToken_type _ _ _ k3⟩
          · exact Or.inl ⟨tk, k2, k3⟩

theorem liftNodes_lifted {α : Type} (f : Engine → node32 → Option (α × Engine))
    (words : α → List wordNode) (buf : GoString) (F : List token32)
    (hf : ∀ (p p1 : Engine) (v : node32) (a : α), v.forest ⊆ F → f p v = some (a, p1) →
      p1.Buffer = p.Buffer ∧ Lifted p.Buffer F (words a)) :
    ∀ (vs : List node32) (p p1 : Engine) (as : List α),
      (∀ v ∈ vs, v.forest ⊆ F) → p.Buffer = buf → liftNodes f vs p = some (as, p1) →
      p1.Buffer = buf ∧ Lifted buf F (listWords words as) := by
  intro vs
  induction vs with
  | nil =>
    intro p p1 as _ hb h
    simp only [liftNodes, Option.some.injEq, Prod.mk.injEq] at h
    obtain ⟨h1, h2⟩ := h
    subst h1; subst h2
    exact ⟨hb, Lifted_nil _ _⟩
  | cons v vs ih =>
    intro p p1 as hvs hb h
    unfold liftNodes at h
    split at h
    · exact absurd h (by simp)
    · rename_i a p0 ha
      split at h
      · exact absurd h (by simp)
      · rename_i as0 p2 hrest
        obtain ⟨a1, a2⟩ := hf p p0 v a (hvs v (List.mem_cons_self _ _)) ha
        obtain ⟨b1, b2⟩ := ih p0 p2 as0 (fun u hu => hvs u (List.mem_cons_of_mem _ hu))
          (by rw [a1, hb]) hrest
        injection h with h; injection h with h1 h2
        subst h1; subst h2
        refine ⟨b1, ?_⟩
        simp only [listWords, Lifted_append]
        exact ⟨by rw [hb] at a2; exact a2, b2⟩

theorem newAuthorTeam.collect_forest (F : List token32) :
    ∀ (n : node32) (anodes ynodes : List node32), n.forest ⊆ F →
      (∀ v ∈ anodes, v.forest ⊆ F) → (∀ v ∈ ynodes, v.forest ⊆ F) →
      (∀ v ∈ (newAuthorTeam.collect n (anodes, ynodes)).1, v.forest ⊆ F) ∧
      (∀ v ∈ (newAuthorTeam.collect n (anodes, ynodes)).2, v.forest ⊆ F) := by
  intro n
  induction n with
  | nil => intro anodes ynodes _ ha hy; exact ⟨ha, hy⟩
  | mk t up next _ ih =>
    intro anodes ynodes hF ha hy
    have hnext := ((forest_subset t up next F).1 hF).2.2
    unfold newAuthorTeam.collect
    split
    · apply ih _ _ hnext _ hy
      intro v hv
      rcases List.mem_append.1 hv with hv | hv
      · exact ha v hv
      · rw [List.mem_singleton.1 hv]; exact hF
    · split
      · apply ih _ _ hnext ha
        intro v hv
        rcases List.mem_append.1 hv with hv | hv
        · exact hy v hv
        · rw [List.mem_singleton.1 hv]; exact hF
      · exact ih _ _ hnext ha hy

theorem newAuthorTeam_lifted (x : Ext) (p p1 : Engine) (n : node32) (a : authorsTeamNode)
    (F : List token32) (hF : n.forest ⊆ F) (h : p.newAuthorTeam x n = some (a, p1)) :
    p1.Buffer = p.Buffer ∧ Lifted p.Buffer F a.words := by
  unfold Engine.newAuthorTeam at h
  split at h
  · exact absurd h (by simp)
  · rename_i c hc
    cases n with
    | nil => simp [node32.up?] at hc
    | mk t up next =>
      simp only [node32.up?, Option.some.injEq] at hc
      subst hc
      obtain ⟨c1, c2⟩ := newAuthorTeam.collect_forest F up [] []
        ((forest_subset t up next F).1 hF).1 (fun v hv => absurd hv (List.not_mem_nil _))
        (fun v hv => absurd hv (List.not_mem_nil _))
      simp only at h
      split at h
      · exact absurd h (by simp)
      · rename_i aus p0 haus
        split at h
        · exact absurd h (by simp)
        · rename_i yrs p2 hyrs
          obtain ⟨a1, a2⟩ := liftNodes_lifted (fun q v => q.newAuthorNode x v) authorNode.words
            p.Buffer F (fun q q1 v r hv hr => newAuthorNode_lifted x q q1 v r F hv hr)
            _ p p0 aus c1 rfl haus
          obtain ⟨b1, b2⟩ := liftNodes_lifted (fun q v => q.newYearNode x v) yearNode.words
            p.Buffer F (fun q q1 v r hv hr => newYearNode_lifted x q q1 v r F hv hr)
            _ p0 p2 yrs c2 a1 hyrs
          injection h with h; injection h with h1 h2
          subst h1; subst h2
          exact ⟨b1, by simp only [authorsTeamNode.words, Lifted_append]; exact ⟨a2, b2⟩⟩

theorem Lifted_optWords {α : Type} (buf : GoString) (F : List token32)
    (f : α → List wordNode) (a : α) : Lifted buf F (optWords f (some a)) ↔ Lifted buf F (f a) :=
  Iff.rfl

theorem Lifted_optWords_none {α : Type} (buf : GoString) (F : List token32)
    (f : α → List wordNode) : Lifted buf F (optWords f none) := Lifted_nil _ _

theorem newAuthorsGroupNode_lifted (x : Ext) (p p1 : Engine) (n : node32) (g : authorsGroupNode)
    (F : List token32) (hF : n.forest ⊆ F) (h : p.newAuthorsGroupNode x n = some (g, p1)) :
    p1.Buffer = p.Buffer ∧ Lifted p.Buffer F g.words := by
  unfold Engine.newAuthorsGroupNode at h
  split at h
  · exact absurd h (by simp)
  · rename_i c hc
    cases n with
    | nil => simp [node32.up?] at hc
    | mk t up next =>
      simp only [node32.up?, Option.some.injEq] at hc
      subst hc
      have hup := ((forest_subset t up next F).1 hF).1
      split at h
      · rename_i t1 p0 n1 ht1 hn1
        obtain ⟨a1, a2⟩ := newAuthorTeam_lifted x p p0 up t1 F hup ht1
        have base : Lifted p.Buffer F
            (authorsGroupNode.words
              { Team1 := some t1, Team2Type := none, Team2 := none, Parens := false }) := by
          simp only [authorsGroupNode.words, Lifted_append, Lifted_optWords]
          exact ⟨⟨a2, Lifted_none _ _⟩, Lifted_optWords_none _ _ _⟩
        cases up with
        | nil => simp [node32.next?] at hn1
        | mk ut uup unext =>
          simp only [node32.next?, Option.some.injEq] at hn1
          subst hn1
          have hn1F := ((forest_subset ut uup unext F).1 hup).2.2
          simp only at h
          split at h
          · injection h with h; injection h with h1 h2
            subst h1; subst h2
            exact ⟨a1, base⟩
          · rename_i tk kup n2
            split at h
            · injection h with h; injection h with h1 h2
              subst h1; subst h2
              exact ⟨a1, base⟩
            · split at h
              · exact absurd h (by simp)
              · rename_i t2t p2 ht2t
                obtain ⟨b1, b2, _⟩ := newWordNode_lifted x _ p2 _ _ t2t F hn1F ht2t
                rw [addWarn_Buffer, a1] at b1 b2
                have hn2F := ((forest_subset tk kup n2 F).1 hn1F).2.2
                split at h
                · injection h with h; injection h with h1 h2
                  subst h1; subst h2
                  exact ⟨b1, base⟩
                · split at h
                  · injection h with h; injection h with h1 h2
                    subst h1; subst h2
                    exact ⟨b1, base⟩
                  · split at h
                    · exact absurd h (by simp)
                    · rename_i t2 p3 ht2
                      obtain ⟨c1, c2⟩ := newAuthorTeam_lifted x p2 p3 _ t2 F hn2F ht2
                      rw [b1] at c1 c2
                      injection h with h; injection h with h1 h2
                      subst h1; subst h2
                      refine ⟨c1, ?_⟩
                      simp only [authorsGroupNode.words, Lifted_append, Lifted_optWords,
                        Lifted_some]
                      exact ⟨⟨a2, b2⟩, c2⟩
      · exact absurd h (by simp)

theorem newAuthorshipNode_loop_lifted (x : Ext) (buf : GoString) (F : List token32) :
    ∀ (n : node32) (oa ca oa1 ca1 : Option authorsGroupNode) (parens parens1 : Bool)
      (p p1 : Engine),
      n.forest ⊆ F → p.Buffer = buf →
      Lifted buf F (optWords authorsGroupNode.words oa) →
      Lifted buf F (optWords authorsGroupNode.words ca) →
      newAuthorshipNode.loop x n (oa, ca, parens, p) = some (oa1, ca1, parens1, p1) →
      p1.Buffer = buf ∧ Lifted buf F (optWords authorsGroupNode.words oa1) ∧
        Lifted buf F (optWords authorsGroupNode.words ca1) := by
  intro n
  induction n with
  | nil =>
    intro oa ca oa1 ca1 parens parens1 p p1 _ hb ho hc h
    simp only [newAuthorshipNode.loop, Option.some.injEq, Prod.mk.injEq] at h
    obtain ⟨h1, h2, _, h4⟩ := h
    subst h1; subst h2; subst h4
    exact ⟨hb, ho, hc⟩
  | mk t up next ihu ih =>
    clear ihu
    intro oa ca oa1 ca1 parens parens1 p p1 hF hb ho hc h
    obtain ⟨hup, _, hnext⟩ := (forest_subset t up next F).1 hF
    unfold newAuthorshipNode.loop at h
    split at h
    · split at h
      · exact absurd h (by simp)
      · rename_i ot oup onext
        have houp := ((forest_subset ot oup onext F).1 hup).1
        simp only at h
        split at h
        · exact absurd h (by simp)
        · rename_i on1 parens2 p0 hr
          have hon : on1.forest ⊆ F ∧ p0.Buffer = buf := by
            split at hr
            · injection hr with hr; injection hr with h1 h2; injection h2 with h2 h3
              subst h1; subst h3
              exact ⟨houp, by rw [addWarn_Buffer, hb]⟩
            · split at hr
              · injection hr with hr; injection hr with h1 h2; injection h2 with h2 h3
                subst h1; subst h3
                exact ⟨houp, hb⟩
              · injection hr with hr; injection hr with h1 h2; injection h2 with h2 h3
                subst h1; subst h3
                exact ⟨hup, hb⟩
          split at h
          · exact absurd h (by simp)
          · rename_i g p2 hg
            obtain ⟨a1, a2⟩ := newAuthorsGroupNode_lifted x p0 p2 on1 g F hon.1 hg
            rw [hon.2] at a1 a2
            exact ih (some { g with Parens := parens2 }) _ _ _ _ _ _ _ hnext a1 a2 hc h
    · split at h
      · split at h
        · exact absurd h (by simp)
        · rename_i g p2 hg
          obtain ⟨a1, a2⟩ := newAuthorsGroupNode_lifted x p p2 up g F hup hg
          rw [hb] at a1 a2
          exact ih _ (some g) _ _ _ _ _ _ hnext a1 ho a2 h
      · exact ih _ _ _ _ _ _ _ _ hnext hb ho hc h

theorem newAuthorshipNode_lifted (x : Ext) (p p1 : Engine) (n : node32) (a : authorshipNode)
    (F : List token32) (hF : n.forest ⊆ F) (h : p.newAuthorshipNode x n = some (a, p1)) :
    p1.Buffer = p.Buffer ∧ Lifted p.Buffer F a.words := by
  unfold Engine.newAuthorshipNode at h
  split at h
  · exact absurd h (by simp)
  · rename_i c hc
    cases n with
    | nil => simp [node32.up?] at hc
    | mk t up next =>
      simp only [node32.up?, Option.some.injEq] at hc
      subst hc
      split at h
      · exact absurd h (by simp)
      · rename_i oa ca ps p0 hl
        obtain ⟨a1, a2, a3⟩ := newAuthorshipNode_loop_lifted x p.Buffer F up none none oa ca
          false ps p p0 ((forest_subset t up next F).1 hF).1 rfl (Lifted_nil _ _)
          (Lifted_nil _ _) hl
        injection h with h; injection h with h1 h2
        subst h1; subst h2
        exact ⟨a1, by simp only [authorshipNode.words, Lifted_append]; exact ⟨a2, a3⟩⟩

theorem newRankNode_lifted (x : Ext) (p p1 : Engine) (n : node32) (r : rankNode)
    (F : List token32) (hF : n.forest ⊆ F) (h : p.newRankNode x n = some (r, p1)) :
    p1.Buffer = p.Buffer ∧ Lifted p.Buffer F r.words := by
  unfold Engine.newRankNode at h
  split at h
  · exact absurd h (by simp)
  · split at h
    · exact absurd h (by simp)
    · rename_i w p0 hw
      obtain ⟨a1, a2, _⟩ := newWordNode_lifted x p p0 _ _ w F hF hw
      injection h with h; injection h with h1 h2
      subst h1; subst h2
      exact ⟨a1, by simp only [rankNode.words, Lifted_some]; exact a2⟩
  · rename_i nt ct cup cnext nnext
    have hup := ((forest_subset _ _ _ F).1 hF).1
    split at h
    · exact absurd h (by simp)
    · rename_i w p0 hw
      obtain ⟨a1, a2, _⟩ := newWordNode_lifted x p p0 _ _ w F hup hw
      split at h
      · injection h with h; injection h with h1 h2
        subst h1; subst h2
        exact ⟨a1, by simp only [rankNode.words, Lifted_some]; exact a2⟩
      · split at h
        · split at h
          · exact absurd h (by simp)
          · split at h
            · injection h with h; injection h with h1 h2
              subst h1; subst h2
              exact ⟨a1, by simp only [rankNode.words, Lifted_some]; exact a2⟩
            · injection h with h; injection h with h1 h2
              subst h1; subst h2
              exact ⟨a1, by simp only [rankNode.words, Lifted_some]; exact a2⟩
        · split at h
          · injection h with h; injection h with h1 h2
            subst h1; subst h2
            exact ⟨a1, by simp only [rankNode.words, Lifted_some]; exact a2⟩
          · split at h
            · injection h with h; injection h with h1 h2
              subst h1; subst h2
              exact ⟨by rw [addWarn_Buffer, a1],
                by simp only [rankNode.words, Lifted_some]; exact a2⟩
            · injection h with h; injection h with h1 h2
              subst h1; subst h2
              exact ⟨a1, by simp only [rankNode.words, Lifted_some]; exact a2⟩

theorem newUninomialNode_lifted (x : Ext) (p p1 : Engine) (n : node32) (u : uninomialNode)
    (F : List token32) (hF : n.forest ⊆ F) (h : p.newUninomialNode x n = some (u, p1)) :
    p1.Buffer = p.Buffer ∧ Lifted p.Buffer F u.words := by
  unfold Engine.newUninomialNode at h
  split at h
  · exact absurd h (by simp)
  · rename_i wn hwn
    cases n with
    | nil => simp [node32.up?] at hwn
    | mk t up next =>
      simp only [node32.up?, Option.some.injEq] at hwn
      subst hwn
      have hup := ((forest_subset _ _ _ F).1 hF).1
      split at h
      · rename_i w p0 an hw han
        obtain ⟨a1, a2, _⟩ := newWordNode_lifted x p p0 _ _ w F hup hw
        have hanF : an.forest ⊆ F := by
          cases up with
          | nil => simp [node32.next?] at han
          | mk ut uup unext =>
            simp only [node32.next?, Option.some.injEq] at han
            subst han
            exact ((forest_subset _ _ _ F).1 hup).2.2
        split at h
        · injection h with h; injection h with h1 h2
          subst h1; subst h2
          refine ⟨a1, ?_⟩
          simp only [uninomialNode.words, Lifted_append, Lifted_some]
          exact ⟨a2, Lifted_optWords_none _ _ _⟩
        · split at h
          · exact absurd h (by simp)
          · rename_i au p2 hau
            obtain ⟨b1, b2⟩ := newAuthorshipNode_lifted x p0 p2 an au F hanF hau
            rw [a1] at b1 b2
            injection h with h; injection h with h1 h2
            subst h1; subst h2
            refine ⟨b1, ?_⟩
            simp only [uninomialNode.words, Lifted_append, Lifted_some, Lifted_optWords]
            exact ⟨a2, b2⟩
      · exact absurd h (by simp)

theorem newRankUninomialNode_lifted (x : Ext) (p p1 : Engine) (n : node32)
    (r : rankUninomialNode) (F : List token32) (hF : n.forest ⊆ F)
    (h : p.newRankUninomialNode x n = some (r, p1)) :
    p1.Buffer = p.Buffer ∧ Lifted p.Buffer F r.words := by
  unfold Engine.newRankUninomialNode at h
  split at h
  · exact absurd h (by simp)
  · rename_i w p0 hw
    obtain ⟨a1, a2, _⟩ := newWordNode_lifted x p p0 _ _ w F hF hw
    injection h with h; injection h with h1 h2
    subst h1; subst h2
    exact ⟨a1, by simp only [rankUninomialNode.words, Lifted_some]; exact a2⟩

theorem next?_forest (n n1 : node32) (F : List token32) (hF : n.forest ⊆ F)
    (h : n.next? = some n1) : n1.forest ⊆ F := by
  cases n with
  | nil => simp [node32.next?] at h
  | mk t up next =>
    simp only [node32.next?, Option.some.injEq] at h
    subst h
    exact ((forest_subset _ _ _ F).1 hF).2.2

theorem up?_forest (n n1 : node32) (F : List token32) (hF : n.forest ⊆ F)
    (h : n.up? = some n1) : n1.forest ⊆ F := by
  cases n with
  | nil => simp [node32.up?] at h
  | mk t up next =>
    simp only [node32.up?, Option.some.injEq] at h
    subst h
    exact ((forest_subset _ _ _ F).1 hF).1

theorem newUninomialComboNode_lifted (x : Ext) (p p1 : Engine) (n : node32)
    (uc : uninomialComboNode) (F : List token32) (hF : n.forest ⊆ F)
    (h : p.newUninomialComboNode x n = some (uc, p1)) :
    p1.Buffer = p.Buffer ∧ Lifted p.Buffer F uc.words := by
  unfold Engine.newUninomialComboNode at h
  split at h
  · rename_i t up next hc
    have hcF := up?_forest n _ F hF hc
    have hnextF := ((forest_subset _ _ _ F).1 hcF).2.2
    simp only at h
    split at h
    · split at h
      · exact absurd h (by simp)
      · rename_i u1 p0 hu1
        obtain ⟨a1, a2⟩ := newUninomialNode_lifted x p p0 _ u1 F hcF hu1
        split at h
        · rename_i r p2 u2n hr hu2n
          obtain ⟨b1, b2⟩ := newRankUninomialNode_lifted x p0 p2 _ r F hnextF hr
          rw [a1] at b1 b2
          have hu2nF := next?_forest _ _ F hnextF hu2n
          split at h
          · exact absurd h (by simp)
          · rename_i u2 p3 hu2
            obtain ⟨c1, c2⟩ := newUninomialNode_lifted x p2 p3 _ u2 F hu2nF hu2
            rw [b1] at c1 c2
            injection h with h; injection h with h1 h2
            subst h1; subst h2
            refine ⟨c1, ?_⟩
            simp only [uninomialComboNode.words, Lifted_append, Lifted_optWords]
            exact ⟨⟨a2, b2⟩, c2⟩
        · exact absurd h (by simp)
    · split at h
      · split at h
        · rename_i uw p0 n1up n2 huw hn1up hn2
          obtain ⟨a1, a2, _⟩ := newWordNode_lifted x p p0 _ _ uw F hcF huw
          have hn1upF := up?_forest _ _ F hnextF hn1up
          have hn2F := next?_forest _ _ F hnextF hn2
          split at h
          · exact absurd h (by simp)
          · rename_i u2w p2 hu2w
            obtain ⟨b1, b2, _⟩ := newWordNode_lifted x p0 p2 _ _ u2w F hn1upF hu2w
            rw [a1] at b1 b2
            split at h
            · exact absurd h (by simp)
            · rename_i au2 p3 hau2
              obtain ⟨c1, c2⟩ := newAuthorshipNode_lifted x p2 p3 _ au2 F hn2F hau2
              rw [b1] at c1 c2
              injection h with h; injection h with h1 h2
              subst h1; subst h2
              refine ⟨c1, ?_⟩
              simp only [uninomialComboNode.words, uninomialNode.words, rankUninomialNode.words,
                Lifted_append, Lifted_optWords, Lifted_some]
              refine ⟨⟨⟨a2, Lifted_optWords_none _ _ _⟩, ?_⟩, b2, c2⟩
              exact Or.inr ⟨rfl, rfl, Or.inl ⟨rfl, rfl⟩⟩
        · exact absurd h (by simp)
      · injection h with h; injection h with h1 h2
        subst h1; subst h2
        refine ⟨rfl, ?_⟩
        simp only [uninomialComboNode.words, Lifted_append]
        exact ⟨⟨Lifted_optWords_none _ _ _, Lifted_optWords_none _ _ _⟩,
          Lifted_optWords_none _ _ _⟩
  · exact absurd h (by simp)

theorem newInfraspEpithetNode_loop_lifted (x : Ext) (buf : GoString) (F : List token32) :
    ∀ (n : node32) (w w1 : Option wordNode) (r r1 : Option rankNode)
      (au au1 : Option authorshipNode) (p p1 : Engine),
      n.forest ⊆ F → p.Buffer = buf →
      Lifted buf F w.toList → Lifted buf F (optWords rankNode.words r) →
      Lifted buf F (optWords authorshipNode.words au) →
      newInfraspEpithetNode.loop x n (w, r, au, p) = some (w1, r1, au1, p1) →
      p1.Buffer = buf ∧ Lifted buf F w1.toList ∧ Lifted buf F (optWords rankNode.words r1) ∧
        Lifted buf F (optWords authorshipNode.words au1) := by
  intro n
  induction n with
  | nil =>
    intro w w1 r r1 au au1 p p1 _ hb hw hr hau h
    simp only [newInfraspEpithetNode.loop, Option.some.injEq, Prod.mk.injEq] at h
    obtain ⟨h1, h2, h3, h4⟩ := h
    subst h1; subst h2; subst h3; subst h4
    exact ⟨hb, hw, hr, hau⟩
  | mk t up next ihu ih =>
    clear ihu
    intro w w1 r r1 au au1 p p1 hF hb hw hr hau h
    have hnext := ((forest_subset t up next F).1 hF).2.2
    unfold newInfraspEpithetNode.loop at h
    simp only at h
    split at h
    · split at h
      · exact absurd h (by simp)
      · rename_i wc pc hc
        obtain ⟨a1, a2, _⟩ := newWordNode_lifted x p pc _ _ wc F hF hc
        rw [hb] at a1 a2
        exact ih (some wc) _ _ _ _ _ _ _ hnext a1 ((Lifted_some _ _ _).2 a2) hr hau h
    · split at h
      · split at h
        · exact absurd h (by simp)
        · rename_i rc pc hc
          obtain ⟨a1, a2⟩ := newRankNode_lifted x p pc _ rc F hF hc
          rw [hb] at a1 a2
          exact ih _ _ (some rc) _ _ _ _ _ hnext a1 hw a2 hau h
      · split at h
        · split at h
          · exact absurd h (by simp)
          · rename_i ac pc hc
            obtain ⟨a1, a2⟩ := newAuthorshipNode_lifted x p pc _ ac F hF hc
            rw [hb] at a1 a2
            exact ih _ _ _ _ (some ac) _ _ _ hnext a1 hw hr a2 h
        · exact ih _ _ _ _ _ _ _ _ hnext hb hw hr hau h

theorem newInfraspEpithetNode_lifted (x : Ext) (p p1 : Engine) (n : node32)
    (e : infraspEpithetNode) (F : List token32) (hF : n.forest ⊆ F)
    (h : p.newInfraspEpithetNode x n = some (e, p1)) :
    p1.Buffer = p.Buffer ∧ Lifted p.Buffer F e.words := by
  unfold Engine.newInfraspEpithetNode at h
  split at h
  · exact absurd h (by simp)
  · rename_i c hc
    have hcF := up?_forest n _ F hF hc
    split at h
    · exact absurd h (by simp)
    · rename_i w r au p0 hl
      obtain ⟨a1, a2, a3, a4⟩ := newInfraspEpithetNode_loop_lifted x p.Buffer F c none w none r
        none au p p0 hcF rfl (Lifted_none _ _) (Lifted_optWords_none _ _ _)
        (Lifted_optWords_none _ _ _) hl
      injection h with h; injection h with h1 h2
      subst h1; subst h2
      exact ⟨a1, by simp only [infraspEpithetNode.words, Lifted_append]; exact ⟨⟨a2, a3⟩, a4⟩⟩

theorem newInfraspeciesGroup_loop_lifted (x : Ext) (buf : GoString) (F : List token32) :
    ∀ (n : node32) (infs infs1 : List infraspEpithetNode) (p p1 : Engine),
      n.forest ⊆ F → p.Buffer = buf →
      Lifted buf F (listWords infraspEpithetNode.words infs) →
      newInfraspeciesGroup.loop x n (infs, p) = some (infs1, p1) →
      p1.Buffer = buf ∧ Lifted buf F (listWords infraspEpithetNode.words infs1) := by
  intro n
  induction n with
  | nil =>
    intro infs infs1 p p1 _ hb hl h
    simp only [newInfraspeciesGroup.loop, Option.some.injEq, Prod.mk.injEq] at h
    obtain ⟨h1, h2⟩ := h
    subst h1; subst h2
    exact ⟨hb, hl⟩
  | mk t up next ihu ih =>
    clear ihu
    intro infs infs1 p p1 hF hb hl h
    have hnext := ((forest_subset t up next F).1 hF).2.2
    unfold newInfraspeciesGroup.loop at h
    split at h
    · exact absurd h (by simp)
    · rename_i inf pc hc
      obtain ⟨a1, a2⟩ := newInfraspEpithetNode_lifted x p pc _ inf F hF hc
      rw [hb] at a1 a2
      refine ih _ _ _ _ hnext a1 ?_ h
      have : ∀ (l : List infraspEpithetNode),
          Lifted buf F (listWords infraspEpithetNode.words l) →
          Lifted buf F (listWords infraspEpithetNode.words (l ++ [inf])) := by
        intro l
        induction l with
        | nil =>
          intro _
          simp only [List.nil_append, listWords, Lifted_append]
          exact ⟨a2, Lifted_nil _ _⟩
        | cons b l ihl =>
          intro hbl
          simp only [List.cons_append, listWords, Lifted_append] at hbl ⊢
          exact ⟨hbl.1, ihl hbl.2⟩
      exact this infs hl

theorem newInfraspeciesGroup_lifted (x : Ext) (p p1 : Engine) (n : node32)
    (infs : List infraspEpithetNode) (F : List token32) (hF : n.forest ⊆ F)
    (h : p.newInfraspeciesGroup x n = some (infs, p1)) :
    p1.Buffer = p.Buffer ∧ Lifted p.Buffer F (listWords infraspEpithetNode.words infs) := by
  unfold Engine.newInfraspeciesGroup at h
  split at h
  · exact absurd h (by simp)
  · injection h with h; injection h with h1 h2
    subst h1; subst h2
    exact ⟨rfl, Lifted_nil _ _⟩
  · rename_i t up next hc
    have hcF := up?_forest n _ F hF hc
    split at h
    · injection h with h; injection h with h1 h2
      subst h1; subst h2
      exact ⟨rfl, Lifted_nil _ _⟩
    · exact newInfraspeciesGroup_loop_lifted x p.Buffer F _ [] infs p p1 hcF rfl
        (Lifted_nil _ _) h

theorem newSpeciesEpithetNode_lifted (x : Ext) (p p1 : Engine) (n : node32)
    (e : spEpithetNode) (F : List token32) (hF : n.forest ⊆ F)
    (h : p.newSpeciesEpithetNode x n = some (e, p1)) :
    p1.Buffer = p.Buffer ∧ Lifted p.Buffer F e.words := by
  unfold Engine.newSpeciesEpithetNode at h
  split at h
  · exact absurd h (by simp)
  · rename_i c hc
    have hcF := up?_forest n _ F hF hc
    split at h
    · rename_i se p0 a hse ha
      obtain ⟨a1, a2, _⟩ := newWordNode_lifted x p p0 _ _ se F hcF hse
      have haF := next?_forest _ _ F hcF ha
      split at h
      · injection h with h; injection h with h1 h2
        subst h1; subst h2
        refine ⟨a1, ?_⟩
        simp only [spEpithetNode.words, Lifted_append, Lifted_some]
        exact ⟨a2, Lifted_optWords_none _ _ _⟩
      · split at h
        · exact absurd h (by simp)
        · rename_i au p2 hau
          obtain ⟨b1, b2⟩ := newAuthorshipNode_lifted x p0 p2 a au F haF hau
          rw [a1] at b1 b2
          injection h with h; injection h with h1 h2
          subst h1; subst h2
          refine ⟨b1, ?_⟩
          simp only [spEpithetNode.words, Lifted_append, Lifted_some, Lifted_optWords]
          exact ⟨a2, b2⟩
    · exact absurd h (by simp)

theorem newSpeciesNode_loop_lifted (x : Ext) (buf : GoString) (F : List token32) :
    ∀ (n : node32) (sg sg1 : Option wordNode) (sp sp1 : Option spEpithetNode)
      (infs infs1 : List infraspEpithetNode) (p p1 : Engine),
      n.forest ⊆ F → p.Buffer = buf →
      Lifted buf F sg.toList → Lifted buf F (optWords spEpithetNode.words sp) →
      Lifted buf F (listWords infraspEpithetNode.words infs) →
      newSpeciesNode.loop x n (sg, sp, infs, p) = some (sg1, sp1, infs1, p1) →
      p1.Buffer = buf ∧ Lifted buf F sg1.toList ∧
        Lifted buf F (optWords spEpithetNode.words sp1) ∧
        Lifted buf F (listWords infraspEpithetNode.words infs1) := by
  intro n
  induction n with
  | nil =>
    intro sg sg1 sp sp1 infs infs1 p p1 _ hb h1 h2 h3 h
    simp only [newSpeciesNode.loop, Option.some.injEq, Prod.mk.injEq] at h
    obtain ⟨e1, e2, e3, e4⟩ := h
    subst e1; subst e2; subst e3; subst e4
    exact ⟨hb, h1, h2, h3⟩
  | mk t up next ihu ih =>
    clear ihu
    intro sg sg1 sp sp1 infs infs1 p p1 hF hb h1 h2 h3 h
    obtain ⟨hup, _, hnext⟩ := (forest_subset t up next F).1 hF
    unfold newSpeciesNode.loop at h
    split at h
    · split at h
      · exact absurd h (by simp)
      · rename_i wc pc hc
        obtain ⟨a1, a2, _⟩ := newWordNode_lifted x p pc _ _ wc F hup hc
        rw [hb] at a1 a2
        exact ih (some wc) _ _ _ _ _ _ _ hnext a1 ((Lifted_some _ _ _).2 a2) h2 h3 h
    · split at h
      · split at h
        · exact absurd h (by simp)
        · rename_i ec pc hc
          obtain ⟨a1, a2⟩ := newSpeciesEpithetNode_lifted x p pc _ ec F hF hc
          rw [hb] at a1 a2
          exact ih _ _ (some ec) _ _ _ _ _ hnext a1 h1 a2 h3 h
      · split at h
        · split at h
          · exact absurd h (by simp)
          · rename_i ic pc hc
            obtain ⟨a1, a2⟩ := newInfraspeciesGroup_lifted x p pc _ ic F hF hc
            rw [hb] at a1 a2
            exact ih _ _ _ _ ic _ _ _ hnext a1 h1 h2 a2 h
        · exact ih _ _ _ _ _ _ _ _ hnext hb h1 h2 h3 h

theorem newSpeciesNode_lifted (x : Ext) (p p1 : Engine) (n : node32) (sp : speciesNode)
    (F : List token32) (hF : n.forest ⊆ F) (h : p.newSpeciesNode x n = some (sp, p1)) :
    p1.Buffer = p.Buffer ∧ Lifted p.Buffer F sp.words := by
  unfold Engine.newSpeciesNode at h
  split at h
  · exact absurd h (by simp)
  · rename_i c hc
    have hcF := up?_forest n _ F hF hc
    split at h
    · rename_i gen p0 ct gt gup gnext next hgen
      obtain ⟨a1, a2, _⟩ := newWordNode_lifted x p p0 _ _ gen F hcF hgen
      have hnextF := ((forest_subset _ _ _ F).1 hcF).2.2
      simp only at h
      split at h
      · exact absurd h (by simp)
      · rename_i sg se infs p3 hl
        obtain ⟨b1, b2, b3, b4⟩ := newSpeciesNode_loop_lifted x p.Buffer F next none sg none se
          [] infs _ p3 hnextF (by split <;> simp [addWarn_Buffer, a1]) (Lifted_none _ _)
          (Lifted_optWords_none _ _ _) (Lifted_nil _ _) hl
        injection h with h; injection h with h1 h2
        subst h1; subst h2
        refine ⟨b1, ?_⟩
        simp only [speciesNode.words, Lifted_append, Lifted_some]
        exact ⟨⟨⟨a2, b2⟩, b3⟩, b4⟩
    · exact absurd h (by simp)

theorem newSingleName_lifted (x : Ext) (p p1 : Engine) (n : node32) (nm : Name)
    (F : List token32) (hF : n.forest ⊆ F) (h : p.newSingleName x n = some (nm, p1)) :
    p1.Buffer = p.Buffer ∧ Lifted p.Buffer F nm.words ∧
      (nm = Name.nil ∨ (∃ sp, nm = Name.species sp) ∨ (∃ u, nm = Name.uninomial u)
        ∨ ∃ uc, nm = Name.uninomialCombo uc) := by
  unfold Engine.newSingleName at h
  split at h
  · rename_i t up next hc
    have hcF := up?_forest n _ F hF hc
    simp only at h
    split at h
    · split at h
      · exact absurd h (by simp)
      · rename_i sp p0 hsp
        obtain ⟨a1, a2⟩ := newSpeciesNode_lifted x p p0 _ sp F hcF hsp
        injection h with h; injection h with h1 h2
        subst h1; subst h2
        exact ⟨a1, by simp only [Name.words]; exact a2, Or.inr (Or.inl ⟨_, rfl⟩)⟩
    · split at h
      · split at h
        · exact absurd h (by simp)
        · rename_i u p0 hu
          obtain ⟨a1, a2⟩ := newUninomialNode_lifted x p p0 _ u F hcF hu
          injection h with h; injection h with h1 h2
          subst h1; subst h2
          exact ⟨a1, by simp only [Name.words]; exact a2, Or.inr (Or.inr (Or.inl ⟨_, rfl⟩))⟩
      · split at h
        · split at h
          · exact absurd h (by simp)
          · rename_i uc p0 huc
            obtain ⟨a1, a2⟩ := newUninomialComboNode_lifted x _ p0 _ uc F hcF huc
            rw [addWarn_Buffer] at a1 a2
            injection h with h; injection h with h1 h2
            subst h1; subst h2
            exact ⟨a1, by simp only [Name.words]; exact a2, Or.inr (Or.inr (Or.inr ⟨_, rfl⟩))⟩
        · injection h with h; injection h with h1 h2
          subst h1; subst h2
          exact ⟨rfl, by simp only [Name.words]; exact Lifted_nil _ _, Or.inl rfl⟩
  · exact absurd h (by simp)

theorem newNamedSpeciesHybridNode_lifted (x : Ext) (p p1 : Engine) (n : node32)
    (nhl : namedSpeciesHybridNode) (F : List token32) (hF : n.forest ⊆ F)
    (h : p.newNamedSpeciesHybridNode x n = some (nhl, p1)) :
    p1.Buffer = p.Buffer ∧ Lifted p.Buffer F nhl.words := by
  unfold Engine.newNamedSpeciesHybridNode at h
  split at h
  · rename_i gt gup ht hup spNode hc
    have hgF := up?_forest n _ F hF hc
    have hhF := ((forest_subset _ _ _ F).1 hgF).2.2
    have hsF := ((forest_subset _ _ _ F).1 hhF).2.2
    simp only at h
    split at h
    · exact absurd h (by simp)
    · rename_i gen p0 hgen
      obtain ⟨a1, a2, _⟩ := newWordNode_lifted x p p0 _ _ gen F hgF hgen
      split at h
      · exact absurd h (by simp)
      · rename_i hy p2 hhy
        obtain ⟨b1, b2, _⟩ := newWordNode_lifted x p0 p2 _ _ hy F hhF hhy
        rw [a1] at b1 b2
        split at h
        · exact absurd h (by simp)
        · rename_i sp p3 hsp
          obtain ⟨c1, c2⟩ := newSpeciesEpithetNode_lifted x p2 p3 _ sp F hsF hsp
          rw [b1] at c1 c2
          split at h
          · exact absurd h (by simp)
          · injection h with h; injection h with h1 h2
            subst h1; subst h2
            refine ⟨?_, ?_⟩
            · split <;> simp [addWarn_Buffer, c1]
            · simp only [namedSpeciesHybridNode.words, Lifted_append, Lifted_some,
                Lifted_optWords]
              exact ⟨⟨a2, b2⟩, c2⟩
  · exact absurd h (by simp)

theorem newNamedGenusHybridNode_lifted (x : Ext) (p p1 : Engine) (n : node32)
    (nhn : Option (namedGenusHybridNode Name)) (F : List token32) (hF : n.forest ⊆ F)
    (h : p.newNamedGenusHybridNode x n = some (nhn, p1)) :
    p1.Buffer = p.Buffer ∧ Lifted p.Buffer F (Name.namedGenusHybrid nhn).words := by
  unfold Engine.newNamedGenusHybridNode at h
  split at h
  · rename_i t up next hc
    have hcF := up?_forest n _ F hF hc
    have hnextF := ((forest_subset _ _ _ F).1 hcF).2.2
    split at h
    · injection h with h; injection h with h1 h2
      subst h1; subst h2
      exact ⟨rfl, by simp only [Name.words]; exact Lifted_nil _ _⟩
    · split at h
      · rename_i hybr p0 t2 up2 next2 hh hn2
        obtain ⟨a1, a2, _⟩ := newWordNode_lifted x p p0 _ _ hybr F hcF hh
        have hn2F := up?_forest _ _ F hnextF hn2
        have hb3 : (if t2.begin = 1 then
            (p0.addWarn HybridNamedWarn).addWarn HybridCharNoSpaceWarn
            else p0.addWarn HybridNamedWarn).Buffer = p.Buffer := by
          split <;> simp [addWarn_Buffer, a1]
        simp only at h
        split at h
        · split at h
          · exact absurd h (by simp)
          · rename_i u p4 hu
            obtain ⟨b1, b2⟩ := newUninomialNode_lifted x _ p4 _ u F hn2F hu
            rw [hb3] at b1 b2
            injection h with h; injection h with h1 h2
            subst h1; subst h2
            refine ⟨b1, ?_⟩
            simp only [Name.words, Lifted_append, Lifted_some]
            exact ⟨a2, b2⟩
        · split at h
          · split at h
            · exact absurd h (by simp)
            · rename_i sp p4 hsp
              obtain ⟨b1, b2⟩ := newSpeciesNode_lifted x _ p4 _ sp F hn2F hsp
              rw [hb3] at b1 b2
              injection h with h; injection h with h1 h2
              subst h1; subst h2
              refine ⟨b1, ?_⟩
              simp only [Name.words, Lifted_append, Lifted_some]
              exact ⟨a2, b2⟩
          · injection h with h; injection h with h1 h2
            subst h1; subst h2
            refine ⟨hb3, ?_⟩
            simp only [Name.words, Lifted_append, Lifted_some]
            exact ⟨a2, Lifted_nil _ _⟩
      · exact absurd h (by simp)
  · exact absurd h (by simp)

theorem heapWords_getD (heap : List (hybridElement Name)) :
    ∀ (i : Nat), (Name.heapWords heap).getD i [] =
      match heap[i]? with
      | some e => e.words
      | none => [] := by
  induction heap with
  | nil => intro i; simp [Name.heapWords]
  | cons e heap ih =>
    intro i
    obtain ⟨hc, sp⟩ := e
    cases i with
    | zero => simp [Name.heapWords, hybridElement.words]
    | succ i =>
      have := ih i
      simp only [Name.heapWords, List.getD_cons_succ, List.getElem?_cons_succ]
      exact this

theorem Lifted_hybridFormula (buf : GoString) (F : List token32) (hf : hybridFormulaNode Name)
    (h1 : Lifted buf F hf.FirstSpecies.words) (h2 : ∀ e ∈ hf.heap, Lifted buf F e.words) :
    Lifted buf F (Name.hybridFormula hf).words := by
  obtain ⟨fs, heap, hes⟩ := hf
  simp only [Name.words, Lifted_append]
  refine ⟨h1, ?_⟩
  intro w hw
  simp only [List.mem_flatten, List.mem_map] at hw
  obtain ⟨l, ⟨i, _, hi⟩, hwl⟩ := hw
  subst hi
  rw [heapWords_getD] at hwl
  split at hwl
  · rename_i e he
    exact h2 e (List.getElem?_mem he) w hwl
  · exact absurd hwl (List.not_mem_nil _)

theorem normalizeAbbreviated.frame_lifted (buf fsv : GoString) (F : List token32)
    (v v1 : hybridElement Name) (h : normalizeAbbreviated.frame fsv v v1)
    (hl : Lifted buf F v.words) : Lifted buf F v1.words := by
  obtain ⟨hc, hs⟩ := h
  unfold hybridElement.words at hl ⊢
  rw [Lifted_append] at hl ⊢
  rw [hc]
  refine ⟨hl.1, ?_⟩
  rcases hs with hs | ⟨sp, g, e1, e2, e3⟩
  · rw [hs]; exact hl.2
  · have h2 := hl.2
    rw [e1] at h2
    rw [e3]
    simp only [Name.words, speciesNode.words, Lifted_append, e2, Lifted_some] at h2 ⊢
    exact ⟨⟨⟨h2.1.1.1, h2.1.1.2⟩, h2.1.2⟩, h2.2⟩

theorem normalizeAbbreviated_lifted (buf : GoString) (F : List token32)
    (hf hf1 : hybridFormulaNode Name) (h : hf.normalizeAbbreviated = some hf1)
    (h1 : Lifted buf F hf.FirstSpecies.words) (h2 : ∀ e ∈ hf.heap, Lifted buf F e.words) :
    Lifted buf F (Name.hybridFormula hf1).words := by
  obtain ⟨a, _, c, d⟩ := normalizeAbbreviated_frame_of_some hf hf1 h
  apply Lifted_hybridFormula
  · rw [a]; exact h1
  · intro e1 he1
    obtain ⟨j, hj, hje⟩ := List.getElem_of_mem he1
    have hj0 : j < hf.heap.length := by rw [← c]; exact hj
    obtain ⟨v1, nv, k1, k2⟩ := d j (hf.heap[j]) (List.getElem?_eq_getElem hj0)
    rw [List.getElem?_eq_getElem hj] at k1
    injection k1 with k1
    rw [hje] at k1
    subst k1
    exact normalizeAbbreviated.frame_lifted buf nv F _ _ k2
      (h2 _ (List.getElem_mem hj0))

theorem hfState.assign_lifted (buf : GoString) (F : List token32) (st st1 : hfState)
    (s : Name) (p1 : Engine) (h : st.assign s p1 = some st1)
    (hheap : ∀ e ∈ st.heap, Lifted buf F e.words) (hs : Lifted buf F s.words) :
    st1.p = p1 ∧ ∀ e ∈ st1.heap, Lifted buf F e.words := by
  unfold hfState.assign at h
  split at h
  · exact absurd h (by simp)
  · rename_i i hi
    split at h
    · exact absurd h (by simp)
    · rename_i e he
      injection h with h
      subst h
      refine ⟨rfl, ?_⟩
      intro e1 he1
      rcases List.mem_or_eq_of_mem_set he1 with h1 | h1
      · exact hheap e1 h1
      · subst h1
        have := hheap e (List.getElem?_mem he)
        unfold hybridElement.words at this ⊢
        rw [Lifted_append] at this ⊢
        exact ⟨this.1, hs⟩

theorem newHybridFormulaNode_loop_lifted (x : Ext) (firstName : Name) (buf : GoString)
    (F : List token32) :
    ∀ (n : node32) (st st1 : hfState), n.forest ⊆ F → st.p.Buffer = buf →
      (∀ e ∈ st.heap, Lifted buf F e.words) →
      newHybridFormulaNode.loop x firstName n st = some st1 →
      st1.p.Buffer = buf ∧ ∀ e ∈ st1.heap, Lifted buf F e.words := by
  intro n
  induction n with
  | nil =>
    intro st st1 _ hb hh h
    simp only [newHybridFormulaNode.loop, Option.some.injEq] at h
    subst h
    exact ⟨hb, hh⟩
  | mk t up next ihu ih =>
    clear ihu
    intro st st1 hF hb hh h
    have hnext := ((forest_subset t up next F).1 hF).2.2
    unfold newHybridFormulaNode.loop at h
    simp only at h
    split at h
    · split at h
      · exact absurd h (by simp)
      · rename_i w p1 hw
        obtain ⟨a1, a2, _⟩ := newWordNode_lifted x _ p1 _ _ w F hF hw
        rw [hb] at a1 a2
        refine ih _ _ hnext a1 ?_ h
        intro e he
        rcases List.mem_append.1 he with he | he
        · exact hh e he
        · rw [List.mem_singleton.1 he]
          simp only [hybridElement.words, Name.words, Lifted_append, Lifted_some]
          exact ⟨a2, Lifted_nil _ _⟩
    · split at h
      · split at h
        · exact absurd h (by simp)
        · rename_i nm p1 hnm
          obtain ⟨a1, a2, _⟩ := newSingleName_lifted x _ p1 _ nm F hF hnm
          rw [hb] at a1 a2
          split at h
          · exact absurd h (by simp)
          · rename_i st2 hst2
            obtain ⟨b1, b2⟩ := hfState.assign_lifted buf F _ _ _ _ hst2 hh a2
            exact ih _ _ hnext (by rw [b1]; exact a1) b2 h
      · split at h
        · split at h
          · rename_i spe p1 g0 hspe _
            obtain ⟨a1, a2⟩ := newSpeciesEpithetNode_lifted x _ p1 _ spe F hF hspe
            rw [addWarn_Buffer, hb] at a1 a2
            split at h
            · exact absurd h (by simp)
            · rename_i st2 hst2
              have hs : Lifted buf F (Name.words (Name.species
                  { Genus := some { Value := g0.Value, NormValue := g0.NormValue,
                                    Pos := { Type_ := ZeroType, Start := 0, End := 0 } },
                    SubGenus := none, SpEpithet := some spe, InfraSpecies := [] })) := by
                simp only [Name.words, speciesNode.words, Lifted_append, Lifted_some,
                  Lifted_optWords]
                exact ⟨⟨⟨Or.inr ⟨rfl, rfl, Or.inr rfl⟩, Lifted_none _ _⟩, a2⟩, Lifted_nil _ _⟩
              obtain ⟨b1, b2⟩ := hfState.assign_lifted buf F _ _ _ _ hst2 hh hs
              exact ih _ _ hnext (by rw [b1]; exact a1) b2 h
          · exact absurd h (by simp)
        · exact ih _ _ hnext hb hh h

theorem newHybridFormulaNode_lifted (x : Ext) (p p1 : Engine) (n : node32)
    (hf : hybridFormulaNode Name) (F : List token32) (hF : n.forest ⊆ F)
    (h : p.newHybridFormulaNode x n = some (hf, p1)) :
    p1.Buffer = p.Buffer ∧ Lifted p.Buffer F (Name.hybridFormula hf).words := by
  unfold Engine.newHybridFormulaNode at h
  split at h
  · exact absurd h (by simp)
  · rename_i c hc
    have hcF := up?_forest n _ F hF hc
    split at h
    · rename_i firstName p0 n1 hfirst hn1
      obtain ⟨a1, a2, _⟩ := newSingleName_lifted x _ p0 _ firstName F hcF hfirst
      rw [addWarn_Buffer] at a1 a2
      have hn1F := next?_forest _ _ F hcF hn1
      split at h
      · exact absurd h (by simp)
      · rename_i st hst
        obtain ⟨b1, b2⟩ := newHybridFormulaNode_loop_lifted x firstName p.Buffer F n1 _ st hn1F
          a1 (fun e he => absurd he (List.not_mem_nil _)) hst
        split at h
        · exact absurd h (by simp)
        · split at h
          · exact absurd h (by simp)
          · rename_i e he
            simp only at h
            split at h
            · exact absurd h (by simp)
            · rename_i hf1 hnorm
              injection h with h; injection h with h1 h2
              subst h1; subst h2
              refine ⟨?_, normalizeAbbreviated_lifted p.Buffer F _ _ hnorm a2 b2⟩
              split
              · rw [addWarn_Buffer, b1]
              · exact b1
    · exact absurd h (by simp)

theorem newName_lifted (x : Ext) (p p1 : Engine) (n : node32) (nm : Name)
    (F : List token32) (hF : n.forest ⊆ F) (h : p.newName x n = some (nm, p1)) :
    p1.Buffer = p.Buffer ∧ Lifted p.Buffer F nm.words := by
  unfold Engine.newName at h
  split at h
  · rename_i t up next hc
    have hcF := up?_forest n _ F hF hc
    simp only at h
    split at h
    · split at h
      · exact absurd h (by simp)
      · rename_i hf p0 hhf
        obtain ⟨a1, a2⟩ := newHybridFormulaNode_lifted x p p0 _ hf F hcF hhf
        injection h with h; injection h with h1 h2
        subst h1; subst h2
        exact ⟨a1, a2⟩
    · split at h
      · split at h
        · exact absurd h (by simp)
        · rename_i nhn p0 hnhn
          obtain ⟨a1, a2⟩ := newNamedGenusHybridNode_lifted x p p0 _ nhn F hcF hnhn
          injection h with h; injection h with h1 h2
          subst h1; subst h2
          exact ⟨a1, a2⟩
      · split at h
        · split at h
          · exact absurd h (by simp)
          · rename_i nhl p0 hnhl
            obtain ⟨a1, a2⟩ := newNamedSpeciesHybridNode_lifted x p p0 _ nhl F hcF hnhl
            injection h with h; injection h with h1 h2
            subst h1; subst h2
            exact ⟨a1, by simp only [Name.words]; exact a2⟩
        · split at h
          · obtain ⟨a1, a2, _⟩ := newSingleName_lifted x p p1 _ nm F hcF h
            exact ⟨a1, a2⟩
          · injection h with h; injection h with h1 h2
            subst h1; subst h2
            exact ⟨rfl, by simp only [Name.words]; exact Lifted_nil _ _⟩
  · exact absurd h (by simp)

theorem tailValue_Buffer (p p1 : Engine) (n : node32) (v : GoString)
    (h : p.tailValue n = some (v, p1)) : p1.Buffer = p.Buffer := by
  unfold Engine.tailValue at h
  split at h
  · exact absurd h (by simp)
  · split at h
    · injection h with h; injection h with h1 h2
      subst h2; rfl
    · split at h
      · exact absurd h (by simp)
      · injection h with h; injection h with h1 h2
        subst h2; exact addWarn_Buffer _ _

theorem NewScientificNameNode_loop_lifted (x : Ext) (buf : GoString) (F : List token32) :
    ∀ (n : node32) (name name1 : Name) (tail tail1 : GoString) (p p1 : Engine),
      n.forest ⊆ F → p.Buffer = buf → Lifted buf F name.words →
      NewScientificNameNode.loop x n (name, tail, p) = some (name1, tail1, p1) →
      p1.Buffer = buf ∧ Lifted buf F name1.words := by
  intro n
  induction n with
  | nil =>
    intro name name1 tail tail1 p p1 _ hb hl h
    simp only [NewScientificNameNode.loop, Option.some.injEq, Prod.mk.injEq] at h
    obtain ⟨h1, _, h3⟩ := h
    subst h1; subst h3
    exact ⟨hb, hl⟩
  | mk t up next ihu ih =>
    clear ihu
    intro name name1 tail tail1 p p1 hF hb hl h
    have hnext := ((forest_subset t up next F).1 hF).2.2
    unfold NewScientificNameNode.loop at h
    split at h
    · split at h
      · exact absurd h (by simp)
      · rename_i nm p0 hnm
        obtain ⟨a1, a2⟩ := newName_lifted x p p0 _ nm F hF hnm
        rw [hb] at a1 a2
        exact ih _ _ _ _ _ _ hnext a1 a2 h
    · split at h
      · split at h
        · exact absurd h (by simp)
        · rename_i tl p0 htl
          have a1 := tailValue_Buffer p p0 _ tl htl
          exact ih _ _ _ _ _ _ hnext (by rw [a1, hb]) hl h
      · exact ih _ _ _ _ _ _ hnext hb hl h

/-- C1 as stated fails: the name lifted from `Aus (Bus) Linn` holds the rank
word `subgen.` with Start = End = 0, whose Value is not a slice of the buffer. -/
theorem NewScientificNameNode_subgen_word :
    ∃ p1 sn, exComboEngine.NewScientificNameNode extExample = some p1 ∧ p1.SN = some sn ∧
      exSubgenWord ∈ sn.Name.words ∧
      ¬ (exSubgenWord.Pos.Start < exSubgenWord.Pos.End) ∧
      exSubgenWord.Value ≠ runeSlice exComboEngine.Buffer exSubgenWord.Pos.Start.toNat
        exSubgenWord.Pos.End.toNat := by
  refine ⟨_, _, rfl, rfl, by decide, by decide, by decide⟩

/-- C1 (amended): every word node of a name lifted by `NewScientificNameNode` is
either synthesized (zero span: the rank word `subgen.` or the copied genus of
an incomplete hybrid formula element), or built from a token `t` of the tree:
then Start = t.begin, End = t.end, 0 <= Start <= End <= rune length of the
buffer, Start < End when the token is not empty, and Value is the rune slice
buffer[Start:End], except for a year built from a YearWithChar token, whose
Value is that slice without its last byte. -/
theorem NewScientificNameNode_words (x : Ext) (p p1 : Engine) (sn : ScientificNameNode)
    (h : p.NewScientificNameNode x = some p1) (hsn : p1.SN = some sn) :
    ∀ w ∈ sn.Name.words,
      w.synthesized ∨
        ∃ t ∈ p.root.postorder, w.ofToken p.Buffer t ∧
          0 ≤ w.Pos.Start ∧ w.Pos.Start ≤ w.Pos.End ∧
          w.Pos.End ≤ ((decodeRunes p.Buffer).length : Int) ∧
          (t.begin < t.end_ → w.Pos.Start < w.Pos.End) := by
  unfold Engine.NewScientificNameNode at h
  split at h
  · exact absurd h (by simp)
  · rename_i c hc
    split at h
    · exact absurd h (by simp)
    · rename_i name tail p0 hl
      injection h with h
      subst h
      simp only [Option.some.injEq] at hsn
      subst hsn
      have hsub : c.forest ⊆ p.root.postorder := by
        cases hr : p.root with
        | nil => rw [hr] at hc; simp [node32.up?] at hc
        | mk t up next =>
          rw [hr] at hc
          simp only [node32.up?, Option.some.injEq] at hc
          subst hc
          simp [node32.postorder]
      obtain ⟨_, a2⟩ := NewScientificNameNode_loop_lifted x p.Buffer _ c Name.nil name [] tail
        p p0 hsub rfl (by simp only [Name.words]; exact Lifted_nil _ _) hl
      intro w hw
      rcases a2 w hw with ⟨t, ht, hof⟩ | hs
      · right
        have hof0 := hof
        obtain ⟨e1, e2, e3, e4, _⟩ := hof0
        refine ⟨t, ht, hof, ?_, ?_, ?_, ?_⟩
        · rw [e1]; exact Int.natCast_nonneg _
        · rw [e1, e2]; exact Int.ofNat_le.2 e3
        · rw [e2]; exact Int.ofNat_le.2 e4
        · intro hlt; rw [e1, e2]; exact Int.ofNat_lt.2 hlt
      · exact Or.inl hs

/-- The amended C1 at the name lifted from `Aus (Bus) Linn`. -/
theorem NewScientificNameNode_words_witness :
    ∃ p1 sn, exComboEngine.NewScientificNameNode extExample = some p1 ∧ p1.SN = some sn ∧
      ∀ w ∈ sn.Name.words,
        w.synthesized ∨
          ∃ t ∈ exComboEngine.root.postorder, w.ofToken exComboEngine.Buffer t ∧
            0 ≤ w.Pos.Start ∧ w.Pos.Start ≤ w.Pos.End ∧
            w.Pos.End ≤ ((decodeRunes exComboEngine.Buffer).length : Int) ∧
            (t.begin < t.end_ → w.Pos.Start < w.Pos.End) := by
  refine ⟨_, _, rfl, rfl, ?_⟩
  exact NewScientificNameNode_words extExample exComboEngine _ _ rfl rfl

theorem Raises.trans {S : List Warning} {p q r : Engine} (h1 : Raises S p q)
    (h2 : Raises S q r) : Raises S p r := by
  induction h2 with
  | refl => exact h1
  | step q1 w hw _ ih => exact Raises.step p q1 w hw ih

theorem Raises.mono {S T : List Warning} {p q : Engine} (hST : ∀ w ∈ S, w ∈ T)
    (h : Raises S p q) : Raises T p q := by
  induction h with
  | refl => exact Raises.refl p
  | step q1 w hw _ ih => exact Raises.step p q1 w (hST w hw) ih

theorem Raises.one {S : List Warning} (p : Engine) (w : Warning) (hw : w ∈ S) :
    Raises S p (p.addWarn w) := Raises.step p p w hw (Raises.refl p)

theorem Raises.after {S : List Warning} {p q : Engine} (w : Warning) (hw : w ∈ S)
    (h : Raises S (p.addWarn w) q) : Raises S p q := (Raises.one p w hw).trans h

theorem Raises.cond {S : List Warning} (p : Engine) (c : Prop) [Decidable c] (w : Warning)
    (hw : w ∈ S) : Raises S p (if c then p.addWarn w else p) := by
  split
  · exact Raises.one p w hw
  · exact Raises.refl p

theorem Raises.Buffer {S : List Warning} {p q : Engine} (h : Raises S p q) :
    q.Buffer = p.Buffer := by
  induction h with
  | refl => rfl
  | step q1 w _ _ ih => rw [addWarn_Buffer, ih]

theorem addWarn_of_mem (p : Engine) (w : Warning) (h : w ∈ p.Warnings) : p.addWarn w = p := by
  unfold Engine.addWarn
  rw [if_pos h]

theorem addWarn_fields (p : Engine) (w : Warning) :
    (p.addWarn w).Tokens = p.Tokens ∧ (p.addWarn w).SN = p.SN ∧ (p.addWarn w).root = p.root := by
  unfold Engine.addWarn
  split <;> exact ⟨rfl, rfl, rfl⟩

theorem addWarn_nodup (p : Engine) (w : Warning) (h : p.Warnings.Nodup) :
    (p.addWarn w).Warnings.Nodup := by
  unfold Engine.addWarn
  split
  · exact h
  · rename_i hn
    show (p.Warnings ++ [w]).Nodup
    rw [List.nodup_append]
    refine ⟨h, List.nodup_singleton w, ?_⟩
    intro a ha hb
    rw [List.mem_singleton.1 hb] at ha
    exact hn ha

theorem Raises.fields {S : List Warning} {p q : Engine} (h : Raises S p q) :
    q.Tokens = p.Tokens ∧ q.SN = p.SN ∧ q.root = p.root := by
  induction h with
  | refl => exact ⟨rfl, rfl, rfl⟩
  | step q1 w _ _ ih =>
    obtain ⟨a, b, c⟩ := addWarn_fields q1 w
    exact ⟨a.trans ih.1, b.trans ih.2.1, c.trans ih.2.2⟩

theorem Raises.subset {S : List Warning} {p q : Engine} (h : Raises S p q) :
    ∀ w ∈ p.Warnings, w ∈ q.Warnings := by
  induction h with
  | refl => exact fun _ hw => hw
  | step q1 w _ _ ih => exact fun v hv => mem_addWarn_of_mem q1 w v (ih v hv)

theorem Raises.new {S : List Warning} {p q : Engine} (h : Raises S p q) :
    ∀ w ∈ q.Warnings, w ∈ p.Warnings ∨ w ∈ S := by
  induction h with
  | refl => exact fun _ hw => Or.inl hw
  | step q1 w hw _ ih =>
    intro v hv
    rcases (mem_addWarn_iff q1 w v).1 hv with e | e
    · rw [e]; exact Or.inr hw
    · exact ih v e

theorem Raises.nodup {S : List Warning} {p q : Engine} (h : Raises S p q)
    (hp : p.Warnings.Nodup) : q.Warnings.Nodup := by
  induction h with
  | refl => exact hp
  | step q1 w _ _ ih => exact addWarn_nodup q1 w ih

/-- A warning outside `S` is in the set afterwards exactly when it was before. -/
theorem Raises.other {S : List Warning} {p q : Engine} (h : Raises S p q) (w : Warning)
    (hw : w ∉ S) : w ∈ q.Warnings ↔ w ∈ p.Warnings := by
  constructor
  · intro hq
    rcases h.new w hq with e | e
    · exact e
    · exact absurd e hw
  · exact h.subset w

theorem newWordNode_raises (x : Ext) (p p1 : Engine) (n : node32) (wt : WordType) (w : wordNode)
    (h : p.newWordNode x n wt = some (w, p1)) : Raises wordWarns p p1 := by
  obtain ⟨_, _, _, _, _, _, _, _, h5⟩ := newWordNode_some x p p1 n wt w h
  rcases h5 with h5 | h5
  · rw [h5]; exact Raises.refl p
  · rw [h5]; exact Raises.one p _ (by decide)

theorem authorWord_raises (x : Ext) (p p1 : Engine) (n : node32) (w : wordNode)
    (h : p.authorWord x n = some (w, p1)) : Raises authorWordWarns p p1 := by
  unfold Engine.authorWord at h
  split at h
  · exact absurd h (by simp)
  · rename_i w0 p0 h0
    have hr : Raises authorWordWarns p p0 :=
      (newWordNode_raises x p p0 n _ w0 h0).mono (by decide)
    split at h
    · split at h
      · split at h
        · simp only at h
          split at h
          · injection h with h; injection h with h1 h2
            subst h2
            exact Raises.step _ _ _ (by decide) hr
          · exact absurd h (by simp)
        · injection h with h; injection h with h1 h2
          subst h2; exact hr
      · injection h with h; injection h with h1 h2
        subst h2; exact hr
    · injection h with h; injection h with h1 h2
      subst h2; exact hr

theorem newAuthorNode_loop_raises (x : Ext) :
    ∀ (n : node32) (ws ws1 : List wordNode) (val val1 : GoString) (p p1 : Engine),
      newAuthorNode.loop x n (ws, val, p) = some (ws1, val1, p1) →
      Raises authorWordWarns p p1 := by
  intro n
  induction n with
  | nil =>
    intro ws ws1 val val1 p p1 h
    simp only [newAuthorNode.loop, Option.some.injEq, Prod.mk.injEq] at h
    obtain ⟨_, _, h3⟩ := h
    subst h3
    exact Raises.refl p
  | mk t up next ihu ih =>
    clear ihu
    intro ws ws1 val val1 p p1 h
    unfold newAuthorNode.loop at h
    simp only at h
    split at h
    · exact absurd h (by simp)
    · rename_i w p0 hr
      have hw : Raises authorWordWarns p p0 := by
        split at hr
        · split at hr
          · exact absurd hr (by simp)
          · rename_i w0 p00 h0
            injection hr with hr; injection hr with h1 h2
            subst h2
            exact (newWordNode_raises x p p00 _ _ w0 h0).mono (by decide)
        · exact authorWord_raises x p p0 _ w hr
      exact hw.trans (ih _ _ _ _ _ _ h)

theorem newAuthorNode_raises (x : Ext) (p p1 : Engine) (n : node32) (a : authorNode)
    (h : p.newAuthorNode x n = some (a, p1)) : Raises authorWarns p p1 := by
  unfold Engine.newAuthorNode at h
  split at h
  · exact absurd h (by simp)
  · split at h
    · exact absurd h (by simp)
    · rename_i ws val p0 hl
      have hr : Raises authorWarns p p0 :=
        (newAuthorNode_loop_raises x _ _ _ _ _ _ _ hl).mono (by decide)
      injection h with h; injection h with h1 h2
      subst h2
      exact hr.trans (Raises.cond p0 _ _ (by decide))

theorem newYearNode_loop_raises (x : Ext) :
    ∀ (vs : List node32) (w w1 : Option wordNode) (appr appr1 : Bool) (p p1 : Engine),
      newYearNode.loop x vs (w, appr, p) = some (w1, appr1, p1) → Raises yearWarns p p1 := by
  intro vs
  induction vs with
  | nil =>
    intro w w1 appr appr1 p p1 h
    simp only [newYearNode.loop, Option.some.injEq, Prod.mk.injEq] at h
    obtain ⟨_, _, h3⟩ := h
    subst h3
    exact Raises.refl p
  | cons v vs ih =>
    intro w w1 appr appr1 p p1 h
    rw [newYearNode.loop_cons] at h
    split at h
    · exact absurd h (by simp)
    · split at h
      · exact Raises.after _ (by decide) (ih _ _ _ _ _ _ h)
      · split at h
        · split at h
          · exact absurd h (by simp)
          · rename_i wc pc hc
            have hr := (newWordNode_raises x _ pc v _ wc hc).mono
              (show ∀ w ∈ wordWarns, w ∈ yearWarns by decide)
            split at h
            · exact absurd h (by simp)
            · exact Raises.after _ (by decide) (hr.trans (ih _ _ _ _ _ _ h))
        · split at h
          · cases w with
            | none =>
              simp only at h
              split at h
              · exact absurd h (by simp)
              · rename_i wc pc hc
                have hr := (newWordNode_raises x _ pc v _ wc hc).mono
                  (show ∀ w ∈ wordWarns, w ∈ yearWarns by decide)
                split at h
                · exact absurd h (by simp)
                · split at h
                  · exact hr.trans (Raises.after _ (by decide) (ih _ _ _ _ _ _ h))
                  · exact hr.trans (ih _ _ _ _ _ _ h)
            | some w0 =>
              simp only at h
              split at h
              · exact absurd h (by simp)
              · split at h
                · exact Raises.after _ (by decide) (ih _ _ _ _ _ _ h)
                · exact ih _ _ _ _ _ _ h
          · exact ih _ _ _ _ _ _ h

theorem newYearNode_raises (x : Ext) (p p1 : Engine) (nd : node32) (y : yearNode)
    (h : p.newYearNode x nd = some (y, p1)) : Raises yearWarns p p1 := by
  unfold Engine.newYearNode at h
  split at h
  · exact absurd h (by simp)
  · split at h
    · exact absurd h (by simp)
    · rename_i w appr p0 hl
      have hr := newYearNode_loop_raises x _ _ _ _ _ _ _ hl
      cases w with
      | none =>
        simp only at h
        split at h
        · exact absurd h (by simp)
        · rename_i wc pc hc
          injection h with h; injection h with h1 h2
          subst h2
          exact hr.trans ((newWordNode_raises x _ pc _ _ wc hc).mono (by decide))
      | some w0 =>
        simp only at h
        injection h with h; injection h with h1 h2
        subst h2
        exact hr

theorem liftNodes_raises {α : Type} (f : Engine → node32 → Option (α × Engine))
    (S : List Warning)
    (hf : ∀ (p p1 : Engine) (v : node32) (a : α), f p v = some (a, p1) → Raises S p p1) :
    ∀ (vs : List node32) (p p1 : Engine) (as : List α),
      liftNodes f vs p = some (as, p1) → Raises S p p1 := by
  intro vs
  induction vs with
  | nil =>
    intro p p1 as h
    simp only [liftNodes, Option.some.injEq, Prod.mk.injEq] at h
    obtain ⟨_, h2⟩ := h
    subst h2
    exact Raises.refl p
  | cons v vs ih =>
    intro p p1 as h
    unfold liftNodes at h
    split at h
    · exact absurd h (by simp)
    · rename_i a p0 ha
      split at h
      · exact absurd h (by simp)
      · rename_i as0 p2 hrest
        injection h with h; injection h with h1 h2
        subst h2
        exact (hf p p0 v a ha).trans (ih p0 p2 as0 hrest)

theorem newAuthorTeam_raises (x : Ext) (p p1 : Engine) (n : node32) (a : authorsTeamNode)
    (h : p.newAuthorTeam x n = some (a, p1)) : Raises teamWarns p p1 := by
  unfold Engine.newAuthorTeam at h
  split at h
  · exact absurd h (by simp)
  · simp only at h
    split at h
    · exact absurd h (by simp)
    · rename_i aus p0 haus
      split at h
      · exact absurd h (by simp)
      · rename_i yrs p2 hyrs
        have h1 := liftNodes_raises (fun q v => q.newAuthorNode x v) teamWarns
          (fun q q1 v r hr => (newAuthorNode_raises x q q1 v r hr).mono (by decide))
          _ p p0 aus haus
        have h2 := liftNodes_raises (fun q v => q.newYearNode x v) teamWarns
          (fun q q1 v r hr => (newYearNode_raises x q q1 v r hr).mono (by decide))
          _ p0 p2 yrs hyrs
        injection h with h; injection h with e1 e2
        subst e2
        exact h1.trans h2

theorem newAuthorsGroupNode_raises (x : Ext) (p p1 : Engine) (n : node32) (g : authorsGroupNode)
    (h : p.newAuthorsGroupNode x n = some (g, p1)) :
    Raises groupWarns p p1 ∧ g.Parens = false := by
  unfold Engine.newAuthorsGroupNode at h
  split at h
  · exact absurd h (by simp)
  · split at h
    · rename_i t1 p0 n1 ht1 hn1
      have h1 : Raises groupWarns p p0 :=
        (newAuthorTeam_raises x p p0 _ t1 ht1).mono (by decide)
      simp only at h
      split at h
      · injection h with h; injection h with e1 e2
        subst e1; subst e2
        exact ⟨h1, rfl⟩
      · split at h
        · injection h with h; injection h with e1 e2
          subst e1; subst e2
          exact ⟨h1, rfl⟩
        · split at h
          · exact absurd h (by simp)
          · rename_i t2t p2 ht2t
            have h2 : Raises groupWarns p p2 :=
              h1.trans (Raises.after _ (by decide)
                ((newWordNode_raises x _ p2 _ _ t2t ht2t).mono (by decide)))
            split at h
            · injection h with h; injection h with e1 e2
              subst e1; subst e2
              exact ⟨h2, rfl⟩
            · split at h
              · injection h with h; injection h with e1 e2
                subst e1; subst e2
                exact ⟨h2, rfl⟩
              · split at h
                · exact absurd h (by simp)
                · rename_i t2 p3 ht2
                  injection h with h; injection h with e1 e2
                  subst e1; subst e2
                  exact ⟨h2.trans ((newAuthorTeam_raises x p2 p3 _ t2 ht2).mono (by decide)),
                    rfl⟩
    · exact absurd h (by simp)

theorem newAuthorshipNode_loop_raises (x : Ext) :
    ∀ (n : node32) (oa ca oa1 ca1 : Option authorsGroupNode) (parens parens1 : Bool)
      (p p1 : Engine),
      newAuthorshipNode.loop x n (oa, ca, parens, p) = some (oa1, ca1, parens1, p1) →
      Raises authorshipWarns p p1 := by
  intro n
  induction n with
  | nil =>
    intro oa ca oa1 ca1 parens parens1 p p1 h
    simp only [newAuthorshipNode.loop, Option.some.injEq, Prod.mk.injEq] at h
    obtain ⟨_, _, _, h4⟩ := h
    subst h4
    exact Raises.refl p
  | mk t up next ihu ih =>
    clear ihu
    intro oa ca oa1 ca1 parens parens1 p p1 h
    unfold newAuthorshipNode.loop at h
    split at h
    · split at h
      · exact absurd h (by simp)
      · rename_i ot oup onext
        simp only at h
        split at h
        · exact absurd h (by simp)
        · rename_i on1 parens2 p0 hr
          have hp0 : Raises authorshipWarns p p0 := by
            split at hr
            · injection hr with hr; injection hr with h1 h2; injection h2 with h2 h3
              subst h3
              exact Raises.one p _ (by decide)
            · split at hr
              · injection hr with hr; injection hr with h1 h2; injection h2 with h2 h3
                subst h3
                exact Raises.refl p
              · injection hr with hr; injection hr with h1 h2; injection h2 with h2 h3
                subst h3
                exact Raises.refl p
          split at h
          · exact absurd h (by simp)
          · rename_i g p2 hg
            exact (hp0.trans ((newAuthorsGroupNode_raises x p0 p2 on1 g hg).1.mono
              (by decide))).trans (ih _ _ _ _ _ _ _ _ h)
    · split at h
      · split at h
        · exact absurd h (by simp)
        · rename_i g p2 hg
          exact ((newAuthorsGroupNode_raises x p p2 up g hg).1.mono (by decide)).trans
            (ih _ _ _ _ _ _ _ _ h)
      · exact ih _ _ _ _ _ _ _ _ h

theorem newAuthorshipNode_raises (x : Ext) (p p1 : Engine) (n : node32) (a : authorshipNode)
    (h : p.newAuthorshipNode x n = some (a, p1)) : Raises authorshipWarns p p1 := by
  unfold Engine.newAuthorshipNode at h
  split at h
  · exact absurd h (by simp)
  · split at h
    · exact absurd h (by simp)
    · rename_i oa ca ps p0 hl
      injection h with h; injection h with h1 h2
      subst h2
      exact newAuthorshipNode_loop_raises x _ _ _ _ _ _ _ _ _ hl

/-- C11 as stated fails: for the group `Smith emend. Jones` (first team,
AuthorEmend marker, second team) `newAuthorsGroupNode` returns a group with
neither Team2 nor Team2Type. -/
theorem newAuthorsGroupNode_drops_emend :
    ∃ g p1, (engineOf "Smith emend. Jones").newAuthorsGroupNode extExample exGroupEmend
        = some (g, p1) ∧
      g.Team2 = none ∧ g.Team2Type = none ∧ p1.Warnings = [] := by
  refine ⟨_, _, rfl, by decide, by decide, by decide⟩

/-- C11 (amended): for an AuthorsGroup node whose children are a first team, a
marker and a second team (an AuthorsTeam node), when the marker is AuthorEx the
group has the first team as Team1, the marker word with NormValue `ex` as
Team2Type and the second team as Team2, and AuthExWarn is raised; when the
marker is anything else (such as AuthorEmend) the group has the first team
only. -/
theorem newAuthorsGroupNode_ex (x : Ext) (p p1 : Engine) (nt t1 t2 t3 : token32)
    (up1 up2 up3 next3 nnext : node32) (team1 : authorsTeamNode)
    (h1 : p.newAuthorTeam x (node32.mk t1 up1 (node32.mk t2 up2 (node32.mk t3 up3 next3)))
      = some (team1, p1))
    (h3 : t3.pegRule = ruleAuthorsTeam) :
    (t2.pegRule = ruleAuthorEx →
      ∀ (w : wordNode) (p2 p3 : Engine) (team2 : authorsTeamNode),
        (p1.addWarn AuthExWarn).newWordNode x (node32.mk t2 up2 (node32.mk t3 up3 next3))
          AuthorWordType = some (w, p2) →
        p2.newAuthorTeam x (node32.mk t3 up3 next3) = some (team2, p3) →
        p.newAuthorsGroupNode x
            (node32.mk nt (node32.mk t1 up1 (node32.mk t2 up2 (node32.mk t3 up3 next3))) nnext)
          = some ({ Team1 := some team1, Team2Type := some { w with NormValue := goStr "ex" },
                    Team2 := some team2, Parens := false }, p3) ∧
        AuthExWarn ∈ p3.Warnings) ∧
    (t2.pegRule ≠ ruleAuthorEx →
      p.newAuthorsGroupNode x
          (node32.mk nt (node32.mk t1 up1 (node32.mk t2 up2 (node32.mk t3 up3 next3))) nnext)
        = some ({ Team1 := some team1, Team2Type := none, Team2 := none, Parens := false },
            p1)) := by
  constructor
  · intro h2 w p2 p3 team2 hw ht
    refine ⟨?_, ?_⟩
    · simp only [Engine.newAuthorsGroupNode, node32.up?, node32.next?, h1, h2, h3, hw, ht,
        ne_eq, not_true_eq_false, if_false]
    · exact (newAuthorTeam_raises x p2 p3 _ team2 ht).subset _
        ((newWordNode_raises x _ p2 _ _ w hw).subset _ (addWarn_mem _ _))
  · intro h2
    simp only [Engine.newAuthorsGroupNode, node32.up?, node32.next?, h1, h2, ne_eq,
      not_false_eq_true, if_true]

/-- The amended C11 at the group `Smith ex Jones`. -/
theorem newAuthorsGroupNode_ex_witness :
    (engineOf "Smith ex Jones").newAuthorsGroupNode extExample exGroupEx
      = some ({ Team1 := some (exAuthorTeam "Smith" 0 5),
                Team2Type := some { exWord "ex" AuthorWordType 6 8 with NormValue := goStr "ex" },
                Team2 := some (exAuthorTeam "Jones" 9 14), Parens := false },
              engineWith "Smith ex Jones" [AuthExWarn]) ∧
      AuthExWarn ∈ (engineWith "Smith ex Jones" [AuthExWarn]).Warnings :=
  (newAuthorsGroupNode_ex extExample (engineOf "Smith ex Jones") (engineOf "Smith ex Jones")
    ⟨ruleAuthorsGroup, 0, 14⟩ ⟨ruleAuthorsTeam, 0, 5⟩ ⟨ruleAuthorEx, 6, 8⟩
    ⟨ruleAuthorsTeam, 9, 14⟩ (nd ruleAuthor 0 5 (leaf ruleAuthorWord 0 5 .nil) .nil) .nil
    (nd ruleAuthor 9 14 (leaf ruleAuthorWord 9 14 .nil) .nil) .nil .nil
    (exAuthorTeam "Smith" 0 5) rfl rfl).1 rfl (exWord "ex" AuthorWordType 6 8)
    (engineWith "Smith ex Jones" [AuthExWarn]) (engineWith "Smith ex Jones" [AuthExWarn])
    (exAuthorTeam "Jones" 9 14) rfl rfl

theorem newAuthorshipNode_loop_no_original (x : Ext) :
    ∀ (n : node32) (oa ca oa1 ca1 : Option authorsGroupNode) (parens parens1 : Bool)
      (p p1 : Engine),
      n.countRule ruleOriginalAuthorship = 0 →
      newAuthorshipNode.loop x n (oa, ca, parens, p) = some (oa1, ca1, parens1, p1) →
      oa1 = oa ∧ parens1 = parens ∧ Raises groupWarns p p1 ∧
        ((∀ g, ca = some g → g.Parens = false) → ∀ g, ca1 = some g → g.Parens = false) := by
  intro n
  induction n with
  | nil =>
    intro oa ca oa1 ca1 parens parens1 p p1 _ h
    simp only [newAuthorshipNode.loop, Option.some.injEq, Prod.mk.injEq] at h
    obtain ⟨h1, h2, h3, h4⟩ := h
    subst h1; subst h2; subst h3; subst h4
    exact ⟨rfl, rfl, Raises.refl p, fun hc => hc⟩
  | mk t up next ihu ih =>
    clear ihu
    intro oa ca oa1 ca1 parens parens1 p p1 hcount h
    have hne : t.pegRule ≠ ruleOriginalAuthorship := by
      intro e
      simp only [node32.countRule, e, if_true] at hcount
      omega
    have hcount1 : next.countRule ruleOriginalAuthorship = 0 := by
      simp only [node32.countRule, hne, if_false, Nat.zero_add] at hcount
      exact hcount
    unfold newAuthorshipNode.loop at h
    rw [if_neg hne] at h
    split at h
    · split at h
      · exact absurd h (by simp)
      · rename_i g p2 hg
        obtain ⟨r1, r2⟩ := newAuthorsGroupNode_raises x p p2 up g hg
        obtain ⟨a, b, c, d⟩ := ih _ _ _ _ _ _ _ _ hcount1 h
        refine ⟨a, b, r1.trans c, fun _ => d ?_⟩
        intro g1 hg1
        injection hg1 with hg1
        subst hg1
        exact r2
    · exact ih _ _ _ _ _ _ _ _ hcount1 h

theorem newAuthorshipNode_loop_one_original (x : Ext) :
    ∀ (n : node32) (oa ca oa1 ca1 : Option authorsGroupNode) (parens1 : Bool) (p p1 : Engine),
      n.countRule ruleOriginalAuthorship = 1 →
      newAuthorshipNode.loop x n (oa, ca, false, p) = some (oa1, ca1, parens1, p1) →
      ∃ ft fup fnext g, n.firstOf ruleOriginalAuthorship = node32.mk ft fup fnext ∧
        oa1 = some g ∧
        (g.Parens = true ↔ ft.pegRule = ruleBasionymAuthorship
          ∨ ft.pegRule = ruleBasionymAuthorshipYearMisformed) ∧
        (AuthMisformedYearWarn ∈ p1.Warnings ↔
          ft.pegRule = ruleBasionymAuthorshipYearMisformed ∨ AuthMisformedYearWarn ∈ p.Warnings) ∧
        ((∀ g, ca = some g → g.Parens = false) → ∀ g, ca1 = some g → g.Parens = false) := by
  intro n
  induction n with
  | nil =>
    intro oa ca oa1 ca1 parens1 p p1 hcount _
    simp [node32.countRule] at hcount
  | mk t up next ihu ih =>
    clear ihu
    intro oa ca oa1 ca1 parens1 p p1 hcount h
    by_cases horig : t.pegRule = ruleOriginalAuthorship
    · have hcount1 : next.countRule ruleOriginalAuthorship = 0 := by
        simp only [node32.countRule, horig, if_true] at hcount
        omega
      unfold newAuthorshipNode.loop at h
      rw [if_pos horig] at h
      split at h
      · exact absurd h (by simp)
      · rename_i ot oup onext
        simp only at h
        split at h
        · exact absurd h (by simp)
        · rename_i on1 parens2 p0 hr
          split at h
          · exact absurd h (by simp)
          · rename_i g p2 hg
            obtain ⟨r1, _⟩ := newAuthorsGroupNode_raises x p0 p2 on1 g hg
            obtain ⟨a, _, c, d⟩ := newAuthorshipNode_loop_no_original x _ _ _ _ _ _ _ _ _
              hcount1 h
            have hM : AuthMisformedYearWarn ∈ p1.Warnings ↔
                AuthMisformedYearWarn ∈ p0.Warnings :=
              ((c.other _ (by decide)).trans (r1.other _ (by decide)))
            refine ⟨ot, oup, onext, _, by simp only [node32.firstOf, horig, if_true], a,
              ?_, ?_, d⟩
            · split at hr
              · rename_i hm
                injection hr with hr; injection hr with h1 h2; injection h2 with h2 h3
                subst h2
                simp [hm]
              · split at hr
                · rename_i hb
                  injection hr with hr; injection hr with h1 h2; injection h2 with h2 h3
                  subst h2
                  simp [hb]
                · rename_i hm hb
                  injection hr with hr; injection hr with h1 h2; injection h2 with h2 h3
                  subst h2
                  simp [hm, hb]
            · rw [hM]
              split at hr
              · rename_i hm
                injection hr with hr; injection hr with h1 h2; injection h2 with h2 h3
                subst h3
                simp [hm, addWarn_mem]
              · split at hr
                · rename_i hm hb
                  injection hr with hr; injection hr with h1 h2; injection h2 with h2 h3
                  subst h3
                  simp [hm]
                · rename_i hm hb
                  injection hr with hr; injection hr with h1 h2; injection h2 with h2 h3
                  subst h3
                  simp [hm]
    · have hcount1 : next.countRule ruleOriginalAuthorship = 1 := by
        simp only [node32.countRule, horig, if_false, Nat.zero_add] at hcount
        exact hcount
      unfold newAuthorshipNode.loop at h
      rw [if_neg horig] at h
      split at h
      · split at h
        · exact absurd h (by simp)
        · rename_i g p2 hg
          obtain ⟨r1, r2⟩ := newAuthorsGroupNode_raises x p p2 up g hg
          obtain ⟨ft, fup, fnext, g1, a, b, c, d, e⟩ := ih _ _ _ _ _ _ _ hcount1 h
          refine ⟨ft, fup, fnext, g1, by simp only [node32.firstOf, horig, if_false]; exact a,
            b, c, ?_, fun _ => e ?_⟩
          · rw [d, r1.other _ (by decide)]
          · intro g2 hg2
            injection hg2 with hg2
            subst hg2
            exact r2
      · obtain ⟨ft, fup, fnext, g1, a, b, c, d, e⟩ := ih _ _ _ _ _ _ _ hcount1 h
        exact ⟨ft, fup, fnext, g1, by simp only [node32.firstOf, horig, if_false]; exact a,
          b, c, d, e⟩

/-- C12: for an Authorship node with exactly one OriginalAuthorship child,
`newAuthorshipNode` gives OriginalAuthors with Parens true exactly when the
first node under that child is BasionymAuthorship or
BasionymAuthorshipYearMisformed; AuthMisformedYearWarn is in the set
afterwards exactly when that node is BasionymAuthorshipYearMisformed or the
warning was there before; and CombinationAuthors, when present, has Parens
false. -/
theorem newAuthorshipNode_parens (x : Ext) (p p1 : Engine) (nt : token32) (c nnext : node32)
    (a : authorshipNode)
    (h : p.newAuthorshipNode x (node32.mk nt c nnext) = some (a, p1))
    (hone : c.countRule ruleOriginalAuthorship = 1) :
    ∃ ft fup fnext oa, c.firstOf ruleOriginalAuthorship = node32.mk ft fup fnext ∧
      a.OriginalAuthors = some oa ∧
      (oa.Parens = true ↔ ft.pegRule = ruleBasionymAuthorship
        ∨ ft.pegRule = ruleBasionymAuthorshipYearMisformed) ∧
      (AuthMisformedYearWarn ∈ p1.Warnings ↔
        ft.pegRule = ruleBasionymAuthorshipYearMisformed ∨ AuthMisformedYearWarn ∈ p.Warnings) ∧
      ∀ ca, a.CombinationAuthors = some ca → ca.Parens = false := by
  unfold Engine.newAuthorshipNode at h
  simp only [node32.up?] at h
  split at h
  · exact absurd h (by simp)
  · rename_i oa ca ps p0 hl
    injection h with h; injection h with h1 h2
    subst h1; subst h2
    obtain ⟨ft, fup, fnext, g, e1, e2, e3, e4, e5⟩ :=
      newAuthorshipNode_loop_one_original x c none none oa ca ps p p0 hone hl
    exact ⟨ft, fup, fnext, g, e1, e2, e3, e4, e5 (fun g hg => absurd hg (by simp))⟩

/-- C12 at the authorship `(Linn, 1758)`, a misformed basionym. -/
theorem newAuthorshipNode_parens_witness :
    ∃ ft fup fnext oa,
      (nd ruleOriginalAuthorship 0 12
        (nd ruleBasionymAuthorshipYearMisformed 0 12
          (nd ruleAuthorsGroup 1 11
            (nd ruleAuthorsTeam 1 11
              (nd ruleAuthor 1 5 (leaf ruleAuthorWord 1 5 .nil)
                (nd ruleYear 7 11 (leaf ruleYearNum 7 11 .nil) .nil))
              .nil)
            .nil)
          .nil)
        .nil).firstOf ruleOriginalAuthorship = node32.mk ft fup fnext ∧
      exAuthorshipLifted.OriginalAuthors = some oa ∧
      (oa.Parens = true ↔ ft.pegRule = ruleBasionymAuthorship
        ∨ ft.pegRule = ruleBasionymAuthorshipYearMisformed) ∧
      (AuthMisformedYearWarn ∈ (engineWith "(Linn, 1758)" [AuthMisformedYearWarn]).Warnings ↔
        ft.pegRule = ruleBasionymAuthorshipYearMisformed
          ∨ AuthMisformedYearWarn ∈ (engineOf "(Linn, 1758)").Warnings) ∧
      ∀ ca, exAuthorshipLifted.CombinationAuthors = some ca → ca.Parens = false :=
  newAuthorshipNode_parens extExample (engineOf "(Linn, 1758)")
    (engineWith "(Linn, 1758)" [AuthMisformedYearWarn]) ⟨ruleAuthorship, 0, 12⟩ _ .nil
    exAuthorshipLifted rfl (by decide)

theorem newRankNode_raises (x : Ext) (p p1 : Engine) (n : node32) (r : rankNode)
    (h : p.newRankNode x n = some (r, p1)) : Raises rankWarns p p1 := by
  unfold Engine.newRankNode at h
  split at h
  · exact absurd h (by simp)
  · split at h
    · exact absurd h (by simp)
    · rename_i w p0 hw
      injection h with h; injection h with h1 h2
      subst h2
      exact (newWordNode_raises x p p0 _ _ w hw).mono (by decide)
  · split at h
    · exact absurd h (by simp)
    · rename_i w p0 hw
      have hr : Raises rankWarns p p0 := (newWordNode_raises x p p0 _ _ w hw).mono (by decide)
      split at h
      · injection h with h; injection h with h1 h2
        subst h2; exact hr
      · split at h
        · split at h
          · exact absurd h (by simp)
          · split at h
            · injection h with h; injection h with h1 h2
              subst h2; exact hr
            · injection h with h; injection h with h1 h2
              subst h2; exact hr
        · split at h
          · injection h with h; injection h with h1 h2
            subst h2; exact hr
          · split at h
            · injection h with h; injection h with h1 h2
              subst h2; exact Raises.step _ _ _ (by decide) hr
            · injection h with h; injection h with h1 h2
              subst h2; exact hr

/-- C13: for a Rank node with a child, on which `newWordNode` gives the word
`w` of the child, `newRankNode` keeps Value and sets NormValue to `fm.` for
RankForma, `ssp.` for RankSsp, and for RankVar to `nvar.` when Value starts
with `n` and to `var.` otherwise; for RankOtherUncommon the word is kept as
it is and RankUncommonWarn is raised; for every other child rule
RankUncommonWarn is in the set afterwards exactly when it was before. -/
theorem newRankNode_norm (x : Ext) (p p0 : Engine) (nt ct : token32) (cup cnext nnext : node32)
    (w : wordNode)
    (hw : p.newWordNode x (node32.mk ct cup cnext) RankType = some (w, p0)) :
    (ct.pegRule = ruleRankForma →
      p.newRankNode x (node32.mk nt (node32.mk ct cup cnext) nnext)
        = some ({ Word := some { w with NormValue := goStr "fm." } }, p0)) ∧
    (ct.pegRule = ruleRankSsp →
      p.newRankNode x (node32.mk nt (node32.mk ct cup cnext) nnext)
        = some ({ Word := some { w with NormValue := goStr "ssp." } }, p0)) ∧
    (ct.pegRule = ruleRankVar → ∀ (b : byte) (rest : GoString), w.Value = b :: rest →
      p.newRankNode x (node32.mk nt (node32.mk ct cup cnext) nnext)
        = some ({ Word := some { w with
            NormValue := if b = ch 'n' then goStr "nvar." else goStr "var." } }, p0)) ∧
    (ct.pegRule = ruleRankOtherUncommon →
      p.newRankNode x (node32.mk nt (node32.mk ct cup cnext) nnext)
        = some ({ Word := some w }, p0.addWarn RankUncommonWarn) ∧
      RankUncommonWarn ∈ (p0.addWarn RankUncommonWarn).Warnings) ∧
    (ct.pegRule ≠ ruleRankOtherUncommon → ∀ (r : rankNode) (p1 : Engine),
      p.newRankNode x (node32.mk nt (node32.mk ct cup cnext) nnext) = some (r, p1) →
      (RankUncommonWarn ∈ p1.Warnings ↔ RankUncommonWarn ∈ p.Warnings) ∧
        ∃ w1, r.Word = some w1 ∧ w1.Value = w.Value ∧ w1.Pos = w.Pos) := by
  refine ⟨?_, ?_, ?_, ?_, ?_⟩
  · intro hr
    simp only [Engine.newRankNode, hw, hr, if_true]
  · intro hr
    have h1 : ¬ (ruleRankSsp = ruleRankForma) := by decide
    have h2 : ¬ (ruleRankSsp = ruleRankVar) := by decide
    simp only [Engine.newRankNode, hw, hr, h1, h2, if_true, if_false]
  · intro hr b rest hv
    have h1 : ¬ (ruleRankVar = ruleRankForma) := by decide
    have hi : index w.Value 0 = some b := by
      rw [hv]
      simp [index, len]
    simp only [Engine.newRankNode, hw, hr, h1, if_true, if_false, hi]
    split <;> rfl
  · intro hr
    have h1 : ¬ (ruleRankOtherUncommon = ruleRankForma) := by decide
    have h2 : ¬ (ruleRankOtherUncommon = ruleRankVar) := by decide
    have h3 : ¬ (ruleRankOtherUncommon = ruleRankSsp) := by decide
    refine ⟨?_, addWarn_mem _ _⟩
    simp only [Engine.newRankNode, hw, hr, h1, h2, h3, if_true, if_false]
  · intro hr r p1 h
    have key : p1 = p0 ∧ ∃ w1, r.Word = some w1 ∧ w1.Value = w.Value ∧ w1.Pos = w.Pos := by
      simp only [Engine.newRankNode, hw, hr, if_false] at h
      split at h
      · injection h with h; injection h with h1 h2
        subst h1; subst h2
        exact ⟨rfl, _, rfl, rfl, rfl⟩
      · split at h
        · split at h
          · exact absurd h (by simp)
          · split at h
            · injection h with h; injection h with h1 h2
              subst h1; subst h2
              exact ⟨rfl, _, rfl, rfl, rfl⟩
            · injection h with h; injection h with h1 h2
              subst h1; subst h2
              exact ⟨rfl, _, rfl, rfl, rfl⟩
        · split at h
          · injection h with h; injection h with h1 h2
            subst h1; subst h2
            exact ⟨rfl, _, rfl, rfl, rfl⟩
          · injection h with h; injection h with h1 h2
            subst h1; subst h2
            exact ⟨rfl, _, rfl, rfl, rfl⟩
    obtain ⟨e, hw1⟩ := key
    subst e
    exact ⟨(newWordNode_raises x p p1 _ _ w hw).other _ (by decide), hw1⟩

/-- C13 at the rank `nvar.` of `Aus bus nvar. cus`. -/
theorem newRankNode_norm_witness :
    (engineOf "Aus bus nvar. cus").newRankNode extExample (exRank ruleRankVar 8 13)
      = some ({ Word := some { exWord "nvar." RankType 8 13 with
          NormValue := if ch 'n' = ch 'n' then goStr "nvar." else goStr "var." } },
        engineOf "Aus bus nvar. cus") :=
  (newRankNode_norm extExample (engineOf "Aus bus nvar. cus") (engineOf "Aus bus nvar. cus")
    ⟨ruleRank, 8, 13⟩ ⟨ruleRankVar, 8, 13⟩ .nil .nil .nil (exWord "nvar." RankType 8 13)
    rfl).2.2.1 rfl (ch 'n') (goStr "var.") (by decide)

/-- C17: on a Tail node with an empty token `tailValue` returns the empty
string and the engine unchanged (no warning); on a non-empty token within the
buffer it returns the rune slice buffer[begin:end] and raises TailWarn. -/
theorem tailValue_spec (p : Engine) (t : token32) (up next : node32) :
    (t.begin = t.end_ → p.tailValue (node32.mk t up next) = some ([], p)) ∧
    (t.begin < t.end_ → t.end_ ≤ (decodeRunes p.Buffer).length →
      p.tailValue (node32.mk t up next)
        = some (runeSlice p.Buffer t.begin t.end_, p.addWarn TailWarn) ∧
      TailWarn ∈ (p.addWarn TailWarn).Warnings) := by
  constructor
  · intro h
    simp only [Engine.tailValue, h, if_true]
  · intro h1 h2
    have hne : ¬ t.begin = t.end_ := by omega
    have hle : t.begin ≤ t.end_ := by omega
    refine ⟨?_, addWarn_mem _ _⟩
    simp only [Engine.tailValue, hne, if_false, Engine.nodeValue, addWarn_Buffer, hle, h2,
      and_self, if_true, runeSlice]

/-- C17 at the tail ` xyz` of `Aus bus xyz` and at an empty tail. -/
theorem tailValue_spec_witness :
    (engineOf "Aus bus xyz").tailValue (leaf ruleTail 11 11 .nil)
        = some ([], engineOf "Aus bus xyz") ∧
      (engineOf "Aus bus xyz").tailValue (leaf ruleTail 7 11 .nil)
        = some (runeSlice (goStr "Aus bus xyz") 7 11, (engineOf "Aus bus xyz").addWarn TailWarn) ∧
      TailWarn ∈ ((engineOf "Aus bus xyz").addWarn TailWarn).Warnings :=
  ⟨(tailValue_spec (engineOf "Aus bus xyz") ⟨ruleTail, 11, 11⟩ .nil .nil).1 rfl,
   (tailValue_spec (engineOf "Aus bus xyz") ⟨ruleTail, 7, 11⟩ .nil .nil).2 (by decide)
     (by decide)⟩

/-- C19 fails on the code: for the UninomialCombo of `Aus (Bus) Linn` (no rank
token) `newUninomialComboNode` returns the first uninomial `Aus` without
authorship, the second uninomial `Bus` with the authorship that follows, and a
rank word of type RankUni with Value `subgen.`, but its NormValue is the empty
string, not `subgen.`. -/
theorem newUninomialComboNode_subgen_norm_empty :
    ∀ x : Ext, ∃ uc p1,
      (engineOf "Aus (Bus) Linn").newUninomialComboNode x exComboNode = some (uc, p1) ∧
      uc.Uninomial1 = some { Word := some (exWord "Aus" UninomialType 0 3), Authorship := none } ∧
      uc.Uninomial2.map (fun u => (u.Word, u.Authorship.isSome))
        = some (some (exWord "Bus" UninomialType 5 8), true) ∧
      uc.Rank = some { Word := some { Value := goStr "subgen.", NormValue := [],
                                      Pos := { Type_ := RankUniType, Start := 0, End := 0 } } } ∧
      ([] : GoString) ≠ goStr "subgen." := by
  intro x
  refine ⟨_, _, rfl, rfl, rfl, rfl, by decide⟩

theorem newWordNode_raises_single (x : Ext) (p p1 : Engine) (n : node32) (wt : WordType)
    (w : wordNode) (h : p.newWordNode x n wt = some (w, p1)) : Raises singleNameWarns p p1 :=
  (newWordNode_raises x p p1 n wt w h).mono (by decide)

theorem newAuthorshipNode_raises_single (x : Ext) (p p1 : Engine) (n : node32)
    (a : authorshipNode) (h : p.newAuthorshipNode x n = some (a, p1)) :
    Raises singleNameWarns p p1 :=
  (newAuthorshipNode_raises x p p1 n a h).mono (by decide)

theorem newUninomialNode_raises (x : Ext) (p p1 : Engine) (n : node32) (u : uninomialNode)
    (h : p.newUninomialNode x n = some (u, p1)) : Raises singleNameWarns p p1 := by
  unfold Engine.newUninomialNode at h
  split at h
  · exact absurd h (by simp)
  · split at h
    · rename_i w p0 an hw han
      have a := newWordNode_raises_single x p p0 _ _ w hw
      split at h
      · injection h with h; injection h with h1 h2
        subst h2
        exact a
      · split at h
        · exact absurd h (by simp)
        · rename_i au p2 hau
          injection h with h; injection h with h1 h2
          subst h2
          exact a.trans (newAuthorshipNode_raises_single x p0 p2 an au hau)
    · exact absurd h (by simp)

theorem newRankUninomialNode_raises (x : Ext) (p p1 : Engine) (n : node32)
    (r : rankUninomialNode) (h : p.newRankUninomialNode x n = some (r, p1)) :
    Raises singleNameWarns p p1 := by
  unfold Engine.newRankUninomialNode at h
  split at h
  · exact absurd h (by simp)
  · rename_i w p0 hw
    injection h with h; injection h with h1 h2
    subst h2
    exact newWordNode_raises_single x p p0 _ _ w hw

theorem newUninomialComboNode_raises (x : Ext) (p p1 : Engine) (n : node32)
    (uc : uninomialComboNode) (h : p.newUninomialComboNode x n = some (uc, p1)) :
    Raises singleNameWarns p p1 := by
  unfold Engine.newUninomialComboNode at h
  split at h
  · rename_i t up next hc
    simp only at h
    split at h
    · split at h
      · exact absurd h (by simp)
      · rename_i u1 p0 hu1
        have a := newUninomialNode_raises x p p0 _ u1 hu1
        split at h
        · rename_i r p2 u2n hr hu2n
          have b := newRankUninomialNode_raises x p0 p2 _ r hr
          split at h
          · exact absurd h (by simp)
          · rename_i u2 p3 hu2
            have c := newUninomialNode_raises x p2 p3 _ u2 hu2
            injection h with h; injection h with h1 h2
            subst h2
            exact (a.trans b).trans c
        · exact absurd h (by simp)
    · split at h
      · split at h
        · rename_i uw p0 n1up n2 huw hn1up hn2
          have a := newWordNode_raises_single x p p0 _ _ uw huw
          split at h
          · exact absurd h (by simp)
          · rename_i u2w p2 hu2w
            have b := newWordNode_raises_single x p0 p2 _ _ u2w hu2w
            split at h
            · exact absurd h (by simp)
            · rename_i au2 p3 hau2
              have c := newAuthorshipNode_raises_single x p2 p3 _ au2 hau2
              injection h with h; injection h with h1 h2
              subst h2
              exact (a.trans b).trans c
        · exact absurd h (by simp)
      · injection h with h; injection h with h1 h2
        subst h2
        exact Raises.refl p
  · exact absurd h (by simp)

theorem newInfraspEpithetNode_loop_raises (x : Ext) :
    ∀ (n : node32) (w w1 : Option wordNode) (r r1 : Option rankNode)
      (au au1 : Option authorshipNode) (p p1 : Engine),
      newInfraspEpithetNode.loop x n (w, r, au, p) = some (w1, r1, au1, p1) →
      Raises singleNameWarns p p1 := by
  intro n
  induction n with
  | nil =>
    intro w w1 r r1 au au1 p p1 h
    simp only [newInfraspEpithetNode.loop, Option.some.injEq, Prod.mk.injEq] at h
    obtain ⟨_, _, _, h4⟩ := h
    subst h4
    exact Raises.refl p
  | mk t up next ihu ih =>
    clear ihu
    intro w w1 r r1 au au1 p p1 h
    unfold newInfraspEpithetNode.loop at h
    simp only at h
    split at h
    · split at h
      · exact absurd h (by simp)
      · rename_i wc pc hc
        exact (newWordNode_raises_single x p pc _ _ wc hc).trans (ih _ _ _ _ _ _ _ _ h)
    · split at h
      · split at h
        · exact absurd h (by simp)
        · rename_i rc pc hc
          exact ((newRankNode_raises x p pc _ rc hc).mono (by decide)).trans
            (ih _ _ _ _ _ _ _ _ h)
      · split at h
        · split at h
          · exact absurd h (by simp)
          · rename_i ac pc hc
            exact (newAuthorshipNode_raises_single x p pc _ ac hc).trans (ih _ _ _ _ _ _ _ _ h)
        · exact ih _ _ _ _ _ _ _ _ h

theorem newInfraspEpithetNode_raises (x : Ext) (p p1 : Engine) (n : node32)
    (e : infraspEpithetNode) (h : p.newInfraspEpithetNode x n = some (e, p1)) :
    Raises singleNameWarns p p1 := by
  unfold Engine.newInfraspEpithetNode at h
  split at h
  · exact absurd h (by simp)
  · split at h
    · exact absurd h (by simp)
    · rename_i w r au p0 hl
      injection h with h; injection h with h1 h2
      subst h2
      exact newInfraspEpithetNode_loop_raises x _ _ _ _ _ _ _ _ _ hl

theorem newInfraspeciesGroup_loop_raises (x : Ext) :
    ∀ (n : node32) (infs infs1 : List infraspEpithetNode) (p p1 : Engine),
      newInfraspeciesGroup.loop x n (infs, p) = some (infs1, p1) →
      Raises singleNameWarns p p1 := by
  intro n
  induction n with
  | nil =>
    intro infs infs1 p p1 h
    simp only [newInfraspeciesGroup.loop, Option.some.injEq, Prod.mk.injEq] at h
    obtain ⟨_, h2⟩ := h
    subst h2
    exact Raises.refl p
  | mk t up next ihu ih =>
    clear ihu
    intro infs infs1 p p1 h
    unfold newInfraspeciesGroup.loop at h
    split at h
    · exact absurd h (by simp)
    · rename_i inf pc hc
      exact (newInfraspEpithetNode_raises x p pc _ inf hc).trans (ih _ _ _ _ h)

theorem newInfraspeciesGroup_raises (x : Ext) (p p1 : Engine) (n : node32)
    (infs : List infraspEpithetNode) (h : p.newInfraspeciesGroup x n = some (infs, p1)) :
    Raises singleNameWarns p p1 := by
  unfold Engine.newInfraspeciesGroup at h
  split at h
  · exact absurd h (by simp)
  · injection h with h; injection h with h1 h2
    subst h2
    exact Raises.refl p
  · split at h
    · injection h with h; injection h with h1 h2
      subst h2
      exact Raises.refl p
    · exact newInfraspeciesGroup_loop_raises x _ _ _ _ _ h

theorem newSpeciesEpithetNode_raises (x : Ext) (p p1 : Engine) (n : node32)
    (e : spEpithetNode) (h : p.newSpeciesEpithetNode x n = some (e, p1)) :
    Raises singleNameWarns p p1 := by
  unfold Engine.newSpeciesEpithetNode at h
  split at h
  · exact absurd h (by simp)
  · split at h
    · rename_i se p0 a hse ha
      have a1 := newWordNode_raises_single x p p0 _ _ se hse
      split at h
      · injection h with h; injection h with h1 h2
        subst h2
        exact a1
      · split at h
        · exact absurd h (by simp)
        · rename_i au p2 hau
          injection h with h; injection h with h1 h2
          subst h2
          exact a1.trans (newAuthorshipNode_raises_single x p0 p2 a au hau)
    · exact absurd h (by simp)

theorem newSpeciesNode_loop_raises (x : Ext) :
    ∀ (n : node32) (sg sg1 : Option wordNode) (sp sp1 : Option spEpithetNode)
      (infs infs1 : List infraspEpithetNode) (p p1 : Engine),
      newSpeciesNode.loop x n (sg, sp, infs, p) = some (sg1, sp1, infs1, p1) →
      Raises singleNameWarns p p1 := by
  intro n
  induction n with
  | nil =>
    intro sg sg1 sp sp1 infs infs1 p p1 h
    simp only [newSpeciesNode.loop, Option.some.injEq, Prod.mk.injEq] at h
    obtain ⟨_, _, _, e4⟩ := h
    subst e4
    exact Raises.refl p
  | mk t up next ihu ih =>
    clear ihu
    intro sg sg1 sp sp1 infs infs1 p p1 h
    unfold newSpeciesNode.loop at h
    split at h
    · split at h
      · exact absurd h (by simp)
      · rename_i wc pc hc
        exact (newWordNode_raises_single x p pc _ _ wc hc).trans (ih _ _ _ _ _ _ _ _ h)
    · split at h
      · split at h
        · exact absurd h (by simp)
        · rename_i ec pc hc
          exact (newSpeciesEpithetNode_raises x p pc _ ec hc).trans (ih _ _ _ _ _ _ _ _ h)
      · split at h
        · split at h
          · exact absurd h (by simp)
          · rename_i ic pc hc
            exact (newInfraspeciesGroup_raises x p pc _ ic hc).trans (ih _ _ _ _ _ _ _ _ h)
        · exact ih _ _ _ _ _ _ _ _ h

theorem newSpeciesNode_raises (x : Ext) (p p1 : Engine) (n : node32) (sp : speciesNode)
    (h : p.newSpeciesNode x n = some (sp, p1)) : Raises singleNameWarns p p1 := by
  unfold Engine.newSpeciesNode at h
  split at h
  · exact absurd h (by simp)
  · split at h
    · rename_i gen p0 ct gt gup gnext next hc hgen
      have a := newWordNode_raises_single x p p0 _ _ gen hgen
      simp only at h
      split at h
      · exact absurd h (by simp)
      · rename_i sg se infs p3 hl
        have b := newSpeciesNode_loop_raises x _ _ _ _ _ _ _ _ _ hl
        injection h with h; injection h with h1 h2
        subst h2
        exact (a.trans (Raises.cond p0 _ _ (by decide))).trans b
    · exact absurd h (by simp)

theorem newSingleName_raises (x : Ext) (p p1 : Engine) (n : node32) (nm : Name)
    (h : p.newSingleName x n = some (nm, p1)) : Raises singleNameWarns p p1 := by
  unfold Engine.newSingleName at h
  split at h
  · simp only at h
    split at h
    · split at h
      · exact absurd h (by simp)
      · rename_i sp p0 hsp
        injection h with h; injection h with h1 h2
        subst h2
        exact newSpeciesNode_raises x p p0 _ sp hsp
    · split at h
      · split at h
        · exact absurd h (by simp)
        · rename_i u p0 hu
          injection h with h; injection h with h1 h2
          subst h2
          exact newUninomialNode_raises x p p0 _ u hu
      · split at h
        · split at h
          · exact absurd h (by simp)
          · rename_i uc p0 huc
            injection h with h; injection h with h1 h2
            subst h2
            exact Raises.after _ (by decide) (newUninomialComboNode_raises x _ p0 _ uc huc)
        · injection h with h; injection h with h1 h2
          subst h2
          exact Raises.refl p
  · exact absurd h (by simp)

theorem newNamedSpeciesHybridNode_raises (x : Ext) (p p1 : Engine) (n : node32)
    (nhl : namedSpeciesHybridNode) (h : p.newNamedSpeciesHybridNode x n = some (nhl, p1)) :
    Raises nameWarns p p1 := by
  unfold Engine.newNamedSpeciesHybridNode at h
  split at h
  · simp only at h
    split at h
    · exact absurd h (by simp)
    · rename_i gen p0 hgen
      have a : Raises nameWarns p p0 := (newWordNode_raises x p p0 _ _ gen hgen).mono (by decide)
      split at h
      · exact absurd h (by simp)
      · rename_i hy p2 hhy
        have b : Raises nameWarns p0 p2 :=
          (newWordNode_raises x p0 p2 _ _ hy hhy).mono (by decide)
        split at h
        · exact absurd h (by simp)
        · rename_i sp p3 hsp
          have c : Raises nameWarns p2 p3 :=
            (newSpeciesEpithetNode_raises x p2 p3 _ sp hsp).mono (by decide)
          split at h
          · exact absurd h (by simp)
          · injection h with h; injection h with h1 h2
            subst h2
            exact (((a.trans b).trans c).trans (Raises.one p3 _ (by decide))).trans
              (Raises.cond _ _ _ (by decide))
  · exact absurd h (by simp)

theorem newNamedGenusHybridNode_raises (x : Ext) (p p1 : Engine) (n : node32)
    (nhn : Option (namedGenusHybridNode Name))
    (h : p.newNamedGenusHybridNode x n = some (nhn, p1)) : Raises nameWarns p p1 := by
  unfold Engine.newNamedGenusHybridNode at h
  split at h
  · split at h
    · injection h with h; injection h with h1 h2
      subst h2
      exact Raises.refl p
    · split at h
      · rename_i hybr p0 t2 up2 next2 hh hn2
        have a : Raises nameWarns p p0 :=
          (newWordNode_raises x p p0 _ _ hybr hh).mono (by decide)
        have b : Raises nameWarns p (if t2.begin = 1 then
            (p0.addWarn HybridNamedWarn).addWarn HybridCharNoSpaceWarn
            else p0.addWarn HybridNamedWarn) :=
          (a.trans (Raises.one p0 _ (by decide))).trans (Raises.cond _ _ _ (by decide))
        simp only at h
        split at h
        · split at h
          · exact absurd h (by simp)
          · rename_i u p4 hu
            injection h with h; injection h with h1 h2
            subst h2
            exact b.trans ((newUninomialNode_raises x _ p4 _ u hu).mono (by decide))
        · split at h
          · split at h
            · exact absurd h (by simp)
            · rename_i sp p4 hsp
              injection h with h; injection h with h1 h2
              subst h2
              exact b.trans ((newSpeciesNode_raises x _ p4 _ sp hsp).mono (by decide))
          · injection h with h; injection h with h1 h2
            subst h2
            exact b
      · exact absurd h (by simp)
  · exact absurd h (by simp)

theorem hfState.assign_p (st st1 : hfState) (s : Name) (p1 : Engine)
    (h : st.assign s p1 = some st1) : st1.p = p1 := by
  unfold hfState.assign at h
  split at h
  · exact absurd h (by simp)
  · split at h
    · exact absurd h (by simp)
    · injection h with h
      subst h
      rfl

theorem newHybridFormulaNode_loop_raises (x : Ext) (firstName : Name) :
    ∀ (n : node32) (st st1 : hfState),
      newHybridFormulaNode.loop x firstName n st = some st1 → Raises nameWarns st.p st1.p := by
  intro n
  induction n with
  | nil =>
    intro st st1 h
    simp only [newHybridFormulaNode.loop, Option.some.injEq] at h
    subst h
    exact Raises.refl _
  | mk t up next ihu ih =>
    clear ihu
    intro st st1 h
    unfold newHybridFormulaNode.loop at h
    simp only at h
    split at h
    · split at h
      · exact absurd h (by simp)
      · rename_i w p1 hw
        exact ((newWordNode_raises x _ p1 _ _ w hw).mono (by decide)).trans (ih _ _ h)
    · split at h
      · split at h
        · exact absurd h (by simp)
        · rename_i nm p1 hnm
          have a : Raises nameWarns st.p p1 :=
            (newSingleName_raises x _ p1 _ nm hnm).mono (by decide)
          split at h
          · exact absurd h (by simp)
          · rename_i st2 hst2
            have e := hfState.assign_p _ _ _ _ hst2
            have b := ih _ _ h
            rw [e] at b
            exact a.trans b
      · split at h
        · split at h
          · rename_i spe p1 g0 hspe _
            have a : Raises nameWarns st.p p1 :=
              Raises.after _ (by decide)
                ((newSpeciesEpithetNode_raises x _ p1 _ spe hspe).mono (by decide))
            split at h
            · exact absurd h (by simp)
            · rename_i st2 hst2
              have e := hfState.assign_p _ _ _ _ hst2
              have b := ih _ _ h
              rw [e] at b
              exact a.trans b
          · exact absurd h (by simp)
        · exact ih _ _ h

theorem newHybridFormulaNode_raises (x : Ext) (p p1 : Engine) (n : node32)
    (hf : hybridFormulaNode Name) (h : p.newHybridFormulaNode x n = some (hf, p1)) :
    Raises nameWarns p p1 := by
  unfold Engine.newHybridFormulaNode at h
  split at h
  · exact absurd h (by simp)
  · split at h
    · rename_i firstName p0 n1 hfirst hn1
      have a : Raises nameWarns p p0 :=
        Raises.after _ (by decide) ((newSingleName_raises x _ p0 _ firstName hfirst).mono
          (by decide))
      split at h
      · exact absurd h (by simp)
      · rename_i st hst
        have b := newHybridFormulaNode_loop_raises x firstName n1 _ st hst
        simp only at b
        split at h
        · exact absurd h (by simp)
        · split at h
          · exact absurd h (by simp)
          · rename_i e he
            simp only at h
            split at h
            · exact absurd h (by simp)
            · rename_i hf1 hnorm
              injection h with h; injection h with h1 h2
              subst h2
              exact (a.trans b).trans (Raises.cond _ _ _ (by decide))
    · exact absurd h (by simp)

theorem newName_raises (x : Ext) (p p1 : Engine) (n : node32) (nm : Name)
    (h : p.newName x n = some (nm, p1)) : Raises nameWarns p p1 := by
  unfold Engine.newName at h
  split at h
  · simp only at h
    split at h
    · split at h
      · exact absurd h (by simp)
      · rename_i hf p0 hhf
        injection h with h; injection h with h1 h2
        subst h2
        exact newHybridFormulaNode_raises x p p0 _ hf hhf
    · split at h
      · split at h
        · exact absurd h (by simp)
        · rename_i nhn p0 hnhn
          injection h with h; injection h with h1 h2
          subst h2
          exact newNamedGenusHybridNode_raises x p p0 _ nhn hnhn
      · split at h
        · split at h
          · exact absurd h (by simp)
          · rename_i nhl p0 hnhl
            injection h with h; injection h with h1 h2
            subst h2
            exact newNamedSpeciesHybridNode_raises x p p0 _ nhl hnhl
        · split at h
          · exact (newSingleName_raises x p p1 _ nm h).mono (by decide)
          · injection h with h; injection h with h1 h2
            subst h2
            exact Raises.refl p
  · exact absurd h (by simp)

theorem tailValue_raises (p p1 : Engine) (n : node32) (v : GoString)
    (h : p.tailValue n = some (v, p1)) : Raises [TailWarn] p p1 := by
  unfold Engine.tailValue at h
  split at h
  · exact absurd h (by simp)
  · split at h
    · injection h with h; injection h with h1 h2
      subst h2
      exact Raises.refl p
    · split at h
      · exact absurd h (by simp)
      · injection h with h; injection h with h1 h2
        subst h2
        exact Raises.one p _ (by decide)

theorem NewScientificNameNode_loop_raises (x : Ext) :
    ∀ (n : node32) (name name1 : Name) (tail tail1 : GoString) (p p1 : Engine),
      NewScientificNameNode.loop x n (name, tail, p) = some (name1, tail1, p1) →
      Raises liftWarns p p1 := by
  intro n
  induction n with
  | nil =>
    intro name name1 tail tail1 p p1 h
    simp only [NewScientificNameNode.loop, Option.some.injEq, Prod.mk.injEq] at h
    obtain ⟨_, _, h3⟩ := h
    subst h3
    exact Raises.refl p
  | mk t up next ihu ih =>
    clear ihu
    intro name name1 tail tail1 p p1 h
    unfold NewScientificNameNode.loop at h
    split at h
    · split at h
      · exact absurd h (by simp)
      · rename_i nm p0 hnm
        exact ((newName_raises x p p0 _ nm hnm).mono (by decide)).trans (ih _ _ _ _ _ _ h)
    · split at h
      · split at h
        · exact absurd h (by simp)
        · rename_i tl p0 htl
          exact ((tailValue_raises p p0 _ tl htl).mono (by decide)).trans (ih _ _ _ _ _ _ h)
      · exact ih _ _ _ _ _ _ h

/-- C20 as stated fails: in the NamedGenusHybrid node of ` × Aus` the HybridChar
token sits at offset 1, and `newNamedGenusHybridNode` raises HybridNamedWarn
only, not HybridCharNoSpaceWarn. -/
theorem newNamedGenusHybridNode_char_at_one_unwarned :
    ∃ nhn p1,
      exGenusHybridSpaced.up?.bind node32.token32? = some ⟨ruleHybridChar, 1, 2⟩ ∧
      (engineOf " × Aus").newNamedGenusHybridNode extExample exGenusHybridSpaced
        = some (nhn, p1) ∧
      p1.Warnings = [HybridNamedWarn] ∧ HybridCharNoSpaceWarn ∉ p1.Warnings := by
  refine ⟨_, _, rfl, rfl, rfl, by decide⟩

/-- C20, amended: for a NamedGenusHybrid node whose first child is a HybridChar
followed by a node with first child `t2`, a completed `newNamedGenusHybridNode`
has raised HybridNamedWarn, and HybridCharNoSpaceWarn is in the warning set
afterwards exactly when `t2` begins at offset 1 (the name follows a `×` at
offset 0 without a blank) or the warning was in the set before; a node whose
first child is not a HybridChar gives nil and no warning. -/
theorem newNamedGenusHybridNode_warns (x : Ext) (p p1 : Engine) (n : node32)
    (t t2 : token32) (up next up2 next2 : node32) (nhn : Option (namedGenusHybridNode Name))
    (hn : n.up? = some (node32.mk t up next))
    (hn2 : next.up? = some (node32.mk t2 up2 next2))
    (h : p.newNamedGenusHybridNode x n = some (nhn, p1)) :
    (t.pegRule = ruleHybridChar →
      HybridNamedWarn ∈ p1.Warnings ∧
      (HybridCharNoSpaceWarn ∈ p1.Warnings ↔
        t2.begin = 1 ∨ HybridCharNoSpaceWarn ∈ p.Warnings)) ∧
    (t.pegRule ≠ ruleHybridChar → nhn = none ∧ p1 = p) := by
  unfold Engine.newNamedGenusHybridNode at h
  rw [hn] at h
  simp only at h
  constructor
  · intro ht
    rw [if_neg (not_not.2 ht), hn2] at h
    split at h
    · rename_i hybr p0 t2a up2a next2a hh heq
      injection heq with heq; injection heq with e1 e2 e3
      subst e1; subst e2; subst e3
      have a := newWordNode_raises x p p0 _ _ hybr hh
      have hnamed : HybridNamedWarn ∈ (if t2.begin = 1 then
          (p0.addWarn HybridNamedWarn).addWarn HybridCharNoSpaceWarn
          else p0.addWarn HybridNamedWarn).Warnings := by
        split
        · exact mem_addWarn_of_mem _ _ _ (addWarn_mem _ _)
        · exact addWarn_mem _ _
      have hspace : HybridCharNoSpaceWarn ∈ (if t2.begin = 1 then
          (p0.addWarn HybridNamedWarn).addWarn HybridCharNoSpaceWarn
          else p0.addWarn HybridNamedWarn).Warnings ↔
          t2.begin = 1 ∨ HybridCharNoSpaceWarn ∈ p.Warnings := by
        have e0 := a.other HybridCharNoSpaceWarn (by decide)
        split
        · rename_i h1
          exact ⟨fun _ => Or.inl h1, fun _ => addWarn_mem _ _⟩
        · rename_i h1
          rw [mem_addWarn_iff, e0]
          constructor
          · intro hh
            rcases hh with hh | hh
            · exact absurd hh (by decide)
            · exact Or.inr hh
          · intro hh
            rcases hh with hh | hh
            · exact absurd hh h1
            · exact Or.inr hh
      split at h
      · split at h
        · exact absurd h (by simp)
        · rename_i u p4 hu
          injection h with h; injection h with h1 h2
          subst h2
          have b := newUninomialNode_raises x _ p4 _ u hu
          exact ⟨b.subset _ hnamed, (b.other _ (by decide)).trans hspace⟩
      · split at h
        · split at h
          · exact absurd h (by simp)
          · rename_i sp p4 hsp
            injection h with h; injection h with h1 h2
            subst h2
            have b := newSpeciesNode_raises x _ p4 _ sp hsp
            exact ⟨b.subset _ hnamed, (b.other _ (by decide)).trans hspace⟩
        · injection h with h; injection h with h1 h2
          subst h2
          exact ⟨hnamed, hspace⟩
    · rename_i hno
      exact absurd h (by simp)
  · intro ht
    rw [if_pos ht] at h
    injection h with h; injection h with h1 h2
    exact ⟨h1.symm, h2.symm⟩

/-- C20 (amended) at `×Aus`, where the name begins at offset 1: both warnings
are raised. -/
theorem newNamedGenusHybridNode_warns_witness :
    ∃ nhn p1,
      (engineOf "×Aus").newNamedGenusHybridNode extExample exGenusHybridTight = some (nhn, p1) ∧
      HybridNamedWarn ∈ p1.Warnings ∧ HybridCharNoSpaceWarn ∈ p1.Warnings := by
  refine ⟨_, _, rfl, ?_⟩
  have h := (newNamedGenusHybridNode_warns extExample (engineOf "×Aus") _ exGenusHybridTight
    ⟨ruleHybridChar, 0, 1⟩ ⟨ruleUninomial, 1, 4⟩ .nil
    (nd ruleSingleName 1 4 (nd ruleUninomial 1 4 (leaf ruleUninomialWord 1 4 .nil) .nil) .nil)
    (leaf ruleUninomialWord 1 4 .nil) .nil _ rfl rfl rfl).1 rfl
  exact ⟨h.1, h.2.2 (Or.inl rfl)⟩

/-- C16: when `NewScientificNameNode` completes on an engine whose warning set
`p.Warnings` has no repeated key, the loop over the children of the root has
changed the warning set by `addWarn` calls only, every warning of the set after
the loop occurs exactly once in `SN.Warnings` and no other warning occurs there,
and the engine's warning set is empty afterwards; `addWarn` of a warning that
is already in the set changes nothing. -/
theorem NewScientificNameNode_warnings (x : Ext) (p p1 : Engine) (hnd : p.Warnings.Nodup)
    (h : p.NewScientificNameNode x = some p1) :
    (∃ c name tail pl sn, p.root.up? = some c ∧
      NewScientificNameNode.loop x c (Name.nil, [], p) = some (name, tail, pl) ∧
      Raises liftWarns p pl ∧
      p1.SN = some sn ∧
      (∀ w, w ∈ pl.Warnings → sn.Warnings.count w = 1) ∧
      (∀ w, w ∉ pl.Warnings → sn.Warnings.count w = 0) ∧
      sn.Warnings.Nodup) ∧
    p1.Warnings = [] ∧
    (∀ (q : Engine) (w : Warning), w ∈ q.Warnings → q.addWarn w = q) := by
  unfold Engine.NewScientificNameNode at h
  split at h
  · exact absurd h (by simp)
  · rename_i c hc
    split at h
    · exact absurd h (by simp)
    · rename_i name tail pl hl
      injection h with h
      subst h
      have hr := NewScientificNameNode_loop_raises x c _ _ _ _ _ _ hl
      have hpl : pl.Warnings.Nodup := hr.nodup hnd
      have hperm := x.rangeWarnings_perm pl.Warnings
      have hsn : (x.rangeWarnings pl.Warnings).Nodup := hperm.nodup_iff.2 hpl
      refine ⟨⟨c, name, tail, pl, _, hc, hl, hr, rfl, ?_, ?_, hsn⟩, rfl,
        fun q w hw => addWarn_of_mem q w hw⟩
      · intro w hw
        exact List.count_eq_one_of_mem hsn ((hperm.mem_iff).2 hw)
      · intro w hw
        exact List.count_eq_zero_of_not_mem (fun hm => hw ((hperm.mem_iff).1 hm))

/-- C16 on `Aus (Bus) Linn`, which raises UninomialComboWarn. -/
theorem NewScientificNameNode_warnings_witness :
    ∃ p1, exComboEngine.NewScientificNameNode extExample = some p1 ∧
      (p1.SN.map (fun sn => sn.Warnings)) = some [UninomialComboWarn] ∧
      ((∃ c name tail pl sn, exComboEngine.root.up? = some c ∧
        NewScientificNameNode.loop extExample c (Name.nil, [], exComboEngine)
          = some (name, tail, pl) ∧
        Raises liftWarns exComboEngine pl ∧
        p1.SN = some sn ∧
        (∀ w, w ∈ pl.Warnings → sn.Warnings.count w = 1) ∧
        (∀ w, w ∉ pl.Warnings → sn.Warnings.count w = 0) ∧
        sn.Warnings.Nodup) ∧
      p1.Warnings = [] ∧
      (∀ (q : Engine) (w : Warning), w ∈ q.Warnings → q.addWarn w = q)) := by
  refine ⟨_, rfl, rfl, ?_⟩
  exact NewScientificNameNode_warnings extExample exComboEngine _ List.nodup_nil rfl

theorem NewScientificNameNode_SN (x : Ext) (p p1 : Engine)
    (h : p.NewScientificNameNode x = some p1) : p1.SN.isSome = true := by
  unfold Engine.NewScientificNameNode at h
  split at h
  · exact absurd h (by simp)
  · split at h
    · exact absurd h (by simp)
    · injection h with h
      subst h
      rfl

theorem buildSN_SN (x : Ext) (r : Engine × Bool) (p3 : Engine)
    (h : GNparser.buildSN x r = some p3) : p3.SN.isSome = true := by
  unfold GNparser.buildSN at h
  split at h
  · injection h with h
    subst h
    rfl
  · split at h
    · exact absurd h (by simp)
    · exact NewScientificNameNode_SN x _ _ h

theorem Parse_isSome (x : Ext) (g : Peg) (gnp : GNparser) (s : GoString) :
    (gnp.Parse x g s).isSome = (GNparser.buildSN x (gnp.grammarParse g s)).isSome := by
  unfold GNparser.Parse
  split
  · rename_i h
    rw [h]
    rfl
  · rename_i p3 h
    have h3 := buildSN_SN x _ p3 h
    rw [h]
    split
    · rename_i hn
      rw [hn] at h3
      exact absurd h3 (by simp)
    · rfl

/-- C14: whatever the prior state of the parser and whatever the grammar does,
a completed `Parse(s)` leaves a result whose Verbatim is `s` itself and whose
VerbatimID is `UUID5(s)`; `Parse` completes whenever the grammar rejects the
input, and when the grammar accepts it `Parse` completes exactly when
`OutputAST` and `NewScientificNameNode` do. -/
theorem Parse_verbatim (x : Ext) (g : Peg) (gnp : GNparser) (s : GoString) :
    (∀ gnp1, gnp.Parse x g s = some gnp1 →
      gnp1.nameString = s ∧
      ∃ sn, gnp1.parser.SN = some sn ∧ sn.Verbatim = s ∧ sn.VerbatimID = x.UUID5 s) ∧
    ((gnp.grammarParse g s).2 = true → (gnp.Parse x g s).isSome = true) ∧
    ((gnp.grammarParse g s).2 = false →
      (gnp.Parse x g s).isSome =
        ((gnp.grammarParse g s).1.OutputAST.bind (fun p2 => p2.NewScientificNameNode x)).isSome)
    := by
  refine ⟨?_, ?_, ?_⟩
  · intro gnp1 h
    unfold GNparser.Parse at h
    split at h
    · exact absurd h (by simp)
    · split at h
      · exact absurd h (by simp)
      · injection h with h
        subst h
        exact ⟨rfl, _, rfl, rfl, rfl⟩
  · intro herr
    rw [Parse_isSome]
    unfold GNparser.buildSN
    rw [if_pos herr]
    rfl
  · intro hok
    rw [Parse_isSome]
    unfold GNparser.buildSN
    rw [if_neg (by rw [hok]; simp)]
    cases (gnp.grammarParse g s).1.OutputAST <;> rfl

/-- C14 on `Aus (Bus) Linn`, once with a grammar that accepts it and once with a
grammar that rejects it. -/
theorem Parse_verbatim_witness :
    (∃ gnp1, exGNparser.Parse extExample pegCombo (goStr "Aus (Bus) Linn") = some gnp1 ∧
      gnp1.nameString = goStr "Aus (Bus) Linn" ∧
      ∃ sn, gnp1.parser.SN = some sn ∧ sn.Verbatim = goStr "Aus (Bus) Linn" ∧
        sn.VerbatimID = extExample.UUID5 (goStr "Aus (Bus) Linn")) ∧
    (exGNparser.Parse extExample pegRejecting (goStr "Aus (Bus) Linn")).isSome = true := by
  refine ⟨⟨_, rfl, ?_⟩, ?_⟩
  · exact (Parse_verbatim extExample pegCombo exGNparser (goStr "Aus (Bus) Linn")).1 _ rfl
  · exact (Parse_verbatim extExample pegRejecting exGNparser (goStr "Aus (Bus) Linn")).2.1 rfl

/-- C15: when the grammar returns an error, `Parse(s)` completes and `SN` is a
node with nil Name, empty Tail and no warnings, holding only Verbatim `s` and
VerbatimID `UUID5(s)`. -/
theorem Parse_grammar_error (x : Ext) (g : Peg) (gnp : GNparser) (s : GoString)
    (herr : (gnp.grammarParse g s).2 = true) :
    ∃ gnp1, gnp.Parse x g s = some gnp1 ∧
      gnp1.parser.SN = some { Verbatim := s, VerbatimID := x.UUID5 s, Name := Name.nil,
                              Tail := [], Warnings := [] } := by
  unfold GNparser.Parse GNparser.buildSN
  rw [if_pos herr]
  exact ⟨_, rfl, rfl⟩

/-- C15 on `Aus (Bus) Linn` with a grammar that rejects it, from an engine that
holds a warning of an earlier name. -/
theorem Parse_grammar_error_witness :
    exGNparser.parser.Warnings = [TailWarn] ∧
    ∃ gnp1, exGNparser.Parse extExample pegRejecting (goStr "Aus (Bus) Linn") = some gnp1 ∧
      gnp1.parser.SN = some { Verbatim := goStr "Aus (Bus) Linn",
                              VerbatimID := extExample.UUID5 (goStr "Aus (Bus) Linn"),
                              Name := Name.nil, Tail := [], Warnings := [] } :=
  ⟨rfl, Parse_grammar_error extExample pegRejecting exGNparser (goStr "Aus (Bus) Linn") rfl⟩

theorem lookup_getD_mem {α β : Type} [BEq α] (l : List (α × β)) (k : α) (d : β) :
    (l.lookup k).getD d ∈ d :: l.map Prod.snd := by
  induction l with
  | nil => simp [List.lookup]
  | cons e l ih =>
    obtain ⟨a, b⟩ := e
    simp only [List.lookup]
    split
    · simp
    · simp only [List.map_cons, List.mem_cons] at ih ⊢
      rcases ih with ih | ih
      · exact Or.inl ih
      · exact Or.inr (Or.inr ih)

/-- C18: for every value of the type, `MarshalJSON` returns a string of the
closed set between two double quotes, and for each of the six defined constants
`UnmarshalJSON` of the marshalled bytes returns that constant with a nil
error. -/
theorem annot_marshal_roundtrip :
    (∀ a : Annotation, ∃ s,
      s ∈ [goStr "", goStr "Comparison", goStr "Approx. surrogate", goStr "Surrogate",
           goStr "Named hybrid", goStr "Hybrid formula"] ∧
      a.MarshalJSON = [quote] ++ s ++ [quote]) ∧
    (∀ a, a ∈ [NoAnnot, ComparisonAnnot, ApproxSurrogateAnnot, SurrogateAnnot,
               NamedHybridAnnot, HybridFormulaAnnot] →
      Annotation.UnmarshalJSON a.MarshalJSON = (a, none)) := by
  constructor
  · intro a
    refine ⟨a.String, ?_, rfl⟩
    have h := lookup_getD_mem annotMap a []
    have hs : ∀ s ∈ ([] : GoString) :: annotMap.map Prod.snd,
        s ∈ [goStr "", goStr "Comparison", goStr "Approx. surrogate", goStr "Surrogate",
             goStr "Named hybrid", goStr "Hybrid formula"] := by decide
    exact hs _ h
  · decide

theorem lookup_none_iff {α β : Type} [BEq α] [LawfulBEq α] (l : List (α × β)) (k : α) :
    l.lookup k = none ↔ k ∉ l.map Prod.fst := by
  induction l with
  | nil => simp [List.lookup]
  | cons e l ih =>
    obtain ⟨a, b⟩ := e
    simp only [List.lookup, List.map_cons, List.mem_cons, not_or]
    by_cases h : k = a
    · subst h
      simp
    · have hb : (k == a) = false := beq_false_of_ne h
      rw [hb]
      simp only [ih]
      exact ⟨fun h1 => ⟨h, h1⟩, fun h1 => h1.2⟩

theorem lookup_some_mem {α β : Type} [BEq α] [LawfulBEq α] (l : List (α × β)) (k : α) (v : β)
    (h : l.lookup k = some v) : (k, v) ∈ l := by
  induction l with
  | nil => simp [List.lookup] at h
  | cons e l ih =>
    obtain ⟨a, b⟩ := e
    simp only [List.lookup] at h
    by_cases hk : k = a
    · subst hk
      simp only [beq_self_eq_true, Option.some.injEq] at h
      subst h
      exact List.mem_cons_self _ _
    · have hb : (k == a) = false := beq_false_of_ne hk
      rw [hb] at h
      exact List.mem_cons_of_mem _ (ih h)

/-- C26: `UnmarshalJSON` returns an error exactly when the bytes without their
leading and trailing double quotes are not one of the six strings of
`annotMap`; on an error the receiver becomes NoAnnot, and without an error it
is one of the six constants, the one whose `String()` is the trimmed text. -/
theorem annot_unmarshal_error (bs : GoString) :
    (( Annotation.UnmarshalJSON bs).2 ≠ none ↔
      Trim bs quote ∉ [goStr "", goStr "Comparison", goStr "Approx. surrogate",
        goStr "Surrogate", goStr "Named hybrid", goStr "Hybrid formula"]) ∧
    (( Annotation.UnmarshalJSON bs).2 ≠ none → ( Annotation.UnmarshalJSON bs).1 = NoAnnot) ∧
    (( Annotation.UnmarshalJSON bs).2 = none →
      ( Annotation.UnmarshalJSON bs).1.String = Trim bs quote ∧
      ( Annotation.UnmarshalJSON bs).1 ∈ [NoAnnot, ComparisonAnnot, ApproxSurrogateAnnot,
        SurrogateAnnot, NamedHybridAnnot, HybridFormulaAnnot]) := by
  have hkeys : annotStrMap.map Prod.fst = [goStr "", goStr "Comparison",
      goStr "Approx. surrogate", goStr "Surrogate", goStr "Named hybrid",
      goStr "Hybrid formula"] := by decide
  have hall : ∀ e ∈ annotStrMap, e.2.String = e.1 ∧
      e.2 ∈ [NoAnnot, ComparisonAnnot, ApproxSurrogateAnnot, SurrogateAnnot,
        NamedHybridAnnot, HybridFormulaAnnot] := by decide
  simp only [ Annotation.UnmarshalJSON]
  cases h : annotStrMap.lookup (Trim bs quote) with
  | none =>
    have hn := (lookup_none_iff _ _).1 h
    rw [hkeys] at hn
    refine ⟨⟨fun _ => hn, fun _ => by simp⟩, fun _ => rfl, fun hc => absurd hc (by simp)⟩
  | some a =>
    have hm := lookup_some_mem _ _ _ h
    have hk : Trim bs quote ∈ annotStrMap.map Prod.fst :=
      List.mem_map.2 ⟨_, hm, rfl⟩
    rw [hkeys] at hk
    refine ⟨⟨fun hc => absurd rfl hc, fun hc => absurd hk hc⟩, fun hc => absurd rfl hc,
      fun _ => hall _ hm⟩

/-- C26 on unquoted input, on input with repeated quotes and on a string that
is no annotation. -/
theorem annot_unmarshal_examples :
    Annotation.UnmarshalJSON (goStr "Comparison") = (ComparisonAnnot, none) ∧
    Annotation.UnmarshalJSON ([quote, quote] ++ goStr "Surrogate" ++ [quote])
      = (SurrogateAnnot, none) ∧
    Annotation.UnmarshalJSON ([quote] ++ goStr "comparison" ++ [quote])
      = (NoAnnot, some (goStr "cannot decode Annotation")) := by
  decide

/-- C26 at the unquoted text `Comparison`, which decodes, and at the quoted
text `comparison`, which is an error and gives NoAnnot. -/
theorem annot_unmarshal_error_witness :
    (( Annotation.UnmarshalJSON (goStr "Comparison")).1.String
        = Trim (goStr "Comparison") quote ∧
      ( Annotation.UnmarshalJSON (goStr "Comparison")).1 ∈ [NoAnnot, ComparisonAnnot,
        ApproxSurrogateAnnot, SurrogateAnnot, NamedHybridAnnot, HybridFormulaAnnot]) ∧
    ( Annotation.UnmarshalJSON ([quote] ++ goStr "comparison" ++ [quote])).1 = NoAnnot :=
  ⟨(annot_unmarshal_error (goStr "Comparison")).2.2 (by decide),
   (annot_unmarshal_error ([quote] ++ goStr "comparison" ++ [quote])).2.1 (by decide)⟩

/-- C21: for a NamedSpeciesHybrid node with the children genus, hybrid
character `ht` and species epithet, whose word node has the token `wt`, a
completed `newNamedSpeciesHybridNode` has raised HybridNamedWarn, and
HybridCharNoSpaceWarn is in the warning set afterwards exactly when the epithet
word begins at the offset where the hybrid character ends, or the warning was
in the set before; these two offsets are `Hybrid.Pos.End` and
`SpEpithet.Word.Pos.Start`. -/
theorem newNamedSpeciesHybridNode_warns (x : Ext) (p p1 : Engine) (n : node32)
    (gt ht wt : token32) (gup hup spNode wup wnext : node32) (nhl : namedSpeciesHybridNode)
    (hn : n.up? = some (node32.mk gt gup (node32.mk ht hup spNode)))
    (hsp : spNode.up? = some (node32.mk wt wup wnext))
    (h : p.newNamedSpeciesHybridNode x n = some (nhl, p1)) :
    HybridNamedWarn ∈ p1.Warnings ∧
    (HybridCharNoSpaceWarn ∈ p1.Warnings ↔
      wt.begin = ht.end_ ∨ HybridCharNoSpaceWarn ∈ p.Warnings) ∧
    ∃ hy sp spw, nhl.Hybrid = some hy ∧ nhl.SpEpithet = some sp ∧ sp.Word = some spw ∧
      hy.Pos.End = ht.end_ ∧ spw.Pos.Start = wt.begin := by
  unfold Engine.newNamedSpeciesHybridNode at h
  rw [hn] at h
  simp only at h
  split at h
  · exact absurd h (by simp)
  · rename_i gen p0 hgen
    have a := newWordNode_raises x p p0 _ _ gen hgen
    split at h
    · exact absurd h (by simp)
    · rename_i hy p2 hhy
      have b := newWordNode_raises x p0 p2 _ _ hy hhy
      obtain ⟨t', up', next', e1, _, _, _, hpos, _⟩ := newWordNode_some x p0 p2 _ _ hy hhy
      injection e1 with e1 e2 e3
      subst e1
      split at h
      · exact absurd h (by simp)
      · rename_i sp p3 hspe
        have c := newSpeciesEpithetNode_raises x p2 p3 _ sp hspe
        have hword : ∃ spw, sp.Word = some spw ∧ spw.Pos.Start = wt.begin := by
          unfold Engine.newSpeciesEpithetNode at hspe
          rw [hsp] at hspe
          simp only at hspe
          split at hspe
          · rename_i se p4 an hse han
            obtain ⟨t'', up'', next'', f1, _, _, _, fpos, _⟩ :=
              newWordNode_some x p2 p4 _ _ se hse
            injection f1 with f1 f2 f3
            subst f1
            split at hspe
            · injection hspe with hspe; injection hspe with g1 g2
              subst g1
              exact ⟨se, rfl, by rw [fpos]⟩
            · split at hspe
              · exact absurd hspe (by simp)
              · injection hspe with hspe; injection hspe with g1 g2
                subst g1
                exact ⟨se, rfl, by rw [fpos]⟩
          · exact absurd hspe (by simp)
        obtain ⟨spw, hw1, hw2⟩ := hword
        rw [hw1] at h
        simp only at h
        injection h with h; injection h with h1 h2
        subst h1; subst h2
        have hbefore : HybridCharNoSpaceWarn ∈ p3.Warnings ↔
            HybridCharNoSpaceWarn ∈ p.Warnings :=
          ((c.other _ (by decide)).trans (b.other _ (by decide))).trans (a.other _ (by decide))
        have hcond : hy.Pos.End = spw.Pos.Start ↔ wt.begin = ht.end_ := by
          rw [hpos, hw2]
          simp only
          constructor
          · intro e
            exact (Int.ofNat.inj e).symm
          · intro e
            rw [e]
        refine ⟨?_, ?_, hy, sp, spw, rfl, rfl, hw1, by rw [hpos], hw2⟩
        · split
          · exact mem_addWarn_of_mem _ _ _ (addWarn_mem _ _)
          · exact addWarn_mem _ _
        · split
          · rename_i hc
            exact ⟨fun _ => Or.inl (hcond.1 hc), fun _ => addWarn_mem _ _⟩
          · rename_i hc
            rw [mem_addWarn_iff, hbefore]
            constructor
            · intro hh
              rcases hh with hh | hh
              · exact absurd hh (by decide)
              · exact Or.inr hh
            · intro hh
              rcases hh with hh | hh
              · exact absurd (hcond.2 hh) hc
              · exact Or.inr hh

/-- C21 at `Aus ×bus`, where the epithet begins where the hybrid character
ends: both warnings are raised. -/
theorem newNamedSpeciesHybridNode_warns_witness :
    ∃ nhl p1,
      (engineOf "Aus ×bus").newNamedSpeciesHybridNode extExample exSpeciesHybridTight
        = some (nhl, p1) ∧
      HybridNamedWarn ∈ p1.Warnings ∧ HybridCharNoSpaceWarn ∈ p1.Warnings := by
  refine ⟨_, _, rfl, ?_⟩
  have h := newNamedSpeciesHybridNode_warns extExample (engineOf "Aus ×bus") _
    exSpeciesHybridTight ⟨ruleGenusWord, 0, 3⟩ ⟨ruleHybridChar, 4, 5⟩ ⟨ruleWord, 5, 8⟩ .nil .nil
    (nd ruleSpeciesEpithet 5 8 (leaf ruleWord 5 8 .nil) .nil) .nil .nil _ rfl rfl rfl
  exact ⟨h.1, h.2.1.2 (Or.inl rfl)⟩

theorem intercalate_cons_cons (sep a b : GoString) (rest : List GoString) :
    sep.intercalate (a :: b :: rest) = a ++ sep ++ sep.intercalate (b :: rest) := by
  simp [List.intercalate, List.intersperse]

theorem intercalate_single (sep a : GoString) : sep.intercalate [a] = a := by
  simp [List.intercalate, List.intersperse]

theorem joinNonEmpty_nil_cons (sep : GoString) (parts : List GoString) :
    joinNonEmpty sep ([] :: parts) = joinNonEmpty sep parts := by
  simp [joinNonEmpty]

theorem joinNonEmpty_JoinStrings (sep a b : GoString) (parts : List GoString) :
    joinNonEmpty sep (JoinStrings a b sep :: parts) = joinNonEmpty sep (a :: b :: parts) := by
  unfold JoinStrings
  by_cases hb : b = []
  · subst hb
    simp [joinNonEmpty, List.filter_cons]
  · by_cases ha : a = []
    · subst ha
      simp [joinNonEmpty, hb]
    · have hab : a ++ sep ++ b ≠ [] := by
        intro h
        have := List.append_eq_nil.1 h
        exact hb this.2
      simp only [if_neg hb, if_neg ha]
      unfold joinNonEmpty
      simp only [List.filter_cons, ne_eq, hab, ha, hb, not_false_eq_true, decide_True, if_true]
      cases hr : parts.filter (fun s => decide (¬ s = [])) with
      | nil =>
        rw [intercalate_single, intercalate_cons_cons, intercalate_single]
      | cons c rest =>
        rw [intercalate_cons_cons, intercalate_cons_cons, intercalate_cons_cons]
        simp [List.append_assoc]

theorem foldl_JoinStrings (sep : GoString) :
    ∀ (parts : List GoString) (acc : GoString),
      parts.foldl (fun a b => JoinStrings a b sep) acc = joinNonEmpty sep (acc :: parts) := by
  intro parts
  induction parts with
  | nil =>
    intro acc
    by_cases h : acc = []
    · subst h
      simp [joinNonEmpty, List.intercalate]
    · simp [joinNonEmpty, h, List.intercalate, List.intersperse]
  | cons b parts ih =>
    intro acc
    rw [List.foldl_cons, ih, joinNonEmpty_JoinStrings]

theorem authorWord_some (x : Ext) (p p1 : Engine) (n : node32) (w : wordNode)
    (h : p.authorWord x n = some (w, p1)) :
    ∃ t up next, n = node32.mk t up next ∧
      w.Value = runeSlice p.Buffer t.begin t.end_ ∧ w.Pos.Start = t.begin ∧
      w.Pos.End = t.end_ := by
  unfold Engine.authorWord at h
  split at h
  · exact absurd h (by simp)
  · rename_i w0 p0 h0
    obtain ⟨t, up, next, e1, _, _, hv, hpos, _⟩ := newWordNode_some x p p0 n _ w0 h0
    refine ⟨t, up, next, e1, ?_⟩
    split at h
    · split at h
      · split at h
        · simp only at h
          split at h
          · injection h with h; injection h with h1 h2
            subst h1
            exact ⟨hv, by rw [hpos], by rw [hpos]⟩
          · exact absurd h (by simp)
        · injection h with h; injection h with h1 h2
          subst h1
          exact ⟨hv, by rw [hpos], by rw [hpos]⟩
      · injection h with h; injection h with h1 h2
        subst h1
        exact ⟨hv, by rw [hpos], by rw [hpos]⟩
    · injection h with h; injection h with h1 h2
      subst h1
      exact ⟨hv, by rw [hpos], by rw [hpos]⟩

theorem newAuthorNode_loop_words (x : Ext) (buf : GoString) :
    ∀ (n : node32) (ws ws1 : List wordNode) (val val1 : GoString) (p p1 : Engine),
      p.Buffer = buf →
      newAuthorNode.loop x n (ws, val, p) = some (ws1, val1, p1) →
      ∃ words, ws1 = ws ++ words ∧ List.Forall₂ (authorWordOf x buf) n.siblings words ∧
        val1 = words.foldl (fun a w => JoinStrings a w.NormValue (goStr " ")) val := by
  intro n
  induction n with
  | nil =>
    intro ws ws1 val val1 p p1 _ h
    simp only [newAuthorNode.loop, Option.some.injEq, Prod.mk.injEq] at h
    obtain ⟨h1, h2, _⟩ := h
    subst h1; subst h2
    exact ⟨[], by simp, by simp [node32.siblings], rfl⟩
  | mk t up next ihu ih =>
    clear ihu
    intro ws ws1 val val1 p p1 hb h
    unfold newAuthorNode.loop at h
    simp only at h
    split at h
    · exact absurd h (by simp)
    · rename_i w p0 hr
      have hw : authorWordOf x buf (node32.mk t up next) w ∧ p0.Buffer = buf := by
        split at hr
        · rename_i hfil
          split at hr
          · exact absurd hr (by simp)
          · rename_i w0 p00 h0
            injection hr with hr; injection hr with h1 h2
            subst h1; subst h2
            obtain ⟨t', up', next', e1, _, _, hv, hpos, _⟩ :=
              newWordNode_some x p p00 _ _ w0 h0
            injection e1 with e1 e2 e3
            subst e1
            refine ⟨⟨t, up, next, rfl, by rw [← hb]; exact hv, by simp only [hpos],
              by simp only [hpos], fun _ => ⟨rfl, by simp only [hpos]⟩,
              fun hne => absurd hfil hne⟩, ?_⟩
            rw [(newWordNode_raises x p p00 _ _ w0 h0).Buffer, hb]
        · rename_i hfil
          obtain ⟨t', up', next', e1, hv, hs, he⟩ := authorWord_some x p p0 _ w hr
          injection e1 with e1 e2 e3
          subst e1
          refine ⟨⟨t, up, next, rfl, by rw [← hb]; exact hv, hs, he,
            fun hf => absurd hf hfil, fun _ => ⟨p, p0, hb, hr⟩⟩, ?_⟩
          rw [(authorWord_raises x p p0 _ w hr).Buffer, hb]
      obtain ⟨words, e1, e2, e3⟩ := ih _ _ _ _ _ _ hw.2 h
      refine ⟨w :: words, ?_, ?_, ?_⟩
      · rw [e1]; simp
      · simp only [node32.siblings]
        exact List.Forall₂.cons hw.1 e2
      · rw [e3]; rfl

/-- C22: for an Author node with the children `c`, a completed `newAuthorNode`
returns one word for each child, in the order of the children (each word has
the span and the rune slice of its child; a Filius word has NormValue `fil.`
and that slice as Value, every other word is the result of `authorWord`), and
Value is `JoinStrings` folded from the left over the NormValues of the words,
which is the non-empty NormValues with one blank between every two of them. -/
theorem newAuthorNode_value (x : Ext) (p p1 : Engine) (n c : node32) (a : authorNode)
    (hn : n.up? = some c) (h : p.newAuthorNode x n = some (a, p1)) :
    List.Forall₂ (authorWordOf x p.Buffer) c.siblings a.Words ∧
    a.Value = a.Words.foldl (fun v w => JoinStrings v w.NormValue (goStr " ")) [] ∧
    a.Value = joinNonEmpty (goStr " ") (a.Words.map (fun w => w.NormValue)) := by
  unfold Engine.newAuthorNode at h
  rw [hn] at h
  simp only at h
  split at h
  · exact absurd h (by simp)
  · rename_i ws val p0 hl
    obtain ⟨words, e1, e2, e3⟩ := newAuthorNode_loop_words x p.Buffer c _ _ _ _ _ _ rfl hl
    simp only [List.nil_append] at e1
    subst e1
    injection h with h; injection h with h1 h2
    subst h1
    refine ⟨e2, e3, ?_⟩
    simp only
    rw [e3]
    have hf : ∀ (l : List wordNode) (acc : GoString),
        l.foldl (fun v w => JoinStrings v w.NormValue (goStr " ")) acc
          = (l.map (fun w => w.NormValue)).foldl (fun a b => JoinStrings a b (goStr " ")) acc := by
      intro l
      induction l with
      | nil => intro acc; rfl
      | cons w l ihl => intro acc; simp only [List.foldl_cons, List.map_cons, ihl]
    rw [hf, foldl_JoinStrings, joinNonEmpty_nil_cons]

/-- C22 at the author `Linn f.`: the words are `Linn` and `f.`, the second with
NormValue `fil.`, and Value is `Linn fil.`. -/
theorem newAuthorNode_value_witness :
    ∃ a p1, (engineOf "Aus bus Linn f.").newAuthorNode extExample exAuthorFilius = some (a, p1) ∧
      a.Words = [exWord "Linn" AuthorWordType 8 12,
        { exWord "f." AuthorWordFiliusType 13 15 with NormValue := goStr "fil." }] ∧
      a.Value = goStr "Linn fil." ∧
      List.Forall₂ (authorWordOf extExample (engineOf "Aus bus Linn f.").Buffer)
        (leaf ruleAuthorWord 8 12 (leaf ruleFilius 13 15 .nil)).siblings a.Words ∧
      a.Value = a.Words.foldl (fun v w => JoinStrings v w.NormValue (goStr " ")) [] ∧
      a.Value = joinNonEmpty (goStr " ") (a.Words.map (fun w => w.NormValue)) := by
  refine ⟨_, _, rfl, by decide, by decide, ?_⟩
  exact newAuthorNode_value extExample (engineOf "Aus bus Linn f.") _ exAuthorFilius
    (leaf ruleAuthorWord 8 12 (leaf ruleFilius 13 15 .nil)) _ rfl rfl

/-- C23: after a completed `newAuthorNode`, AuthShortWarn is in the warning set
exactly when the byte length of the returned Value, the joined NormValues of
the words, is less than 2, or the warning was in the set before. -/
theorem newAuthorNode_short (x : Ext) (p p1 : Engine) (n : node32) (a : authorNode)
    (h : p.newAuthorNode x n = some (a, p1)) :
    (AuthShortWarn ∈ p1.Warnings ↔ len a.Value < 2 ∨ AuthShortWarn ∈ p.Warnings) ∧
    a.Value = a.Words.foldl (fun v w => JoinStrings v w.NormValue (goStr " ")) [] := by
  unfold Engine.newAuthorNode at h
  split at h
  · exact absurd h (by simp)
  · rename_i c hc
    split at h
    · exact absurd h (by simp)
    · rename_i ws val p0 hl
      have hr := newAuthorNode_loop_raises x _ _ _ _ _ _ _ hl
      obtain ⟨words, e1, _, e3⟩ := newAuthorNode_loop_words x p.Buffer c _ _ _ _ _ _ rfl hl
      simp only [List.nil_append] at e1
      subst e1
      have hbefore := hr.other AuthShortWarn (by decide)
      injection h with h; injection h with h1 h2
      subst h1; subst h2
      refine ⟨?_, e3⟩
      simp only
      split
      · rename_i hlen
        exact ⟨fun _ => Or.inl hlen, fun _ => addWarn_mem _ _⟩
      · rename_i hlen
        rw [hbefore]
        exact ⟨fun hh => Or.inr hh, fun hh => hh.elim (fun e => absurd e hlen) id⟩

/-- C23 at the author `L` of `Aus bus L`, whose value has one byte, and at the
author `Linn f.`, whose value `Linn fil.` has nine. -/
theorem newAuthorNode_short_witness :
    (∃ a p1, (engineOf "Aus bus L").newAuthorNode extExample exAuthorShort = some (a, p1) ∧
      len a.Value = 1 ∧ AuthShortWarn ∈ p1.Warnings) ∧
    (∃ a p1, (engineOf "Aus bus Linn f.").newAuthorNode extExample exAuthorFilius
        = some (a, p1) ∧
      len a.Value = 9 ∧ AuthShortWarn ∉ p1.Warnings) := by
  refine ⟨⟨_, _, rfl, by decide, ?_⟩, ⟨_, _, rfl, by decide, ?_⟩⟩
  · exact (newAuthorNode_short extExample (engineOf "Aus bus L") _ exAuthorShort _ rfl).1.2
      (Or.inl (by decide))
  · intro hw
    have h := (newAuthorNode_short extExample (engineOf "Aus bus Linn f.") _ exAuthorFilius _
      rfl).1.1 hw
    revert h
    decide

theorem OutputAST.loop_append :
    ∀ (ts rest : List token32) (stack : List node32) (p : Engine),
      OutputAST.loop (ts ++ rest) (stack, p)
        = (OutputAST.loop ts (stack, p)).bind (OutputAST.loop rest) := by
  intro ts
  induction ts with
  | nil => intro rest stack p; rfl
  | cons t ts ih =>
    intro rest stack p
    by_cases hr : nodeRules t.pegRule = true
    · simp only [List.cons_append, OutputAST.loop, Engine.newNode, hr, if_true]
      cases hp : OutputAST.pop t (node32.mk t node32.nil node32.nil) stack with
      | none => rfl
      | some r =>
        obtain ⟨node1, stack1⟩ := r
        exact ih rest _ p
    · simp only [Bool.not_eq_true] at hr
      simp only [List.cons_append, OutputAST.loop, Engine.newNode, hr]
      exact ih rest _ _

theorem OutputAST.loop_skip :
    ∀ (ts : List token32) (stack : List node32) (p : Engine),
      (∀ t ∈ ts, nodeRules t.pegRule = false) →
      ∃ p1, OutputAST.loop ts (stack, p) = some (stack, p1) := by
  intro ts
  induction ts with
  | nil => intro stack p _; exact ⟨p, rfl⟩
  | cons t ts ih =>
    intro stack p h
    have hr := h t (List.mem_cons_self _ _)
    obtain ⟨p1, h1⟩ := ih stack
      (if t.pegRule = ruleMultipleSpace then p.addWarn SpaceMultipleWarn else p)
      (fun u hu => h u (List.mem_cons_of_mem _ hu))
    refine ⟨p1, ?_⟩
    simp only [OutputAST.loop, Engine.newNode, hr]
    exact h1

theorem OutputAST.pop_all (token : token32) :
    ∀ (stack : List node32) (nt : token32) (nup nnext : node32),
      (∀ s ∈ stack, ∃ st sup snext, s = node32.mk st sup snext ∧
        token.begin ≤ st.begin ∧ st.end_ ≤ token.end_) →
      ∃ nup1, OutputAST.pop token (node32.mk nt nup nnext) stack
        = some (node32.mk nt nup1 nnext, []) := by
  intro stack
  induction stack with
  | nil => intro nt nup nnext _; exact ⟨nup, rfl⟩
  | cons s down ih =>
    intro nt nup nnext hs
    obtain ⟨st, sup, snext, e, h1, h2⟩ := hs s (List.mem_cons_self _ _)
    subst e
    obtain ⟨nup1, hp⟩ := ih nt (node32.mk st sup nup) nnext
      (fun u hu => hs u (List.mem_cons_of_mem _ hu))
    refine ⟨nup1, ?_⟩
    have hw : (decide (st.begin ≥ token.begin) && decide (st.end_ ≤ token.end_)) = true := by
      simp [h1, h2]
    simp only [OutputAST.pop, stackNodeIsWithin, hw]
    exact hp

theorem token_mem_stackPostorder :
    ∀ (stack : List node32) (st : token32) (sup snext : node32),
      node32.mk st sup snext ∈ stack → st ∈ stackPostorder stack := by
  intro stack
  induction stack with
  | nil => intro st sup snext h; exact absurd h (List.not_mem_nil _)
  | cons s down ih =>
    intro st sup snext h
    simp only [stackPostorder, List.mem_append]
    rcases List.mem_cons.1 h with h | h
    · right
      rw [← h]
      simp [node32.postorder]
    · exact Or.inl (ih st sup snext h)

/-- C24: when the tokens are `pre`, then a token `last` with a rule in
`nodeRules`, then tokens `post` with no rule in `nodeRules`, and the span of
`last` contains the span of every token of `pre` with a rule in `nodeRules`,
`OutputAST` completes with exactly one tree on its stack, the node of `last`,
and sets `p.root` to it. -/
theorem OutputAST_single_root (p : Engine) (pre post : List token32) (last : token32)
    (hT : p.Tokens = pre ++ last :: post)
    (hlast : nodeRules last.pegRule = true)
    (hpost : ∀ t ∈ post, nodeRules t.pegRule = false)
    (hspan : ∀ t ∈ pre, nodeRules t.pegRule = true →
      last.begin ≤ t.begin ∧ t.end_ ≤ last.end_) :
    ∃ up p1 p2, OutputAST.loop p.Tokens ([], p) = some ([node32.mk last up node32.nil], p1) ∧
      p.OutputAST = some p2 ∧ p2.root = node32.mk last up node32.nil ∧
      p2.root.postorder = nodeTokens p.Tokens := by
  obtain ⟨stack0, p0, h0, hnil, hpo⟩ := OutputAST.loop_spec pre [] p (by simp)
  have hin : ∀ s ∈ stack0, ∃ st sup snext, s = node32.mk st sup snext ∧
      last.begin ≤ st.begin ∧ st.end_ ≤ last.end_ := by
    intro s hs
    cases s with
    | nil => exact absurd rfl (hnil _ hs)
    | mk st sup snext =>
      have hm := token_mem_stackPostorder stack0 st sup snext hs
      rw [hpo] at hm
      simp only [stackPostorder, List.nil_append, nodeTokens, List.mem_filter] at hm
      exact ⟨st, sup, snext, rfl, hspan st hm.1 hm.2⟩
  obtain ⟨up, hpop⟩ := OutputAST.pop_all last stack0 last node32.nil node32.nil hin
  obtain ⟨p1, hskip⟩ := OutputAST.loop_skip post [node32.mk last up node32.nil] p0 hpost
  have hloop : OutputAST.loop p.Tokens ([], p)
      = some ([node32.mk last up node32.nil], p1) := by
    rw [hT, OutputAST.loop_append, h0]
    simp only [Option.bind, OutputAST.loop, Engine.newNode, hlast, if_true, hpop]
    exact hskip
  obtain ⟨stack, q1, g1, _, g3⟩ := OutputAST.loop_spec p.Tokens [] p (by simp)
  rw [hloop] at g1
  injection g1 with g1; injection g1 with g1 g2
  subst g1
  refine ⟨up, p1, { p1 with root := node32.mk last up node32.nil }, hloop, ?_, rfl, ?_⟩
  · simp only [Engine.OutputAST, hloop]
  · simpa [stackPostorder] using g3

/-- C24 on the tokens of `Aus  bus`: the last token with a rule in `nodeRules`
is SciName 0..8. -/
theorem OutputAST_single_root_witness :
    ∃ up p1 p2,
      OutputAST.loop exSpacedEngine.Tokens ([], exSpacedEngine)
        = some ([node32.mk ⟨ruleSciName, 0, 8⟩ up node32.nil], p1) ∧
      exSpacedEngine.OutputAST = some p2 ∧
      p2.root = node32.mk ⟨ruleSciName, 0, 8⟩ up node32.nil ∧
      p2.root.postorder = nodeTokens exSpacedEngine.Tokens :=
  OutputAST_single_root exSpacedEngine
    [⟨ruleGenusWord, 0, 3⟩, ⟨ruleMultipleSpace, 3, 5⟩, ⟨ruleWord, 5, 8⟩,
     ⟨ruleSpeciesEpithet, 5, 8⟩, ⟨ruleNameSpecies, 0, 8⟩, ⟨ruleSingleName, 0, 8⟩,
     ⟨ruleName, 0, 8⟩, ⟨ruleTail, 8, 8⟩]
    [⟨ruleOther 0, 8, 8⟩] ⟨ruleSciName, 0, 8⟩ rfl rfl (by decide) (by decide)

theorem OutputAST.pop_subset (token : token32) :
    ∀ (stack : List node32) (node node1 : node32) (stack1 : List node32),
      OutputAST.pop token node stack = some (node1, stack1) → ∀ s ∈ stack1, s ∈ stack := by
  intro stack
  induction stack with
  | nil =>
    intro node node1 stack1 h
    simp only [OutputAST.pop, Option.some.injEq, Prod.mk.injEq] at h
    rw [← h.2]
    exact fun s hs => hs
  | cons s down ih =>
    intro node node1 stack1 h
    cases s with
    | nil => simp [OutputAST.pop, stackNodeIsWithin] at h
    | mk st sup snext =>
      by_cases hin : (decide (st.begin ≥ token.begin) && decide (st.end_ ≤ token.end_)) = true
      · cases node with
        | nil => simp [OutputAST.pop, stackNodeIsWithin, hin] at h
        | mk nt nup nnext =>
          simp only [OutputAST.pop, stackNodeIsWithin, hin] at h
          exact fun u hu => List.mem_cons_of_mem _ (ih _ _ _ h u hu)
      · simp only [Bool.not_eq_true] at hin
        simp only [OutputAST.pop, stackNodeIsWithin, hin, Option.some.injEq,
          Prod.mk.injEq] at h
        rw [← h.2]
        exact fun u hu => hu

theorem OutputAST.pop_nested (token : token32) :
    ∀ (stack : List node32) (nt : token32) (nup nnext : node32) (node1 : node32)
      (stack1 : List node32),
      (∀ s ∈ stack, s.nested) → nup.nested → (∀ c ∈ nup.siblings, c.within token) →
      OutputAST.pop token (node32.mk nt nup nnext) stack = some (node1, stack1) →
      ∃ nup1, node1 = node32.mk nt nup1 nnext ∧ nup1.nested ∧
        (∀ c ∈ nup1.siblings, c.within token) ∧ ∀ s ∈ stack1, s.nested := by
  intro stack
  induction stack with
  | nil =>
    intro nt nup nnext node1 stack1 _ hn hw h
    simp only [OutputAST.pop, Option.some.injEq, Prod.mk.injEq] at h
    obtain ⟨h1, h2⟩ := h
    subst h1; subst h2
    exact ⟨nup, rfl, hn, hw, fun s hs => absurd hs (List.not_mem_nil _)⟩
  | cons s down ih =>
    intro nt nup nnext node1 stack1 hs hn hw h
    have hdown : ∀ s ∈ down, s.nested := fun u hu => hs u (List.mem_cons_of_mem _ hu)
    cases s with
    | nil => simp [OutputAST.pop, stackNodeIsWithin] at h
    | mk st sup snext =>
      have hsn := hs _ (List.mem_cons_self _ _)
      simp only [node32.nested] at hsn
      by_cases hin : (decide (st.begin ≥ token.begin) && decide (st.end_ ≤ token.end_)) = true
      · simp only [OutputAST.pop, stackNodeIsWithin, hin] at h
        have hin2 : token.begin ≤ st.begin ∧ st.end_ ≤ token.end_ := by
          simpa using hin
        refine ih nt (node32.mk st sup nup) nnext node1 stack1 hdown ?_ ?_ h
        · simp only [node32.nested]
          exact ⟨hsn.1, hsn.2.1, hn⟩
        · intro c hc
          simp only [node32.siblings, List.mem_cons] at hc
          rcases hc with hc | hc
          · rw [hc]
            exact hin2
          · exact hw c hc
      · simp only [Bool.not_eq_true] at hin
        simp only [OutputAST.pop, stackNodeIsWithin, hin, Option.some.injEq,
          Prod.mk.injEq] at h
        obtain ⟨h1, h2⟩ := h
        subst h1; subst h2
        exact ⟨nup, rfl, hn, hw, hs⟩

theorem OutputAST.loop_nested :
    ∀ (tokens : List token32) (stack stack1 : List node32) (p p1 : Engine),
      (∀ s ∈ stack, (∃ t up, s = node32.mk t up node32.nil) ∧ s.nested) →
      OutputAST.loop tokens (stack, p) = some (stack1, p1) →
      (∀ s ∈ stack1, (∃ t up, s = node32.mk t up node32.nil) ∧ s.nested) ∧
      Raises [SpaceMultipleWarn] p p1 ∧
      (SpaceMultipleWarn ∈ p1.Warnings ↔
        (∃ t ∈ tokens, t.pegRule = ruleMultipleSpace) ∨ SpaceMultipleWarn ∈ p.Warnings) := by
  intro tokens
  induction tokens with
  | nil =>
    intro stack stack1 p p1 hs h
    simp only [OutputAST.loop, Option.some.injEq, Prod.mk.injEq] at h
    obtain ⟨h1, h2⟩ := h
    subst h1; subst h2
    exact ⟨hs, Raises.refl p, by simp⟩
  | cons t rest ih =>
    intro stack stack1 p p1 hs h
    by_cases hr : nodeRules t.pegRule = true
    · have hne : t.pegRule ≠ ruleMultipleSpace := by
        intro e
        rw [e] at hr
        exact absurd hr (by decide)
      simp only [OutputAST.loop, Engine.newNode, hr, if_true] at h
      split at h
      · exact absurd h (by simp)
      · rename_i node1 stack0 hp
        obtain ⟨nup1, e1, n1, n2, n3⟩ := OutputAST.pop_nested t stack t node32.nil node32.nil
          node1 stack0 (fun s h' => (hs s h').2) (by simp [node32.nested])
          (by simp [node32.siblings]) hp
        subst e1
        obtain ⟨a, b, c⟩ := ih _ _ _ _ (by
          intro s h'
          rcases List.mem_cons.1 h' with h' | h'
          · rw [h']
            exact ⟨⟨t, nup1, rfl⟩, by simp only [node32.nested]; exact ⟨n2, n1, trivial⟩⟩
          · exact hs s (OutputAST.pop_subset t stack _ _ _ hp s h')) h
        refine ⟨a, b, c.trans ?_⟩
        constructor
        · rintro (⟨u, hu, hu2⟩ | hh)
          · exact Or.inl ⟨u, List.mem_cons_of_mem _ hu, hu2⟩
          · exact Or.inr hh
        · rintro (⟨u, hu, hu2⟩ | hh)
          · rcases List.mem_cons.1 hu with e | e
            · rw [e] at hu2
              exact absurd hu2 hne
            · exact Or.inl ⟨u, e, hu2⟩
          · exact Or.inr hh
    · simp only [Bool.not_eq_true] at hr
      simp only [OutputAST.loop, Engine.newNode, hr] at h
      obtain ⟨a, b, c⟩ := ih _ _ _ _ hs h
      refine ⟨a, (Raises.cond p _ _ (by decide)).trans b, c.trans ?_⟩
      constructor
      · rintro (⟨u, hu, hu2⟩ | hh)
        · exact Or.inl ⟨u, List.mem_cons_of_mem _ hu, hu2⟩
        · split at hh
          · rename_i hm
            exact Or.inl ⟨t, List.mem_cons_self _ _, hm⟩
          · exact Or.inr hh
      · rintro (⟨u, hu, hu2⟩ | hh)
        · rcases List.mem_cons.1 hu with e | e
          · rw [e] at hu2
            rw [if_pos hu2]
            exact Or.inr (addWarn_mem _ _)
          · exact Or.inl ⟨u, e, hu2⟩
        · right
          split
          · exact mem_addWarn_of_mem _ _ _ hh
          · exact hh

theorem siblings_tokens_sublist :
    ∀ (n : node32), (n.siblings.filterMap node32.token32?).Sublist n.forest := by
  intro n
  induction n with
  | nil => simp [node32.siblings, node32.forest]
  | mk t up next _ ih =>
    simp only [node32.siblings, node32.forest, List.filterMap_cons, node32.token32?,
      List.append_assoc, List.singleton_append]
    exact List.Sublist.trans (List.Sublist.cons₂ t ih) (List.sublist_append_right _ _)

theorem ordered_of_forest (F : List token32) :
    ∀ (n : node32), n.forest.Sublist F → n.ordered F := by
  intro n
  induction n with
  | nil => intro _; simp [node32.ordered]
  | mk t up next ihu ihn =>
    intro h
    simp only [node32.forest, List.append_assoc] at h
    have hup : up.forest.Sublist F := (List.sublist_append_left _ _).trans h
    have hnext : next.forest.Sublist F :=
      ((List.sublist_append_right _ _).trans (List.sublist_append_right _ _)).trans h
    simp only [node32.ordered]
    exact ⟨(siblings_tokens_sublist up).trans hup, ihu hup, ihn hnext⟩

theorem postorder_sublist_stack :
    ∀ (stack : List node32) (s : node32), s ∈ stack →
      s.postorder.Sublist (stackPostorder stack) := by
  intro stack
  induction stack with
  | nil => intro s h; exact absurd h (List.not_mem_nil _)
  | cons a down ih =>
    intro s h
    simp only [stackPostorder]
    rcases List.mem_cons.1 h with h | h
    · rw [h]
      exact List.sublist_append_right _ _
    · exact (ih s h).trans (List.sublist_append_left _ _)

/-- C25: `OutputAST` completes on every token sequence, and in each tree on its
stack (the top one is `p.root`) the span of every child lies within the span of
its parent and the tokens of the children of every node follow the order of
the token sequence; the nodes of the trees, in post-order, are exactly the
tokens with a rule in `nodeRules`, so that no other token makes a node;
`newNode` returns no node and `skip` for such a token; and SpaceMultipleWarn is
in the warning set afterwards exactly when there is a MultipleSpace token or
the warning was in the set before. -/
theorem OutputAST_nested (p : Engine) :
    ∃ stack p1 p2, OutputAST.loop p.Tokens ([], p) = some (stack, p1) ∧
      p.OutputAST = some p2 ∧ p2.Warnings = p1.Warnings ∧
      (∀ top rest, stack = top :: rest → p2.root = top) ∧
      (∀ s ∈ stack, s.nested ∧ s.ordered p.Tokens) ∧
      stackPostorder stack = p.Tokens.filter (fun t => nodeRules t.pegRule) ∧
      (∀ (q : Engine) (t : token32), nodeRules t.pegRule = false →
        (q.newNode t).1 = (node32.nil, true) ∧
        (q.newNode t).2 =
          (if t.pegRule = ruleMultipleSpace then q.addWarn SpaceMultipleWarn else q)) ∧
      (SpaceMultipleWarn ∈ p2.Warnings ↔
        (∃ t ∈ p.Tokens, t.pegRule = ruleMultipleSpace) ∨ SpaceMultipleWarn ∈ p.Warnings) := by
  obtain ⟨stack, p1, h1, _, h3⟩ := OutputAST.loop_spec p.Tokens [] p (by simp)
  obtain ⟨a, _, c⟩ := OutputAST.loop_nested p.Tokens [] stack p p1
    (fun s hs => absurd hs (List.not_mem_nil _)) h1
  have hpost : stackPostorder stack = p.Tokens.filter (fun t => nodeRules t.pegRule) := by
    simpa [stackPostorder, nodeTokens] using h3
  have hnodes : ∀ s ∈ stack, s.nested ∧ s.ordered p.Tokens := by
    intro s hs
    obtain ⟨⟨t, up, e⟩, hn⟩ := a s hs
    refine ⟨hn, ?_⟩
    have h5 := postorder_sublist_stack stack s hs
    rw [hpost] at h5
    have h6 : s.forest.Sublist p.Tokens := by
      rw [e] at h5 ⊢
      simp only [node32.postorder, node32.forest, List.append_nil] at h5 ⊢
      exact h5.trans (List.filter_sublist _)
    exact ordered_of_forest p.Tokens s h6
  have hnew : ∀ (q : Engine) (t : token32), nodeRules t.pegRule = false →
      (q.newNode t).1 = (node32.nil, true) ∧
      (q.newNode t).2 =
        (if t.pegRule = ruleMultipleSpace then q.addWarn SpaceMultipleWarn else q) := by
    intro q t ht
    simp [Engine.newNode, ht]
  cases stack with
  | nil =>
    refine ⟨[], p1, p1, h1, ?_, rfl, ?_, hnodes, hpost, hnew, c⟩
    · simp only [Engine.OutputAST, h1]
    · intro top rest e
      exact absurd e (by simp)
  | cons top rest =>
    refine ⟨top :: rest, p1, { p1 with root := top }, h1, ?_, rfl, ?_, hnodes, hpost, hnew, c⟩
    · simp only [Engine.OutputAST, h1]
    · intro top1 rest1 e
      injection e with e1 e2

/-- C25 on the tokens of `Aus  bus`: the root is nested and ordered, and the
MultipleSpace token has raised SpaceMultipleWarn. -/
theorem OutputAST_nested_witness :
    ∃ p2, exSpacedEngine.OutputAST = some p2 ∧ p2.root.nested ∧
      p2.root.ordered exSpacedEngine.Tokens ∧ SpaceMultipleWarn ∈ p2.Warnings := by
  obtain ⟨stack, p1, p2, _, h2, _, h4, h5, h6, _, h8⟩ := OutputAST_nested exSpacedEngine
  have hw := h8.2 (Or.inl ⟨⟨ruleMultipleSpace, 3, 5⟩, by decide, rfl⟩)
  cases stack with
  | nil =>
    simp only [stackPostorder] at h6
    exact absurd h6 (by decide)
  | cons top rest =>
    have hr := h4 top rest rfl
    have hn := h5 top (List.mem_cons_self _ _)
    rw [← hr] at hn
    exact ⟨p2, h2, hn.1, hn.2, hw⟩

end Gnparser
